import Mathlib

/-!
Verification of the budgeted sensor placement library for trees.

The repository computes optimal placements of a fixed budget of sensors on
the leaves of an unweighted tree under two objectives: the probability of
error `P_err` (src/sensor_placement/prob_err.py) and the expected distance
`E_dist` (src/sensor_placement/exp_dist.py with
src/sensor_placement/preprocess_exp_dist.py), together with brute-force
oracles (src/sensor_placement/utilities.py).

The development below embeds the code shallowly:

* `RTree` embeds the rooted (directed) view of the tree produced by
  `nx.dfs_tree(tree, source=root)`: a node id together with the ordered
  list of child subtrees (networkx successor order).
* the dynamic programs `_opt`/`_optc` of both modules are embedded as
  structural recursions over `RTree`; the `lru_cache` memoisation of the
  source is pure caching and does not change values, so it is dropped.
* Python's `float('infinity')` sentinel becomes `⊤` in `WithTop ℕ`
  (`P_err` costs are integers until the final division) and `WithTop ℚ`
  (`E_dist`); Python numbers are embedded as exact rationals.
* Python's `min` over a list of `(cost, witness)` pairs compares
  lexicographically and keeps the first minimum; `pyMin` below does the
  same.
* the undirected input graph of the entry points is embedded as `Graph`
  (a node list and an edge list, the adjacency-list input of the spec);
  Python `assert` failures are embedded as `Except` errors named after
  the error kinds of the spec (`InvalidBudget`, `NotATree`; the
  `random.choice` on an empty candidate list raises `IndexError`).
-/

namespace SensorPlacement

/-- Rooted view of a tree: a node id and the ordered list of child
subtrees.  This embeds the directed DFS tree that both optimizers build
with `nx.dfs_tree(tree, source=root)`. -/
inductive RTree : Type where
  | node (lab : ℕ) (kids : List RTree)

/-- Label (node id) at the root of a subtree. -/
def RTree.lab : RTree → ℕ
  | .node x _ => x

/-- Ordered children of the root of a subtree (`tree.successors(x)`). -/
def RTree.kids : RTree → List RTree
  | .node _ cs => cs

mutual
/-- Embeds `utilities.size_subtree`: the number of nodes of a subtree. -/
def size_subtree : RTree → ℕ
  | .node _ cs => 1 + sizeSubtrees cs

/-- Sum of the sizes of a list of subtrees. -/
def sizeSubtrees : List RTree → ℕ
  | [] => 0
  | c :: cs => size_subtree c + sizeSubtrees cs
end

mutual
/-- All node ids of a subtree, in depth-first preorder (the iteration
order of the directed graph produced by `nx.dfs_tree`). -/
def nodesOf : RTree → List ℕ
  | .node x cs => x :: nodesList cs

/-- Node ids of a list of subtrees, in order. -/
def nodesList : List RTree → List ℕ
  | [] => []
  | c :: cs => nodesOf c ++ nodesList cs
end

mutual
/-- The leaves (childless nodes) of a rooted subtree, in preorder.  For a
rooted view whose root is not a leaf of the undirected tree these are
exactly the degree-one nodes found by `utilities.find_leaves`. -/
def leavesOf : RTree → List ℕ
  | .node x cs =>
    match cs with
    | [] => [x]
    | c :: rest => leavesList (c :: rest)

/-- Leaves of a list of subtrees, in order. -/
def leavesList : List RTree → List ℕ
  | [] => []
  | c :: cs => leavesOf c ++ leavesList cs
end

/-- Well-formedness of a rooted view: all node ids are distinct (a graph
has one node per id). -/
def RTree.wf (t : RTree) : Prop := (nodesOf t).Nodup

mutual
/-- The list of ids on the path from the root of `t` down to `u`
(inclusive), if `u` occurs in `t`. -/
def pathTo : RTree → ℕ → Option (List ℕ)
  | .node x cs, u =>
    if u = x then some [x] else (pathToList cs u).map (fun p => x :: p)

/-- First path to `u` found among a list of subtrees. -/
def pathToList : List RTree → ℕ → Option (List ℕ)
  | [], _ => none
  | c :: cs, u =>
    match pathTo c u with
    | some p => some p
    | none => pathToList cs u
end

/-- Length of the longest common prefix of two lists. -/
def comLen : List ℕ → List ℕ → ℕ
  | a :: as, b :: bs => if a = b then 1 + comLen as bs else 0
  | _, _ => 0

/-- Graph distance between two nodes of the tree, computed from the
root paths.  This embeds the all-pairs distance table of the unweighted
tree (`nx.floyd_warshall` / `nx.all_pairs_dijkstra_path_length`), which
the spec treats as a black box producing `D[u][v]` = number of edges on
the unique `u`–`v` path. -/
def tdist (t : RTree) (u v : ℕ) : ℕ :=
  match pathTo t u, pathTo t v with
  | some p, some q => p.length + q.length - 2 * comLen p q
  | _, _ => 0

/-- Strict lexicographic order on witness tuples, as Python compares
tuples of node ids. -/
def lexLt : List ℕ → List ℕ → Bool
  | _, [] => false
  | [], _ :: _ => true
  | a :: as, b :: bs => if a < b then true else if a = b then lexLt as bs else false

/-- Strict comparison of `(cost, witness)` pairs, as Python compares the
tuples `(err, obs)`. -/
def pairLt {α : Type} [LinearOrder α] (p q : α × List ℕ) : Bool :=
  if p.1 < q.1 then true else if p.1 = q.1 then lexLt p.2 q.2 else false

/-- Python's `min` over a nonempty list of `(cost, witness)` pairs:
keeps the first minimum. -/
def pyMin {α : Type} [LinearOrder α] (x : α × List ℕ) (l : List (α × List ℕ)) :
    α × List ℕ :=
  l.foldl (fun acc r => if pairLt r acc then r else acc) x

mutual
/-- Embeds `prob_err._opt`: place `k` sensors on the leaves of a subtree,
minimising the unscaled unresolved-node count.  `root` is the id of the
root of the whole tree (`tree.graph['root']`), `b` the total budget
(`tree.graph['budget']`). -/
def opt_perr (root b : ℕ) : RTree → ℕ → WithTop ℕ × List ℕ
  | .node x cs, k =>
    if k = 0 then ((size_subtree (.node x cs) : ℕ), [])
    else if size_subtree (.node x cs) = 1 then
      if 1 < k then ((⊤ : WithTop ℕ), []) else ((0 : WithTop ℕ), [x])
    else
      let r := optc_perr root b x k cs
      if root ≠ x ∧ b = k then (r.1 + 1, r.2) else r

/-- Embeds `prob_err._optc`: distribute `k` sensors among a suffix of the
children of `x`. -/
def optc_perr (root b x : ℕ) : ℕ → List RTree → WithTop ℕ × List ℕ
  | k, [] => if 0 < k then ((⊤ : WithTop ℕ), []) else ((0 : WithTop ℕ), [])
  | k, c :: rest =>
    if k = 0 then ((sizeSubtrees (c :: rest) : ℕ), [])
    else
      match (List.range (k + 1)).map (fun l =>
          let r1 := opt_perr root b c l
          let r2 := optc_perr root b x (k - l) rest
          (r1.1 + r2.1, r1.2 ++ r2.2)) with
      | [] => ((⊤ : WithTop ℕ), [])
      | o :: os => pyMin o os
end

/-- Error kinds of the spec.  Python raises `AssertionError` for the budget
and tree predicates and `IndexError` for `random.choice` on an empty
sequence; the spec names the first two `InvalidBudget` and `NotATree`. -/
inductive PlacementError : Type where
  | InvalidBudget : PlacementError
  | NotATree : PlacementError
  | IndexError : PlacementError
  | AssertionFailed : PlacementError
deriving DecidableEq, Repr

/-- The undirected input graph: integer node ids and an edge list (the
adjacency-list representation of the spec, §6). -/
structure Graph : Type where
  nodes : List ℕ
  edges : List (ℕ × ℕ)

/-- Canonical undirected edge list: each edge with its smaller endpoint
first, duplicates removed (a networkx `Graph` stores simple edges). -/
def Graph.edgeList (G : Graph) : List (ℕ × ℕ) :=
  (G.edges.map (fun e => if e.1 ≤ e.2 then e else (e.2, e.1))).dedup

/-- Degree of a node (a self-loop counts twice, as in networkx). -/
def Graph.degree (G : Graph) (x : ℕ) : ℕ :=
  (G.edgeList.map
    (fun e => (if e.1 = x then 1 else 0) + (if e.2 = x then 1 else 0))).sum

/-- Neighbours of a node, in edge-list order. -/
def Graph.adj (G : Graph) (x : ℕ) : List ℕ :=
  G.edgeList.filterMap
    (fun e => if e.1 = x then some e.2 else if e.2 = x then some e.1 else none)

/-- Embeds `utilities.find_leaves`: the degree-one nodes; the sole node of
a one-node graph is a leaf. -/
def find_leaves (G : Graph) : List ℕ :=
  if G.nodes.length = 1 then G.nodes
  else G.nodes.filter (fun n => G.degree n = 1)

/-- Reachable set computed by repeated neighbour expansion (`fuel` rounds
suffice once `fuel` is at least the number of nodes). -/
def expandReach (G : Graph) : ℕ → List ℕ → List ℕ
  | 0, r => r
  | fuel + 1, r =>
    let r2 := (r ++ r.flatMap G.adj).dedup
    if r2.length = r.length then r else expandReach G fuel r2

/-- Connectivity of the input graph. -/
def Graph.connected (G : Graph) : Bool :=
  match G.nodes with
  | [] => false
  | x :: _ => G.nodes.all (fun v => v ∈ expandReach G G.nodes.length [x])

/-- Embeds `nx.is_tree`: nonempty, `|E| = n - 1` and connected (the spec
tree predicate; self-loops and parallel edges are impossible under these
two conditions on the canonical edge list). -/
def is_tree (G : Graph) : Bool :=
  decide (G.nodes ≠ []) && decide (G.edgeList.length + 1 = G.nodes.length)
    && G.connected

/-- Breadth-first distance search: returns the current depth when the
target is found (0 for an unreachable target; the oracle callers only use
it on connected trees, where it is the `D[u][v]` table of the spec). -/
def bfsDistAux (G : Graph) (v : ℕ) : ℕ → List ℕ → List ℕ → ℕ → ℕ
  | 0, _, _, _ => 0
  | fuel + 1, frontier, visited, d =>
    if v ∈ frontier then d
    else
      let next := ((frontier.flatMap G.adj).filter
        (fun y => !(visited.contains y))).dedup
      if next = [] then 0
      else bfsDistAux G v fuel next (visited ++ next) (d + 1)

/-- Graph distance table (embeds the `nx.floyd_warshall` /
`nx.all_pairs_dijkstra_path_length` black box on the unweighted graph). -/
def gdist (G : Graph) (u v : ℕ) : ℕ :=
  bfsDistAux G v (G.nodes.length + 1) [u] [u] 0

/-- Embeds `itertools.combinations`: all sorted-by-position subsets of
size `k`, in lexicographic order of positions. -/
def combinations {α : Type} : List α → ℕ → List (List α)
  | _, 0 => [[]]
  | [], _ + 1 => []
  | a :: as, k + 1 =>
    (combinations as k).map (fun s => a :: s) ++ combinations as (k + 1)

/-- Embeds `itertools.combinations(c, 2)`: all unordered pairs, first
index first. -/
def pairsOf {α : Type} : List α → List (α × α)
  | [] => []
  | a :: as => as.map (fun b => (a, b)) ++ pairsOf as

/-- Signature of node `n` w.r.t. the sensor tuple, as built by
`utilities.equivalence_classes`: the distance differences to the first
sensor.  The source scales by `10^8` and truncates to `int`; on integer
distance tables this scaling is injective, so the embedding keeps the
plain difference. -/
def signature (dist : ℕ → ℕ → ℤ) (sensors : List ℕ) (n : ℕ) : List ℤ :=
  match sensors with
  | [] => []
  | u :: rest => rest.map (fun v => dist n v - dist n u)

/-- Embeds `utilities.equivalence_classes`: groups the nodes by signature
and also returns the class cardinalities.  (The Python `defaultdict`
iteration order is unspecified in Python 2; the grouping below lists the
classes in order of distinct signatures.) -/
def equivalence_classes (dist : ℕ → ℕ → ℤ) (nodes sensors : List ℕ) :
    List (List ℕ) × List ℕ :=
  let keys := (nodes.map (signature dist sensors)).dedup
  let classes := keys.map
    (fun kk => nodes.filter (fun n => decide (signature dist sensors n = kk)))
  (classes, classes.map List.length)

/-- Embeds `utilities.prob_err_from_cardinalities`. -/
def prob_err_from_cardinalities (lens : List ℕ) : ℚ :=
  let n : ℚ := (lens.map (fun l : ℕ => (l : ℚ))).sum
  (lens.map (fun l : ℕ => ((l : ℚ) - 1) / n)).sum

/-- Embeds `utilities.exp_dist_from_classes`. -/
def exp_dist_from_classes (dist : ℕ → ℕ → ℚ) (nmat : ℕ)
    (classes : List (List ℕ)) : ℚ :=
  ((classes.map (fun c =>
    ((pairsOf c).map (fun p => 2 * dist p.1 p.2 / (c.length : ℚ))).sum)).sum)
    / (nmat : ℚ)

namespace Utilities

/-- Embeds `utilities.prob_err`: the brute-force P_err oracle.  The
`assert budget >= 2` is the `InvalidBudget` rejection; then every
`C(|leaves|, budget)` sensor tuple is scored and the first strict
improvement over the initial bound `2` is kept. -/
def prob_err (G : Graph) (leaves : List ℕ) (budget : ℕ) :
    Except PlacementError (ℚ × List ℕ) :=
  if budget < 2 then .error .InvalidBudget
  else
    let dist := fun u v => (gdist G u v : ℤ)
    let step := fun (acc : ℚ × List ℕ) (sensors : List ℕ) =>
      let cls := equivalence_classes dist G.nodes sensors
      let err := prob_err_from_cardinalities cls.2
      if err < acc.1 then (err, sensors) else acc
    .ok ((combinations leaves budget).foldl step (2, []))

/-- Embeds `utilities.exp_dist`: the brute-force E_dist oracle, with the
sum of all table entries as the initial bound. -/
def exp_dist (G : Graph) (leaves : List ℕ) (budget : ℕ) :
    Except PlacementError (ℚ × List ℕ) :=
  if budget < 2 then .error .InvalidBudget
  else
    let dist := fun u v => (gdist G u v : ℚ)
    let init : ℚ := (G.nodes.map (fun u => (G.nodes.map (dist u)).sum)).sum
    let step := fun (acc : ℚ × List ℕ) (sensors : List ℕ) =>
      let cls := equivalence_classes (fun u v => (gdist G u v : ℤ)) G.nodes
        sensors
      let e := exp_dist_from_classes dist G.nodes.length cls.1
      if e < acc.1 then (e, sensors) else acc
    .ok ((combinations leaves budget).foldl step (init, []))

end Utilities

/-- Embeds `nx.dfs_tree(tree, source=x)` on a tree: depth-first rooted
view, visiting neighbours in adjacency order and never walking back to
the parent.  `fuel` bounds the depth; the entry points pass the number of
nodes, which suffices on a tree. -/
def dfsTree (G : Graph) : ℕ → ℕ → ℕ → RTree
  | 0, x, _ => .node x []
  | fuel + 1, x, p =>
    .node x (((G.adj x).filter (fun y => y ≠ p)).map
      (fun y => dfsTree G fuel y x))

mutual
/-- The subtree of `t` rooted at the node with id `u`, if present. -/
def subAt : RTree → ℕ → Option RTree
  | .node x cs, u =>
    if u = x then some (.node x cs) else subAtList cs u

/-- First subtree rooted at `u` found in a list of subtrees. -/
def subAtList : List RTree → ℕ → Option RTree
  | [], _ => none
  | c :: cs, u =>
    match subAt c u with
    | some s => some s
    | none => subAtList cs u
end

/-- Parent id of `x` in the rooted view (`tree.predecessors(x)[0]`);
returns `x` itself at the root or for an absent node. -/
def parentOf (t : RTree) (x : ℕ) : ℕ :=
  match pathTo t x with
  | some p => p.dropLast.getLast?.getD x
  | none => x

/-- Subtrees rooted at the successive nodes of the path from the root of
`t` down to `x`. -/
def chainTo (t : RTree) (x : ℕ) : List RTree :=
  match pathTo t x with
  | some p => p.filterMap (subAt t)
  | none => []

mutual
/-- Embeds `preprocess_exp_dist.sum_dist_below`: the sum of distances
from the root of a subtree to all nodes of that subtree, via the
recurrence `Σ_c (sum_below(c) + D[u][c]·size(c))`. -/
def sum_dist_below (t : RTree) : RTree → ℕ
  | .node u cs => sumBelowList t u cs

/-- The children sum in `sum_dist_below`. -/
def sumBelowList (t : RTree) (u : ℕ) : List RTree → ℕ
  | [] => 0
  | c :: cs =>
    (sum_dist_below t c + tdist t u c.lab * size_subtree c)
      + sumBelowList t u cs
end

/-- Embeds the recursion of `preprocess_exp_dist.sum_dist_above` along
the (reversed) root path: the root gets `0`, and a node `u` with parent
`p` gets `sum_above(p) + (sum_below(p) - sum_below(u) - D[u][p]·size(u))
+ D[u][p]·(n - size(u))`.  Computed in `ℤ` as Python computes with signed
integers. -/
def sumAboveChain (t : RTree) : List RTree → ℤ
  | [] => 0
  | [_] => 0
  | u :: p :: rest =>
    sumAboveChain t (p :: rest)
      + ((sum_dist_below t p : ℤ) - (sum_dist_below t u : ℤ)
          - (tdist t u.lab p.lab : ℤ) * (size_subtree u : ℤ))
      + (tdist t u.lab p.lab : ℤ)
          * (((nodesOf t).length : ℤ) - (size_subtree u : ℤ))

/-- Embeds `preprocess_exp_dist.sum_dist_above` for the node with id
`x`: the sum of distances from `x` to all nodes outside its subtree. -/
def sum_dist_above (t : RTree) (x : ℕ) : ℤ :=
  sumAboveChain t (chainTo t x).reverse

/-- Sorting helper (`sorted(...)` on node-id tuples). -/
def sortNat (l : List ℕ) : List ℕ := l.insertionSort (fun a b => a ≤ b)

/-- Embeds `preprocess_exp_dist.exp_distance`: the unnormalised sum `W`
of pairwise distances (ordered pairs) inside the class made of a node
`u` and the subtrees rooted at the selected children `sel`.  A childless
node (degree one in the rooted view with a non-leaf root) or an empty
selection gives `0`. -/
def exp_distance (t : RTree) : RTree → List ℕ → ℕ
  | .node u cs, sel =>
    if cs.isEmpty || sel.isEmpty then 0
    else
      let selC := cs.attach.filter (fun c => decide (c.1.lab ∈ sel))
      let sizeBelow := (selC.map (fun c => size_subtree c.1)).sum
      (selC.map (fun c =>
        exp_distance t c.1 (sortNat (c.1.kids.map RTree.lab)))).sum
      + (selC.map (fun c =>
          2 * (sum_dist_below t c.1 + tdist t u c.1.lab * size_subtree c.1)
            * (sizeBelow - size_subtree c.1))).sum
      + (selC.map (fun c =>
          2 * (sum_dist_below t c.1 + tdist t u c.1.lab * size_subtree c.1))).sum
termination_by s _ => sizeOf s
decreasing_by
  have := List.sizeOf_lt_of_mem c.2
  simp only [RTree.node.sizeOf_spec]
  omega

/-- Embeds `preprocess_exp_dist.exp_distance_parent` along the chain of
subtrees from the target node up to the root (first element: the target's
subtree).  At call time the `exp_dist` table read by the source still
holds the unnormalised `exp_distance` values (the normalisation loop
overwrites entries only after the memoised `exp_distance_parent` calls
for that node have been cached), so the recursion below uses
`exp_distance` directly. -/
def exp_distance_parent (t : RTree) : List RTree → List ℕ → ℤ
  | [], _ => 0
  | [u], sel => (exp_distance t u sel : ℤ)
  | u :: p :: rest, sel =>
    let selC := u.kids.filter (fun c => decide (c.lab ∈ sel))
    let sum_below_sel : ℤ := (selC.map (fun c =>
      (sum_dist_below t c : ℤ)
        + (tdist t u.lab c.lab : ℤ) * (size_subtree c : ℤ))).sum
    let size_above : ℤ := ((nodesOf t).length : ℤ) - (size_subtree u : ℤ)
    let size_below : ℤ := (selC.map (fun c => (size_subtree c : ℤ))).sum + 1
    (exp_distance t u sel : ℤ)
      + exp_distance_parent t (p :: rest)
          (sortNat ((p.kids.map RTree.lab).filter (fun y => y ≠ u.lab)))
      + 2 * (sum_below_sel * size_above
          + sum_dist_above t u.lab * size_below)

/-- Cardinality of the class formed by a node and the subtrees at the
selected children (`size_classes[x][sel]` in the source): the sizes of
the selected subtrees, plus one for the node itself when the selection
is nonempty. -/
def size_class_children (s : RTree) (sel : List ℕ) : ℕ :=
  let base := ((s.kids.filter (fun c => decide (c.lab ∈ sel))).map
    size_subtree).sum
  if base ≠ 0 then base + 1 else 0

/-- The normalised expected-distance table built by
`preprocess_exp_dist.preprocess` and stored as
`directed.graph['exp_dist']`, as a function of the node id and the
canonical key.  Children-only keys hold `W(x,S)/|T(x,S)|` (the empty key
keeps its unnormalised initial value `0`); keys prefixed with the parent
hold `W⁺(x,S)` divided by `n - size(x) + max(|T(x,S)|, 1)`. -/
def tableVal (t : RTree) (x : ℕ) (key : List ℕ) : ℚ :=
  match subAt t x with
  | none => 0
  | some s =>
    if x = t.lab then
      if key = [] then 0
      else (exp_distance t s key : ℚ) / (size_class_children s key : ℚ)
    else
      if key.head? = some (parentOf t x) then
        let sel := key.tail
        (exp_distance_parent t (chainTo t x).reverse sel : ℚ)
          / (((nodesOf t).length : ℚ) - (size_subtree s : ℚ)
              + (max (size_class_children s sel) 1 : ℚ))
      else if key = [] then 0
      else (exp_distance t s key : ℚ) / (size_class_children s key : ℚ)

/-- Canonical dictionary key for an equivalence class at `x` built by
`exp_dist._optc` from the non-sensored neighbours: the parent id, when
present, stays in front and the rest is sorted. -/
def edistKey (par : ℕ → ℕ) (root x : ℕ) (equiv : List ℕ) : List ℕ :=
  if 1 < equiv.length ∧ root ≠ x ∧ equiv.head? = some (par x)
  then par x :: sortNat equiv.tail
  else sortNat equiv

mutual
/-- Embeds `exp_dist._opt`, parametrised by the class-value table
`table` and the parent map `par` of the preprocessed tree (the entry
point instantiates them with `tableVal`/`parentOf`). -/
def opt_edist (table : ℕ → List ℕ → ℚ) (par : ℕ → ℕ) (root b : ℕ) :
    RTree → ℕ → WithTop ℚ × List ℕ
  | .node x cs, k =>
    if cs.isEmpty then
      if 1 < k then ((⊤ : WithTop ℚ), []) else ((0 : WithTop ℚ), [x])
    else
      let ns := if root ≠ x ∧ b = k then [par x] else []
      optc_edist table par root b x k cs ns
termination_by t _ => sizeOf t
decreasing_by
  simp only [RTree.node.sizeOf_spec]
  omega

/-- Embeds `exp_dist._optc`: distribute `k` sensors among a suffix of
the children of `x`, carrying the neighbours of `x` already known to be
sensor-free. -/
def optc_edist (table : ℕ → List ℕ → ℚ) (par : ℕ → ℕ) (root b x : ℕ) :
    ℕ → List RTree → List ℕ → WithTop ℚ × List ℕ
  | k, [], ns =>
    if 0 < k then ((⊤ : WithTop ℚ), [])
    else ((table x (edistKey par root x ns) : ℚ), [])
  | k, c :: rest, ns =>
    if k = 0 then
      ((table x (edistKey par root x (ns ++ (c :: rest).map RTree.lab)) : ℚ),
        [])
    else
      let specials :=
        if root ≠ x ∧ b = k then
          (c :: rest).attach.map (fun c2 => opt_edist table par root b c2.1 k)
        else []
      let skip := optc_edist table par root b x k rest (ns ++ [c.lab])
      let splits := (List.range' 1 (min k (b - 1))).map (fun l =>
        let r1 := opt_edist table par root b c l
        let r2 := optc_edist table par root b x (k - l) rest ns
        (r1.1 + r2.1, r1.2 ++ r2.2))
      match specials ++ skip :: splits with
      | [] => ((⊤ : WithTop ℚ), [])
      | o :: os => pyMin o os
termination_by _ cs _ => sizeOf cs
decreasing_by
  all_goals simp only [List.cons.sizeOf_spec]
  all_goals first
    | omega
    | (have h9 := List.sizeOf_lt_of_mem c2.2;
       simp only [List.cons.sizeOf_spec] at h9; omega)
end

/-- The non-leaf root candidates handed to `random.choice`. -/
def nonLeaves (G : Graph) : List ℕ :=
  G.nodes.filter (fun x => ¬ x ∈ find_leaves G)

namespace ExpDist

/-- Embeds `exp_dist.optimal_placement`.  Note the order of the checks in
the source: the tree predicate is only asserted inside
`preprocess_exp_dist.preprocess`, which runs after the saturation
shortcut and the root choice. -/
def optimal_placement (G : Graph) (budget : ℕ) (pick : List ℕ → Option ℕ) :
    Except PlacementError (WithTop ℚ × List ℕ) :=
  if budget < 2 then .error .InvalidBudget
  else
    let leaves := find_leaves G
    if leaves.length ≤ budget then .ok ((0 : WithTop ℚ), leaves)
    else
      match pick (nonLeaves G) with
      | none => .error .IndexError
      | some root =>
        if ¬ root ∈ G.nodes then .error .AssertionFailed
        else if ¬ is_tree G then .error .NotATree
        else
          let t := dfsTree G G.nodes.length root root
          let r := opt_edist (tableVal t) (parentOf t) root budget t budget
          .ok (WithTop.map (fun e : ℚ => e / (G.nodes.length : ℚ)) r.1, r.2)

end ExpDist

namespace ProbErr

/-- Embeds `prob_err.optimal_placement`.  `pick` stands for
`random.choice` over the non-leaf nodes (`none` models the `IndexError`
it raises on an empty candidate list); everything else follows the
source line by line: budget assert, tree assert, saturation shortcut,
root choice, DFS rooting, dynamic program, final division by `n`. -/
def optimal_placement (G : Graph) (budget : ℕ) (pick : List ℕ → Option ℕ) :
    Except PlacementError (WithTop ℚ × List ℕ) :=
  if budget < 2 then .error .InvalidBudget
  else if ¬ is_tree G then .error .NotATree
  else
    let leaves := find_leaves G
    if leaves.length ≤ budget then .ok ((0 : WithTop ℚ), leaves)
    else
      match pick (nonLeaves G) with
      | none => .error .IndexError
      | some root =>
        let t := dfsTree G G.nodes.length root root
        let r := opt_perr root budget t budget
        .ok (WithTop.map (fun e : ℕ => (e : ℚ) / (G.nodes.length : ℚ)) r.1,
          r.2)

end ProbErr

mutual
/-- Simultaneous structural induction over rose trees and forests. -/
def rtree_ind {P : RTree → Prop} {Q : List RTree → Prop}
    (hnode : ∀ x cs, Q cs → P (.node x cs)) (hnil : Q [])
    (hcons : ∀ c cs, P c → Q cs → Q (c :: cs)) : ∀ t, P t
  | .node x cs => hnode x cs (rtree_ind_list hnode hnil hcons cs)

/-- Forest half of `rtree_ind`. -/
def rtree_ind_list {P : RTree → Prop} {Q : List RTree → Prop}
    (hnode : ∀ x cs, Q cs → P (.node x cs)) (hnil : Q [])
    (hcons : ∀ c cs, P c → Q cs → Q (c :: cs)) : ∀ l, Q l
  | [] => hnil
  | c :: cs =>
    hcons c cs (rtree_ind hnode hnil hcons c)
      (rtree_ind_list hnode hnil hcons cs)
end

/-- List `p` is an initial segment of list `q`. -/
def isPre {α : Type} (p q : List α) : Prop := ∃ r, q = p ++ r

/-- Size of the subtree rooted at the node with id `x` (attribute
`size` of the preprocessed tree). -/
def sizeAt (t : RTree) (x : ℕ) : ℕ :=
  match subAt t x with
  | some s => size_subtree s
  | none => 0

/-- Attribute `sum_below` of the node with id `x`. -/
def sumBelowAt (t : RTree) (x : ℕ) : ℕ :=
  match subAt t x with
  | some s => sum_dist_below t s
  | none => 0

mutual
/-- The unscaled P_err cost that the dynamic program assigns to a fixed
placement: a sensor-free subtree contributes its size, a leaf carrying
its own sensor contributes `0`, and otherwise the children contribute
recursively, plus the `+1` penalty of `_opt` when the subtree receives
the whole budget. -/
def costOf (b : ℕ) : RTree → List ℕ → ℕ
  | .node x cs, S =>
    if S = [] then size_subtree (.node x cs)
    else if cs.isEmpty then 0
    else costOfList b cs S + (if S.length = b then 1 else 0)

/-- Children sum of `costOf`: each child scores the sensors that are
leaves of its own subtree. -/
def costOfList (b : ℕ) : List RTree → List ℕ → ℕ
  | [], _ => 0
  | c :: rest, S =>
    costOf b c (S.filter (fun y => decide (y ∈ leavesOf c)))
      + costOfList b rest S
end

/-- The cost of a placement seen from the root, where `_opt` adds no
penalty. -/
def costRoot (b : ℕ) (t : RTree) (S : List ℕ) : ℕ := costOfList b t.kids S

/-- Leaves of the subtree rooted at `u` (empty if `u` is not a node). -/
def leavesAt (t : RTree) (u : ℕ) : List ℕ :=
  match subAt t u with
  | none => []
  | some s => leavesOf s

/-- The sensors of `S` that lie in the subtree rooted at `u`: the sensor
sublist handed to the node `u` by the DP recursion. -/
def sBelow (t : RTree) (S : List ℕ) (u : ℕ) : List ℕ :=
  S.filter (fun y => decide (y ∈ leavesAt t u))

/-- Leaves of the subtree rooted at `u` inside a forest. -/
def leavesAtF (cs : List RTree) (u : ℕ) : List ℕ :=
  match subAtList cs u with
  | none => []
  | some s => leavesOf s

/-- Sensors of `S` lying in the subtree rooted at `u` inside a forest. -/
def sBelowF (cs : List RTree) (S : List ℕ) (u : ℕ) : List ℕ :=
  S.filter (fun y => decide (y ∈ leavesAtF cs u))

/-- The nodes whose subtree contains at least one sensor of `S`. -/
def posNodes (t : RTree) (S : List ℕ) : List ℕ :=
  (nodesOf t).filter (fun u => decide (sBelow t S u ≠ []))

/-- The nodes whose subtree contains all `b` sensors of `S`. -/
def fullNodes (b : ℕ) (t : RTree) (S : List ℕ) : List ℕ :=
  (nodesOf t).filter (fun u => decide ((sBelow t S u).length = b))

/-- Minimum of a list of costs (with `⊤` for an empty list). -/
def minCosts {α : Type} [LinearOrder α] [OrderTop α] (l : List α) : α :=
  l.foldr min ⊤

/-- Fuel-structural evaluator for `exp_distance` (the kernel cannot
reduce well-founded recursion, so concrete runs go through this twin). -/
def exp_distanceF (t : RTree) : ℕ → RTree → List ℕ → ℕ
  | 0, _, _ => 0
  | fuel + 1, .node u cs, sel =>
    if cs.isEmpty || sel.isEmpty then 0
    else
      let selC := cs.attach.filter (fun c => decide (c.1.lab ∈ sel))
      let sizeBelow := (selC.map (fun c => size_subtree c.1)).sum
      (selC.map (fun c =>
        exp_distanceF t fuel c.1 (sortNat (c.1.kids.map RTree.lab)))).sum
      + (selC.map (fun c =>
          2 * (sum_dist_below t c.1 + tdist t u c.1.lab * size_subtree c.1)
            * (sizeBelow - size_subtree c.1))).sum
      + (selC.map (fun c =>
          2 * (sum_dist_below t c.1
            + tdist t u c.1.lab * size_subtree c.1))).sum

/-- Fuel-structural evaluator for `exp_distance_parent`. -/
def exp_distance_parentF (t : RTree) (fuel : ℕ) : List RTree → List ℕ → ℤ
  | [], _ => 0
  | [u], sel => (exp_distanceF t fuel u sel : ℤ)
  | u :: p :: rest, sel =>
    let selC := u.kids.filter (fun c => decide (c.lab ∈ sel))
    let sum_below_sel : ℤ := (selC.map (fun c =>
      (sum_dist_below t c : ℤ)
        + (tdist t u.lab c.lab : ℤ) * (size_subtree c : ℤ))).sum
    let size_above : ℤ := ((nodesOf t).length : ℤ) - (size_subtree u : ℤ)
    let size_below : ℤ := (selC.map (fun c => (size_subtree c : ℤ))).sum + 1
    (exp_distanceF t fuel u sel : ℤ)
      + exp_distance_parentF t fuel (p :: rest)
          (sortNat ((p.kids.map RTree.lab).filter (fun y => y ≠ u.lab)))
      + 2 * (sum_below_sel * size_above
          + sum_dist_above t u.lab * size_below)

/-- Fuel-structural evaluator for `tableVal`. -/
def tableValF (t : RTree) (fuel : ℕ) (x : ℕ) (key : List ℕ) : ℚ :=
  match subAt t x with
  | none => 0
  | some s =>
    if x = t.lab then
      if key = [] then 0
      else (exp_distanceF t fuel s key : ℚ) / (size_class_children s key : ℚ)
    else
      if key.head? = some (parentOf t x) then
        let sel := key.tail
        (exp_distance_parentF t fuel (chainTo t x).reverse sel : ℚ)
          / (((nodesOf t).length : ℚ) - (size_subtree s : ℚ)
              + (max (size_class_children s sel) 1 : ℚ))
      else if key = [] then 0
      else (exp_distanceF t fuel s key : ℚ) / (size_class_children s key : ℚ)

/-- Fuel-structural evaluator for the mutual pair
`opt_edist`/`optc_edist`, with the two entry shapes merged into a sum. -/
def edF (table : ℕ → List ℕ → ℚ) (par : ℕ → ℕ) (root b : ℕ) :
    ℕ → Sum (RTree × ℕ) (ℕ × ℕ × List RTree × List ℕ) →
      WithTop ℚ × List ℕ
  | 0, _ => ((⊤ : WithTop ℚ), [])
  | fuel + 1, .inl (.node x cs, k) =>
    if cs.isEmpty then
      if 1 < k then ((⊤ : WithTop ℚ), []) else ((0 : WithTop ℚ), [x])
    else
      edF table par root b fuel
        (.inr (x, k, cs, if root ≠ x ∧ b = k then [par x] else []))
  | fuel + 1, .inr (x, k, [], ns) =>
    if 0 < k then ((⊤ : WithTop ℚ), [])
    else ((table x (edistKey par root x ns) : ℚ), [])
  | fuel + 1, .inr (x, k, c :: rest, ns) =>
    if k = 0 then
      ((table x (edistKey par root x (ns ++ (c :: rest).map RTree.lab)) : ℚ),
        [])
    else
      let specials :=
        if root ≠ x ∧ b = k then
          (c :: rest).attach.map (fun c2 =>
            edF table par root b fuel (.inl (c2.1, k)))
        else []
      let skip := edF table par root b fuel (.inr (x, k, rest, ns ++ [c.lab]))
      let splits := (List.range' 1 (min k (b - 1))).map (fun l =>
        let r1 := edF table par root b fuel (.inl (c, l))
        let r2 := edF table par root b fuel (.inr (x, k - l, rest, ns))
        (r1.1 + r2.1, r1.2 ++ r2.2))
      match specials ++ skip :: splits with
      | [] => ((⊤ : WithTop ℚ), [])
      | o :: os => pyMin o os

/-- The 4-cycle: connected but `|E| = n`, hence not a tree. -/
def cycle4 : Graph := ⟨[0, 1, 2, 3], [(0, 1), (1, 2), (2, 3), (3, 0)]⟩

/-- The 9-node double broom `0–1, 0–2, 2–3–4–5, 2–6–7–8`, a valid tree
on which the E_dist dynamic program's answer depends on the chosen
root. -/
def Gx : Graph := ⟨[0, 1, 2, 3, 4, 5, 6, 7, 8],
  [(0, 1), (0, 2), (2, 3), (3, 4), (4, 5), (2, 6), (6, 7), (7, 8)]⟩

/-- `Gx` rooted at the non-leaf `0` (the head of the candidate list). -/
def tGx : RTree := dfsTree Gx 9 0 0

/-- `Gx` rooted at the non-leaf `2` (the second candidate). -/
def tGx2 : RTree := dfsTree Gx 9 2 2

/-- The well-founded pair `opt_edist`/`optc_edist` evaluated on a merged
argument. -/
def evalArg (table : ℕ → List ℕ → ℚ) (par : ℕ → ℕ) (root b : ℕ) :
    Sum (RTree × ℕ) (ℕ × ℕ × List RTree × List ℕ) → WithTop ℚ × List ℕ
  | .inl (s, k) => opt_edist table par root b s k
  | .inr (x, k, cs, ns) => optc_edist table par root b x k cs ns

/-! ## Generic facts about the Python minimum over candidate lists -/

theorem minCosts_cons {α : Type} [LinearOrder α] [OrderTop α] (a : α)
    (l : List α) : minCosts (a :: l) = min a (minCosts l) := rfl

theorem minCosts_perm {α : Type} [LinearOrder α] [OrderTop α]
    {l₁ l₂ : List α} (h : l₁.Perm l₂) : minCosts l₁ = minCosts l₂ := by
  induction h with
  | nil => rfl
  | cons x _ ih => simp [minCosts_cons, ih]
  | swap x y l =>
    simp only [minCosts_cons]
    rw [min_left_comm]
  | trans _ _ ih1 ih2 => exact ih1.trans ih2

/-- The cost component of the first element of a `pyMin` step. -/
theorem pairLt_fst {α : Type} [LinearOrder α] (p q : α × List ℕ) :
    (if pairLt p q then p else q).1 = min p.1 q.1 := by
  by_cases h1 : p.1 < q.1
  · simp [pairLt, h1, min_eq_left h1.le]
  · by_cases h2 : p.1 = q.1
    · rcases h3 : lexLt p.2 q.2 <;> simp [pairLt, h1, h2, h3, min_eq_right (le_of_not_gt h1)]
    · simp [pairLt, h1, h2, min_eq_right (le_of_not_gt h1)]

/-- The cost returned by the Python `min` is the minimum of the costs in
the candidate list. -/
theorem pyMin_fst {α : Type} [LinearOrder α] [OrderTop α]
    (o : α × List ℕ) (os : List (α × List ℕ)) :
    (pyMin o os).1 = minCosts ((o :: os).map Prod.fst) := by
  induction os generalizing o with
  | nil => simp [pyMin, minCosts]
  | cons r os ih =>
    have step : pyMin o (r :: os) = pyMin (if pairLt r o then r else o) os := rfl
    rw [step, ih]
    simp only [List.map_cons, minCosts_cons, pairLt_fst]
    rw [← min_assoc, min_comm r.1 o.1]

/-! ## Rooted-tree path infrastructure -/

theorem pathTo_isSome_iff_aux (u : ℕ) :
    (∀ t : RTree, (pathTo t u).isSome ↔ u ∈ nodesOf t) ∧
    (∀ l : List RTree, (pathToList l u).isSome ↔ u ∈ nodesList l) := by
  refine ⟨rtree_ind ?hn ?h0 ?hc, rtree_ind_list ?hn ?h0 ?hc⟩
  case hn =>
    intro x cs ih
    by_cases hux : u = x <;> simp [pathTo, nodesOf, hux, ih]
  case h0 => simp [pathToList, nodesList]
  case hc =>
    intro c cs ihc ihcs
    rcases h : pathTo c u with _ | p <;>
      simp [pathToList, nodesList, h, ihcs, ← ihc, h]

theorem pathTo_isSome_iff (t : RTree) (u : ℕ) :
    (pathTo t u).isSome ↔ u ∈ nodesOf t := (pathTo_isSome_iff_aux u).1 t

theorem pathToList_isSome_iff (l : List RTree) (u : ℕ) :
    (pathToList l u).isSome ↔ u ∈ nodesList l := (pathTo_isSome_iff_aux u).2 l

theorem pathTo_of_mem {t : RTree} {u : ℕ} (h : u ∈ nodesOf t) :
    ∃ p, pathTo t u = some p := by
  have := (pathTo_isSome_iff t u).mpr h
  rcases hp : pathTo t u with _ | p
  · rw [hp] at this; simp at this
  · exact ⟨p, rfl⟩

theorem mem_of_pathTo {t : RTree} {u : ℕ} {p : List ℕ}
    (h : pathTo t u = some p) : u ∈ nodesOf t := by
  have : (pathTo t u).isSome := by rw [h]; rfl
  exact (pathTo_isSome_iff t u).mp this

theorem pathToList_mem {l : List RTree} {u : ℕ} {p : List ℕ}
    (h : pathToList l u = some p) : ∃ c ∈ l, pathTo c u = some p := by
  induction l with
  | nil => simp [pathToList] at h
  | cons c cs ih =>
    rcases hc : pathTo c u with _ | q
    · simp only [pathToList, hc] at h
      rcases ih h with ⟨c2, hc2, hp⟩
      exact ⟨c2, by simp [hc2], hp⟩
    · simp only [pathToList, hc] at h
      exact ⟨c, by simp, by rw [hc, h]⟩

theorem pathTo_shape {t : RTree} {u : ℕ} {p : List ℕ}
    (h : pathTo t u = some p) : ∃ q, p = t.lab :: q := by
  obtain ⟨x, cs⟩ := t
  by_cases hux : u = x
  · simp [pathTo, hux] at h
    exact ⟨[], by simp [RTree.lab, ← h]⟩
  · simp only [pathTo, hux, if_false, Option.map_eq_some'] at h
    rcases h with ⟨q, _, hq⟩
    exact ⟨q, by simp [RTree.lab, ← hq]⟩

theorem pathTo_self (t : RTree) : pathTo t t.lab = some [t.lab] := by
  obtain ⟨x, cs⟩ := t
  simp [pathTo, RTree.lab]

theorem pathTo_getLast :
    ∀ t : RTree, ∀ u p, pathTo t u = some p → p.getLast? = some u := by
  refine rtree_ind (Q := fun l => ∀ u p, pathToList l u = some p →
    p.getLast? = some u) ?_ ?_ ?_
  · intro x cs ih u p h
    by_cases hux : u = x
    · simp [pathTo, hux] at h
      simp [← h, hux]
    · simp only [pathTo, hux, if_false, Option.map_eq_some'] at h
      rcases h with ⟨q, hq, hp⟩
      have := ih u q hq
      rw [← hp]
      rcases q with _ | ⟨a, as⟩
      · simp at this
      · simpa using this
  · intro u p h
    simp [pathToList] at h
  · intro c cs ihc ihcs u p h
    rcases hc : pathTo c u with _ | q
    · simp only [pathToList, hc] at h
      exact ihcs u p h
    · simp only [pathToList, hc] at h
      exact Option.some.inj h ▸ ihc u q hc

theorem wf_kids {x : ℕ} {cs : List RTree} (h : (RTree.node x cs).wf) :
    (nodesList cs).Nodup ∧ x ∉ nodesList cs := by
  simp only [RTree.wf, nodesOf, List.nodup_cons] at h
  exact ⟨h.2, h.1⟩

theorem nodesList_nodup_parts {c : RTree} {cs : List RTree}
    (h : (nodesList (c :: cs)).Nodup) :
    (nodesOf c).Nodup ∧ (nodesList cs).Nodup ∧
      ∀ u, u ∈ nodesOf c → u ∉ nodesList cs := by
  simp only [nodesList, List.nodup_append] at h
  exact ⟨h.1, h.2.1, fun u hu hv => h.2.2 hu hv⟩

theorem wf_of_mem_forest :
    ∀ {cs : List RTree}, (nodesList cs).Nodup → ∀ {c}, c ∈ cs →
      (nodesOf c).Nodup := by
  intro cs
  induction cs with
  | nil => intro _ c hc; simp at hc
  | cons c0 cs ih =>
    intro h c hc
    rcases nodesList_nodup_parts h with ⟨h1, h2, _⟩
    rcases List.mem_cons.mp hc with rfl | hc
    · exact h1
    · exact ih h2 hc

theorem RTree.wf_kid {x : ℕ} {cs : List RTree} (h : (RTree.node x cs).wf)
    {c : RTree} (hc : c ∈ cs) : c.wf :=
  wf_of_mem_forest (wf_kids h).1 hc

theorem mem_nodesList_of_mem {cs : List RTree} {c : RTree} (hc : c ∈ cs)
    {u : ℕ} (hu : u ∈ nodesOf c) : u ∈ nodesList cs := by
  induction cs with
  | nil => simp at hc
  | cons c0 cs ih =>
    rcases List.mem_cons.mp hc with rfl | hc
    · simp only [nodesList]
      exact List.mem_append.mpr (Or.inl hu)
    · simp only [nodesList]
      exact List.mem_append.mpr (Or.inr (ih hc))

theorem mem_forest_unique {cs : List RTree} (h : (nodesList cs).Nodup)
    {c c2 : RTree} (hc : c ∈ cs) (hc2 : c2 ∈ cs) {u : ℕ}
    (hu : u ∈ nodesOf c) (hu2 : u ∈ nodesOf c2) : c = c2 := by
  induction cs with
  | nil => simp at hc
  | cons c0 cs ih =>
    rcases nodesList_nodup_parts h with ⟨_, h2, hdisj⟩
    rcases List.mem_cons.mp hc with rfl | hcc <;>
      rcases List.mem_cons.mp hc2 with rfl | hcc2
    · rfl
    · exact absurd (mem_nodesList_of_mem hcc2 hu2) (hdisj u hu)
    · exact absurd (mem_nodesList_of_mem hcc hu) (hdisj u hu2)
    · exact ih h2 hcc hcc2

theorem pathToList_eq_of_mem {cs : List RTree}
    (hnd : (nodesList cs).Nodup) {c : RTree} (hc : c ∈ cs) {u : ℕ}
    {p : List ℕ} (h : pathTo c u = some p) : pathToList cs u = some p := by
  induction cs with
  | nil => simp at hc
  | cons c0 cs ih =>
    rcases nodesList_nodup_parts hnd with ⟨_, h2, hdisj⟩
    rcases List.mem_cons.mp hc with rfl | hcc
    · simp [pathToList, h]
    · have hu : u ∈ nodesOf c := mem_of_pathTo h
      have hu0 : u ∉ nodesOf c0 := by
        intro hu0
        exact hdisj u hu0 (mem_nodesList_of_mem hcc hu)
      have h0 : pathTo c0 u = none := by
        rcases hp0 : pathTo c0 u with _ | q
        · rfl
        · exact absurd (mem_of_pathTo hp0) hu0
      simp only [pathToList, h0]
      exact ih h2 hcc

theorem pathTo_kid {x : ℕ} {cs : List RTree} (hwf : (RTree.node x cs).wf)
    {c : RTree} (hc : c ∈ cs) {u : ℕ} {p : List ℕ}
    (h : pathTo c u = some p) :
    pathTo (RTree.node x cs) u = some (x :: p) := by
  have hux : u ≠ x := by
    intro he
    exact (wf_kids hwf).2
      (he ▸ mem_nodesList_of_mem hc (mem_of_pathTo h))
  simp [pathTo, hux, pathToList_eq_of_mem (wf_kids hwf).1 hc h]

theorem pathTo_descend {x : ℕ} {cs : List RTree} {u a : ℕ} {q : List ℕ}
    (h : pathTo (RTree.node x cs) u = some (x :: a :: q)) :
    ∃ c ∈ cs, pathTo c u = some (a :: q) := by
  by_cases hux : u = x
  · simp [pathTo, hux] at h
  · simp only [pathTo, hux, if_false, Option.map_eq_some'] at h
    rcases h with ⟨p, hp, he⟩
    have : p = a :: q := by
      injection he with h1 h2
    exact pathToList_mem (this ▸ hp)

theorem pathTo_take :
    ∀ t : RTree, t.wf → ∀ u pu q a r, pathTo t u = some pu →
      pu = q ++ a :: r → pathTo t a = some (q ++ [a]) := by
  refine rtree_ind
    (Q := fun cs => ∀ c ∈ cs, c.wf → ∀ u pu q a r, pathTo c u = some pu →
      pu = q ++ a :: r → pathTo c a = some (q ++ [a]))
    ?_ ?_ ?_
  · intro x cs ih hwf u pu q a r hp hsplit
    rcases pathTo_shape hp with ⟨tail, htail⟩
    rcases q with _ | ⟨x0, q2⟩
    · simp only [List.nil_append] at hsplit
      rw [hsplit] at htail
      simp only [RTree.lab] at htail
      injection htail with h1 h2
      subst h1
      have := pathTo_self (RTree.node a cs)
      simpa [RTree.lab] using this
    · have hx0 : x0 = x := by
        rw [hsplit] at htail
        simp only [RTree.lab] at htail
        injection htail with h1 h2
      subst hx0
      rw [hsplit] at hp
      rcases hq2 : q2 ++ (a :: r) with _ | ⟨hd, tl⟩
      · simp at hq2
      · rw [List.cons_append, hq2] at hp
        rcases pathTo_descend hp with ⟨c, hc, hcp⟩
        have hcwf : c.wf := RTree.wf_kid hwf hc
        rw [← hq2] at hcp
        have := ih c hc hcwf u (q2 ++ a :: r) q2 a r hcp rfl
        have lift := pathTo_kid hwf hc this
        simpa using lift
  · intro c hc; simp at hc
  · intro c cs ihc ihcs c2 hc2
    rcases List.mem_cons.mp hc2 with rfl | h
    · intro hwf u pu q a r hp hs
      exact ihc hwf u pu q a r hp hs
    · exact ihcs c2 h

theorem subAtList_mem {cs : List RTree} {a : ℕ} {s : RTree}
    (h : subAtList cs a = some s) : ∃ c ∈ cs, subAt c a = some s := by
  induction cs with
  | nil => simp [subAtList] at h
  | cons c0 cs ih =>
    rcases hc : subAt c0 a with _ | s0
    · simp only [subAtList, hc] at h
      rcases ih h with ⟨c2, hc2, hs⟩
      exact ⟨c2, by simp [hc2], hs⟩
    · simp only [subAtList, hc] at h
      exact ⟨c0, by simp, by rw [hc, h]⟩

theorem subAt_isSome_iff_aux (a : ℕ) :
    (∀ t : RTree, (subAt t a).isSome ↔ a ∈ nodesOf t) ∧
    (∀ l : List RTree, (subAtList l a).isSome ↔ a ∈ nodesList l) := by
  refine ⟨rtree_ind ?hn ?h0 ?hc, rtree_ind_list ?hn ?h0 ?hc⟩
  case hn =>
    intro x cs ih
    by_cases hax : a = x <;> simp [subAt, nodesOf, hax, ih]
  case h0 => simp [subAtList, nodesList]
  case hc =>
    intro c cs ihc ihcs
    rcases h : subAt c a with _ | s <;>
      simp [subAtList, nodesList, h, ihcs, ← ihc, h]

theorem subAt_isSome_iff (t : RTree) (a : ℕ) :
    (subAt t a).isSome ↔ a ∈ nodesOf t := (subAt_isSome_iff_aux a).1 t

theorem subAt_of_mem {t : RTree} {a : ℕ} (h : a ∈ nodesOf t) :
    ∃ s, subAt t a = some s := by
  have := (subAt_isSome_iff t a).mpr h
  rcases hs : subAt t a with _ | s
  · rw [hs] at this; simp at this
  · exact ⟨s, rfl⟩

theorem mem_of_subAt {t : RTree} {a : ℕ} {s : RTree}
    (h : subAt t a = some s) : a ∈ nodesOf t := by
  have : (subAt t a).isSome := by rw [h]; rfl
  exact (subAt_isSome_iff t a).mp this

theorem subAt_lab :
    ∀ t : RTree, ∀ a s, subAt t a = some s → s.lab = a := by
  refine rtree_ind
    (Q := fun cs => ∀ a s, subAtList cs a = some s → s.lab = a) ?_ ?_ ?_
  · intro x cs ih a s h
    by_cases hax : a = x
    · simp only [subAt, hax, if_true] at h
      injection h with h2
      rw [← h2, hax, RTree.lab]
    · simp only [subAt, hax, if_false] at h
      exact ih a s h
  · intro a s h; simp [subAtList] at h
  · intro c cs ihc ihcs a s h
    rcases hc : subAt c a with _ | s0
    · simp only [subAtList, hc] at h
      exact ihcs a s h
    · simp only [subAtList, hc] at h
      exact Option.some.inj h ▸ ihc a s0 hc

theorem lab_mem_nodesOf (t : RTree) : t.lab ∈ nodesOf t := by
  obtain ⟨x, cs⟩ := t
  simp [nodesOf, RTree.lab]

theorem nodesOf_sublist_nodesList {cs : List RTree} {c : RTree}
    (hc : c ∈ cs) : (nodesOf c).Sublist (nodesList cs) := by
  induction cs with
  | nil => simp at hc
  | cons c0 cs ih =>
    rcases List.mem_cons.mp hc with rfl | hcc
    · simp only [nodesList]
      exact List.sublist_append_left _ _
    · simp only [nodesList]
      exact (ih hcc).trans (List.sublist_append_right _ _)

theorem subAt_nodes_sublist :
    ∀ t : RTree, ∀ a s, subAt t a = some s →
      (nodesOf s).Sublist (nodesOf t) := by
  refine rtree_ind
    (Q := fun cs => ∀ a s, subAtList cs a = some s →
      (nodesOf s).Sublist (nodesList cs)) ?_ ?_ ?_
  · intro x cs ih a s h
    by_cases hax : a = x
    · simp only [subAt, hax, if_true] at h
      rw [← Option.some.inj h]
    · simp only [subAt, hax, if_false] at h
      exact (ih a s h).trans (by simp [nodesOf])
  · intro a s h; simp [subAtList] at h
  · intro c cs ihc ihcs a s h
    rcases hc : subAt c a with _ | s0
    · simp only [subAtList, hc] at h
      exact (ihcs a s h).trans (List.sublist_append_right _ _)
    · simp only [subAtList, hc] at h
      rw [← Option.some.inj h]
      exact (ihc a s0 hc).trans (List.sublist_append_left _ _)

theorem RTree.wf_sub {t : RTree} (hwf : t.wf) {a : ℕ} {s : RTree}
    (h : subAt t a = some s) : s.wf :=
  (subAt_nodes_sublist t a s h).nodup hwf

theorem subAt_nodes_subset {t : RTree} {a : ℕ} {s : RTree}
    (h : subAt t a = some s) {v : ℕ} (hv : v ∈ nodesOf s) :
    v ∈ nodesOf t :=
  (subAt_nodes_sublist t a s h).mem hv

theorem sub_mem_paths :
    ∀ t : RTree, t.wf → ∀ a s pa, subAt t a = some s →
      pathTo t a = some pa → ∀ v, v ∈ nodesOf s →
      ∃ q, pathTo s v = some (a :: q) ∧ pathTo t v = some (pa ++ q) := by
  refine rtree_ind
    (Q := fun cs => ∀ c ∈ cs, c.wf → ∀ a s pa, subAt c a = some s →
      pathTo c a = some pa → ∀ v, v ∈ nodesOf s →
      ∃ q, pathTo s v = some (a :: q) ∧ pathTo c v = some (pa ++ q)) ?_ ?_ ?_
  · intro x cs ih hwf a s pa hs hp v hv
    by_cases hax : a = x
    · subst hax
      simp only [subAt, if_pos rfl] at hs
      have hpa : pa = [a] := by
        have := pathTo_self (RTree.node a cs)
        simp only [RTree.lab] at this
        rw [this] at hp
        exact (Option.some.inj hp).symm
      have hv2 : v ∈ nodesOf (RTree.node a cs) := by
        rw [Option.some.inj hs]; exact hv
      rcases pathTo_of_mem hv2 with ⟨pv, hpv⟩
      rcases pathTo_shape hpv with ⟨q, hq⟩
      refine ⟨q, ?_, ?_⟩
      · rw [← Option.some.inj hs, hpv, hq]; rfl
      · rw [hpv, hq, hpa]; rfl
    · simp only [subAt, hax, if_false] at hs
      rcases subAtList_mem hs with ⟨c, hc, hcs⟩
      have hamem : a ∈ nodesOf c := mem_of_subAt hcs
      rcases pathTo_shape hp with ⟨pa2, hpa2⟩
      subst hpa2
      rcases hpa2 : pa2 with _ | ⟨a1, pa3⟩
      · rw [hpa2] at hp
        simp only [pathTo, hax, if_false, Option.map_eq_some'] at hp
        rcases hp with ⟨p2, hpl, hpp⟩
        have hp2nil : p2 = [] := by
          have h5 := hpp
          simp at h5
          exact h5.2
        subst hp2nil
        rcases pathToList_mem hpl with ⟨c4, _, hc4⟩
        rcases pathTo_shape hc4 with ⟨q4, hq4⟩
        simp at hq4
      · rw [hpa2] at hp
        simp only [RTree.lab] at hp
        rcases pathTo_descend hp with ⟨c2, hc2, hcp2⟩
        have hceq : c = c2 :=
          mem_forest_unique (wf_kids hwf).1 hc hc2 hamem (mem_of_pathTo hcp2)
        subst hceq
        rcases ih c hc (RTree.wf_kid hwf hc) a s (a1 :: pa3) hcs hcp2 v hv
          with ⟨q, hq1, hq2⟩
        refine ⟨q, hq1, ?_⟩
        have := pathTo_kid hwf hc hq2
        simpa using this
  · intro c hc; simp at hc
  · intro c cs ihc ihcs c2 hc2
    rcases List.mem_cons.mp hc2 with rfl | h
    · intro hwf a s pa hs hp v hv
      exact ihc hwf a s pa hs hp v hv
    · exact ihcs c2 h

theorem mem_sub_of_path :
    ∀ t : RTree, t.wf → ∀ a s pa, subAt t a = some s →
      pathTo t a = some pa → ∀ v q, pathTo t v = some (pa ++ q) →
      v ∈ nodesOf s := by
  refine rtree_ind
    (Q := fun cs => ∀ c ∈ cs, c.wf → ∀ a s pa, subAt c a = some s →
      pathTo c a = some pa → ∀ v q, pathTo c v = some (pa ++ q) →
      v ∈ nodesOf s) ?_ ?_ ?_
  · intro x cs ih hwf a s pa hs hp v q hv
    by_cases hax : a = x
    · subst hax
      simp only [subAt, if_pos rfl] at hs
      rw [← Option.some.inj hs]
      exact mem_of_pathTo hv
    · simp only [subAt, hax, if_false] at hs
      rcases subAtList_mem hs with ⟨c, hc, hcs⟩
      have hamem : a ∈ nodesOf c := mem_of_subAt hcs
      rcases pathTo_shape hp with ⟨pa2, hpa2⟩
      subst hpa2
      rcases hpa2 : pa2 with _ | ⟨a1, pa3⟩
      · rw [hpa2] at hp
        simp only [pathTo, hax, if_false, Option.map_eq_some'] at hp
        rcases hp with ⟨p2, hpl, hpp⟩
        have hp2nil : p2 = [] := by
          have h5 := hpp
          simp at h5
          exact h5.2
        subst hp2nil
        rcases pathToList_mem hpl with ⟨c4, _, hc4⟩
        rcases pathTo_shape hc4 with ⟨q4, hq4⟩
        simp at hq4
      · subst hpa2
        rcases pathTo_descend hp with ⟨c2, hc2, hcp2⟩
        have hceq : c = c2 :=
          mem_forest_unique (wf_kids hwf).1 hc hc2 hamem (mem_of_pathTo hcp2)
        subst hceq
        have hvx : v ≠ x := by
          intro he
          rw [he] at hv
          have := pathTo_self (RTree.node x cs)
          simp only [RTree.lab] at this
          rw [this] at hv
          have := Option.some.inj hv
          simp at this
        simp only [RTree.lab, List.cons_append] at hv
        rcases pathTo_descend hv with ⟨c3, hc3, hcp3⟩
        have hc3lab : ∃ r2, (a1 :: pa3) ++ q = c3.lab :: r2 :=
          pathTo_shape hcp3
        have hclab : ∃ r3, (a1 :: pa3) = c.lab :: r3 := pathTo_shape hcp2
        rcases hc3lab with ⟨r2, hr2⟩
        rcases hclab with ⟨r3, hr3⟩
        have hlabeq : c.lab = c3.lab := by
          have h1 : a1 = c3.lab := by
            have := hr2
            simp only [List.cons_append] at this
            injection this with hh _
          have h2 : a1 = c.lab := by injection hr3 with hh _
          rw [← h1, ← h2]
        have hceq2 : c = c3 :=
          mem_forest_unique (wf_kids hwf).1 hc hc3
            (lab_mem_nodesOf c) (hlabeq ▸ lab_mem_nodesOf c3)
        subst hceq2
        exact ih c hc (RTree.wf_kid hwf hc) a s (a1 :: pa3) hcs hcp2 v q hcp3
  · intro c hc; simp at hc
  · intro c cs ihc ihcs c2 hc2
    rcases List.mem_cons.mp hc2 with rfl | h
    · intro hwf a s pa hs hp v q hv
      exact ihc hwf a s pa hs hp v q hv
    · exact ihcs c2 h

theorem comLen_self (p : List ℕ) : comLen p p = p.length := by
  induction p with
  | nil => rfl
  | cons a as ih =>
    simp only [comLen, if_true, List.length_cons, ih]
    omega

theorem comLen_le_left (p q : List ℕ) : comLen p q ≤ p.length := by
  induction p generalizing q with
  | nil => simp [comLen]
  | cons a as ih =>
    cases q with
    | nil => simp [comLen]
    | cons b bs =>
      by_cases hab : a = b
      · simp only [comLen, hab, if_true, List.length_cons]
        have := ih bs
        omega
      · simp [comLen, hab]

theorem comLen_le_right (p q : List ℕ) : comLen p q ≤ q.length := by
  induction p generalizing q with
  | nil => simp [comLen]
  | cons a as ih =>
    cases q with
    | nil => simp [comLen]
    | cons b bs =>
      by_cases hab : a = b
      · simp only [comLen, hab, if_true, List.length_cons]
        have := ih bs
        omega
      · simp [comLen, hab]

theorem isPre_comLen {p q : List ℕ} (h : isPre p q) :
    comLen p q = p.length := by
  rcases h with ⟨r, rfl⟩
  induction p with
  | nil => simp [comLen]
  | cons a as ih =>
    have hstep : ((a :: as) ++ r : List ℕ) = a :: (as ++ r) := rfl
    rw [hstep]
    show (if a = a then 1 + comLen as (as ++ r) else 0) = (a :: as).length
    rw [if_pos rfl, ih]
    simp
    omega

theorem isPre_of_comLen {p q : List ℕ} (h : comLen p q = p.length) :
    isPre p q := by
  induction p generalizing q with
  | nil => exact ⟨q, rfl⟩
  | cons a as ih =>
    cases q with
    | nil => simp [comLen] at h
    | cons b bs =>
      by_cases hab : a = b
      · subst hab
        simp only [comLen, if_true, List.length_cons] at h
        have h2 : comLen as bs = as.length := by omega
        rcases ih h2 with ⟨r, hr⟩
        exact ⟨r, by simp [hr]⟩
      · simp only [comLen, hab, if_false, List.length_cons] at h
        omega

theorem comLen_append (p l q : List ℕ) :
    comLen (p ++ l) q =
      comLen p q +
        (if comLen p q = p.length then comLen l (q.drop p.length) else 0) := by
  induction p generalizing q with
  | nil => simp [comLen]
  | cons a as ih =>
    cases q with
    | nil => simp [comLen]
    | cons b bs =>
      by_cases hab : a = b
      · have hstep : ((a :: as) ++ l : List ℕ) = a :: (as ++ l) := rfl
        rw [hstep]
        simp only [comLen, hab, if_true, List.length_cons,
          List.drop_succ_cons]
        rw [ih bs]
        by_cases hc : comLen as bs = as.length
        · rw [hc, if_pos rfl,
            if_pos (show 1 + as.length = as.length + 1 by omega)]
          omega
        · rw [if_neg hc, if_neg (show ¬ (1 + comLen as bs = as.length + 1) by
            omega)]
          omega
      · have hstep : ((a :: as) ++ l : List ℕ) = a :: (as ++ l) := rfl
        rw [hstep]
        simp [comLen, hab]

theorem comLen_snoc_of_not_pre {pp pv : List ℕ} {x : ℕ}
    (h : ¬ isPre (pp ++ [x]) pv) :
    comLen (pp ++ [x]) pv = comLen pp pv := by
  rw [comLen_append]
  by_cases hc : comLen pp pv = pp.length
  · rcases isPre_of_comLen hc with ⟨r, rfl⟩
    rcases r with _ | ⟨y, r2⟩
    · simp [comLen]
    · have hxy : x ≠ y := by
        intro he
        exact h ⟨r2, by simp [he]⟩
      simp [hc, List.drop_left, comLen, hxy]
  · simp [hc]

theorem tdist_eq_of_paths {t : RTree} {u v : ℕ} {pu pv : List ℕ}
    (hu : pathTo t u = some pu) (hv : pathTo t v = some pv) :
    tdist t u v = pu.length + pv.length - 2 * comLen pu pv := by
  simp [tdist, hu, hv]

theorem tdist_self {t : RTree} {u : ℕ} (h : u ∈ nodesOf t) :
    tdist t u u = 0 := by
  rcases pathTo_of_mem h with ⟨p, hp⟩
  rw [tdist_eq_of_paths hp hp, comLen_self]
  omega

theorem tdist_pre {t : RTree} {u v : ℕ} {pu pv : List ℕ}
    (hu : pathTo t u = some pu) (hv : pathTo t v = some pv)
    (hpre : isPre pu pv) : tdist t u v = pv.length - pu.length := by
  rw [tdist_eq_of_paths hu hv, isPre_comLen hpre]
  rcases hpre with ⟨r, rfl⟩
  simp
  omega

theorem comLen_comm (p q : List ℕ) : comLen p q = comLen q p := by
  induction p generalizing q with
  | nil => cases q <;> rfl
  | cons a as ih =>
    cases q with
    | nil => rfl
    | cons b bs =>
      by_cases hab : a = b
      · subst hab; simp [comLen, ih]
      · have hba : ¬ b = a := fun h => hab h.symm
        simp [comLen, hab, hba]

theorem tdist_comm (t : RTree) (u v : ℕ) : tdist t u v = tdist t v u := by
  rcases hu2 : pathTo t u with _ | p <;> rcases hv2 : pathTo t v with _ | q
  · simp [tdist, hu2, hv2]
  · simp [tdist, hu2, hv2]
  · simp [tdist, hu2, hv2]
  · rw [tdist_eq_of_paths hu2 hv2, tdist_eq_of_paths hv2 hu2, comLen_comm]
    omega

theorem tdist_out {t : RTree} {p_ x v : ℕ} {pp pv : List ℕ}
    (hp : pathTo t p_ = some pp) (hx : pathTo t x = some (pp ++ [x]))
    (hv : pathTo t v = some pv) (hnp : ¬ isPre (pp ++ [x]) pv) :
    tdist t x v = 1 + tdist t p_ v := by
  rw [tdist_eq_of_paths hx hv, tdist_eq_of_paths hp hv,
    comLen_snoc_of_not_pre hnp]
  have h1 := comLen_le_left pp pv
  have h2 := comLen_le_right pp pv
  simp only [List.length_append, List.length_cons, List.length_nil]
  omega

theorem size_eq_nodes_length_aux :
    (∀ t : RTree, size_subtree t = (nodesOf t).length) ∧
    (∀ l : List RTree, sizeSubtrees l = (nodesList l).length) := by
  refine ⟨rtree_ind ?hn ?h0 ?hc, rtree_ind_list ?hn ?h0 ?hc⟩
  case hn =>
    intro x cs ih
    simp only [size_subtree, nodesOf, ih, List.length_cons]
    omega
  case h0 => simp [sizeSubtrees, nodesList]
  case hc => intro c cs ihc ihcs; simp [sizeSubtrees, nodesList, ihc, ihcs]

theorem size_eq_nodes_length (t : RTree) :
    size_subtree t = (nodesOf t).length := size_eq_nodes_length_aux.1 t

theorem subAt_self (s : RTree) : subAt s s.lab = some s := by
  obtain ⟨x, cs⟩ := s
  simp [subAt, RTree.lab]

theorem subAtList_eq_of_mem {cs : List RTree}
    (hnd : (nodesList cs).Nodup) {c : RTree} (hc : c ∈ cs) {a : ℕ}
    {s : RTree} (h : subAt c a = some s) : subAtList cs a = some s := by
  induction cs with
  | nil => simp at hc
  | cons c0 cs ih =>
    rcases nodesList_nodup_parts hnd with ⟨_, h2, hdisj⟩
    rcases List.mem_cons.mp hc with rfl | hcc
    · simp [subAtList, h]
    · have ha : a ∈ nodesOf c := mem_of_subAt h
      have ha0 : a ∉ nodesOf c0 := by
        intro ha0
        exact hdisj a ha0 (mem_nodesList_of_mem hcc ha)
      have h0 : subAt c0 a = none := by
        rcases hs0 : subAt c0 a with _ | s0
        · rfl
        · exact absurd (mem_of_subAt hs0) ha0
      simp only [subAtList, h0]
      exact ih h2 hcc

theorem subAt_trans :
    ∀ t : RTree, t.wf → ∀ x s y s2, subAt t x = some s →
      subAt s y = some s2 → subAt t y = some s2 := by
  refine rtree_ind
    (Q := fun cs => ∀ c ∈ cs, c.wf → ∀ x s y s2, subAt c x = some s →
      subAt s y = some s2 → subAt c y = some s2) ?_ ?_ ?_
  · intro z cs ih hwf x s y s2 hs hs2
    by_cases hxz : x = z
    · subst hxz
      simp only [subAt, if_pos rfl] at hs
      rw [← Option.some.inj hs] at hs2
      exact hs2
    · simp only [subAt, hxz, if_false] at hs
      rcases subAtList_mem hs with ⟨c, hc, hcs⟩
      have hy : y ∈ nodesOf s := mem_of_subAt hs2
      have hysub : y ∈ nodesOf c :=
        subAt_nodes_subset hcs hy
      have hyz : y ≠ z := by
        intro he
        exact (wf_kids hwf).2 (he ▸ mem_nodesList_of_mem hc hysub)
      simp only [subAt, hyz, if_false]
      exact subAtList_eq_of_mem (wf_kids hwf).1 hc
        (ih c hc (RTree.wf_kid hwf hc) x s y s2 hcs hs2)
  · intro c hc; simp at hc
  · intro c cs ihc ihcs c2 hc2
    rcases List.mem_cons.mp hc2 with rfl | h
    · intro hwf x s y s2 hs hs2
      exact ihc hwf x s y s2 hs hs2
    · exact ihcs c2 h

theorem subAt_kid_of_kid {s : RTree} (hwf : s.wf) {c : RTree}
    (hc : c ∈ s.kids) : subAt s c.lab = some c := by
  obtain ⟨x, cs⟩ := s
  simp only [RTree.kids] at hc
  have hlx : c.lab ≠ x := by
    intro he
    exact (wf_kids hwf).2
      (he ▸ mem_nodesList_of_mem hc (lab_mem_nodesOf c))
  simp only [subAt, hlx, if_false]
  exact subAtList_eq_of_mem (wf_kids hwf).1 hc (subAt_self c)

theorem subAt_kid {t : RTree} (hwf : t.wf) {x : ℕ} {s : RTree}
    (hs : subAt t x = some s) {px : List ℕ}
    (hpx : pathTo t x = some px) {c : RTree} (hc : c ∈ s.kids) :
    subAt t c.lab = some c ∧ pathTo t c.lab = some (px ++ [c.lab]) := by
  have hswf : s.wf := RTree.wf_sub hwf hs
  have hkid : subAt s c.lab = some c := subAt_kid_of_kid hswf hc
  have hlabx : s.lab = x := subAt_lab t x s hs
  refine ⟨subAt_trans t hwf x s c.lab c hs hkid, ?_⟩
  have hmem : c.lab ∈ nodesOf s :=
    subAt_nodes_subset hkid (lab_mem_nodesOf c)
  rcases sub_mem_paths t hwf x s px hs hpx c.lab hmem with ⟨q, hq1, hq2⟩
  have hq3 : pathTo s c.lab = some (s.lab :: [c.lab]) := by
    obtain ⟨z, cs2⟩ := s
    simp only [RTree.kids] at hc
    simp only [RTree.lab]
    exact pathTo_kid hswf hc (pathTo_self c)
  rw [hlabx, hq1] at hq3
  have h4 := Option.some.inj hq3
  injection h4 with h5 h6
  rw [h6] at hq2
  exact hq2

theorem sum_map_add_one (l : List ℕ) (g : ℕ → ℕ) :
    (l.map (fun u => 1 + g u)).sum = l.length + (l.map g).sum := by
  induction l with
  | nil => simp
  | cons a as ih =>
    simp only [List.map_cons, List.sum_cons, List.length_cons, ih]
    omega

theorem tdist_down {t : RTree} (hwf : t.wf) {a : ℕ} {s : RTree}
    {pa : List ℕ} (hs : subAt t a = some s) (hpa : pathTo t a = some pa)
    {u : ℕ} (hu : u ∈ nodesOf s) :
    ∃ q, pathTo t u = some (pa ++ q) ∧ tdist t a u = q.length := by
  rcases sub_mem_paths t hwf a s pa hs hpa u hu with ⟨q0, hq1, hq2⟩
  rcases pathTo_shape hq1 with ⟨q1, hsh⟩
  refine ⟨q0, hq2, ?_⟩
  rw [tdist_pre hpa hq2 ⟨q0, rfl⟩]
  simp

theorem sum_below_correct :
    ∀ s : RTree, ∀ t : RTree, t.wf → ∀ px, subAt t s.lab = some s →
      pathTo t s.lab = some px →
      sum_dist_below t s = ((nodesOf s).map (tdist t s.lab)).sum := by
  refine rtree_ind
    (Q := fun cs => ∀ t : RTree, t.wf → ∀ x px, pathTo t x = some px →
      (∀ c ∈ cs, subAt t c.lab = some c ∧
        pathTo t c.lab = some (px ++ [c.lab])) →
      sumBelowList t x cs = ((nodesList cs).map (tdist t x)).sum) ?_ ?_ ?_
  · intro x cs ih t hwf px hsub hpath
    have hlab : (RTree.node x cs).lab = x := rfl
    rw [hlab] at hsub hpath
    have hx : x ∈ nodesOf t := mem_of_pathTo hpath
    have hkids : ∀ c ∈ cs, subAt t c.lab = some c ∧
        pathTo t c.lab = some (px ++ [c.lab]) := by
      intro c hc
      exact subAt_kid hwf hsub hpath (by simpa [RTree.kids] using hc)
    have := ih t hwf x px hpath hkids
    simp only [sum_dist_below, hlab, nodesOf, List.map_cons, List.sum_cons,
      tdist_self hx, this]
    omega
  · intro t hwf x px hpath hkids
    simp [sumBelowList, nodesList]
  · intro c cs ihc ihcs t hwf x px hpath hkids
    have hc := hkids c (by simp)
    have hcs : ∀ c2 ∈ cs, subAt t c2.lab = some c2 ∧
        pathTo t c2.lab = some (px ++ [c2.lab]) := by
      intro c2 hc2
      exact hkids c2 (by simp [hc2])
    have hrec := ihc t hwf (px ++ [c.lab]) hc.1 hc.2
    have hrest := ihcs t hwf x px hpath hcs
    have hpoint : ∀ u ∈ nodesOf c, tdist t x u = 1 + tdist t c.lab u := by
      intro u hu
      rcases tdist_down hwf hc.1 hc.2 hu with ⟨q, hq1, hq2⟩
      have hxu : tdist t x u = ([c.lab] ++ q).length := by
        rw [show (px ++ [c.lab]) ++ q = px ++ ([c.lab] ++ q) from by simp]
          at hq1
        rw [tdist_pre hpath hq1 ⟨[c.lab] ++ q, rfl⟩]
        simp
      rw [hxu, hq2]
      simp
      omega
    have hdistc : tdist t x c.lab = 1 := by
      have := hpoint c.lab (lab_mem_nodesOf c)
      have hself : tdist t c.lab c.lab = 0 :=
        tdist_self (mem_of_pathTo hc.2)
      omega
    have hsum1 : ((nodesOf c).map (tdist t x)).sum
        = (nodesOf c).length + ((nodesOf c).map (tdist t c.lab)).sum := by
      rw [List.map_eq_map_iff.mpr hpoint]
      exact sum_map_add_one _ _
    simp only [sumBelowList, nodesList, List.map_append, List.sum_append]
    rw [hrec, hrest, hsum1, hdistc, size_eq_nodes_length]
    omega

/-- The attribute `sum_below(x)` is the sum of the distances from `x` to
the nodes of its subtree. -/
theorem sumBelowAt_correct {t : RTree} (hwf : t.wf) {x : ℕ} {s : RTree}
    (hs : subAt t x = some s) :
    sumBelowAt t x = ((nodesOf s).map (tdist t x)).sum := by
  have hlab : s.lab = x := subAt_lab t x s hs
  rcases pathTo_of_mem (mem_of_subAt hs) with ⟨px, hpx⟩
  have := sum_below_correct s t hwf px (hlab.symm ▸ hs) (hlab.symm ▸ hpx)
  simp only [sumBelowAt, hs]
  rw [this, hlab]

theorem cast_list_sum (l : List ℕ) :
    ((l.sum : ℕ) : ℤ) = (l.map (fun n => (n : ℤ))).sum := by
  induction l with
  | nil => simp
  | cons a as ih => simp [ih]

theorem cast_map_sum (m : List ℕ) (f : ℕ → ℕ) :
    (((m.map f).sum : ℕ) : ℤ) = (m.map (fun u => (f u : ℤ))).sum := by
  induction m with
  | nil => simp
  | cons a as ih => simp [ih]

theorem sum_filter_split (l : List ℕ) (f : ℕ → ℤ) (P Q : ℕ → Bool) :
    ((l.filter P).map f).sum =
      ((l.filter (fun u => P u && Q u)).map f).sum
        + ((l.filter (fun u => P u && !(Q u))).map f).sum := by
  induction l with
  | nil => simp
  | cons a as ih =>
    rcases hP : P a <;> rcases hQ : Q a <;>
      simp [List.filter_cons, hP, hQ, ih] <;> ring

theorem filter_mem_perm {l m : List ℕ} (hl : l.Nodup) (hm : m.Nodup)
    (hsub : ∀ u ∈ m, u ∈ l) :
    (l.filter (fun u => decide (u ∈ m))).Perm m := by
  apply List.perm_of_nodup_nodup_toFinset_eq (hl.filter _) hm
  ext a
  simp only [List.mem_toFinset, List.mem_filter, decide_eq_true_eq]
  constructor
  · intro h; exact h.2
  · intro h; exact ⟨hsub a h, h⟩

theorem sum_map_add_one_int (l : List ℕ) (g : ℕ → ℤ) :
    (l.map (fun u => 1 + g u)).sum = l.length + (l.map g).sum := by
  induction l with
  | nil => simp
  | cons a as ih =>
    simp only [List.map_cons, List.sum_cons, List.length_cons, ih]
    push_cast
    ring

theorem chainTo_root (t : RTree) : chainTo t t.lab = [t] := by
  simp [chainTo, pathTo_self, subAt_self]

theorem pathTo_split_parent {t : RTree} {x : ℕ} {px : List ℕ}
    (hpx : pathTo t x = some px) (hne : x ≠ t.lab) :
    ∃ q2 p_, px = (q2 ++ [p_]) ++ [x] := by
  have hlast : px.getLast? = some x := pathTo_getLast t x px hpx
  rcases pathTo_shape hpx with ⟨tail, hsh⟩
  rcases (List.eq_nil_or_concat px) with rfl | ⟨l0, a, rfl⟩
  · simp at hsh
  · simp only [List.concat_eq_append] at hlast hsh ⊢
    have hax : a = x := by
      rw [List.getLast?_concat] at hlast
      exact Option.some.inj hlast
    subst hax
    rcases (List.eq_nil_or_concat l0) with rfl | ⟨l1, b, rfl⟩
    · exfalso
      simp only [List.nil_append] at hsh
      injection hsh with h1 h2
      exact hne h1
    · exact ⟨l1, b, by simp⟩

theorem chain_last {t : RTree} {p_ : ℕ} {sp : RTree} {pp : List ℕ}
    (hsp : subAt t p_ = some sp) (hpp : pathTo t p_ = some pp) :
    ∃ front, chainTo t p_ = front ++ [sp] := by
  have hlast : pp.getLast? = some p_ := pathTo_getLast t p_ pp hpp
  rcases (List.eq_nil_or_concat pp) with rfl | ⟨l0, a, rfl⟩
  · simp at hlast
  · simp only [List.concat_eq_append] at hlast hpp ⊢
    have hap : a = p_ := by
      rw [List.getLast?_concat] at hlast
      exact Option.some.inj hlast
    subst hap
    refine ⟨l0.filterMap (subAt t), ?_⟩
    simp [chainTo, hpp, List.filterMap_append, hsp]

theorem chain_step {t : RTree} {x p_ : ℕ} {s : RTree}
    (hs : subAt t x = some s) {q2 : List ℕ}
    (hpx : pathTo t x = some ((q2 ++ [p_]) ++ [x])) (hwf : t.wf) :
    parentOf t x = p_ ∧ pathTo t p_ = some (q2 ++ [p_]) ∧
      chainTo t x = chainTo t p_ ++ [s] := by
  have hpp : pathTo t p_ = some (q2 ++ [p_]) :=
    pathTo_take t hwf x ((q2 ++ [p_]) ++ [x]) q2 p_ [x] hpx (by simp)
  refine ⟨?_, hpp, ?_⟩
  · simp only [parentOf, hpx]
    simp [List.dropLast_concat]
  · rcases subAt_of_mem (mem_of_pathTo hpp) with ⟨sp, hsp⟩
    simp [chainTo, hpx, hpp, List.filterMap_append, List.filterMap_cons, hs,
      hsp]

theorem length_filter_parts (l : List ℕ) (P : ℕ → Bool) :
    (l.filter P).length + (l.filter (fun u => !(P u))).length = l.length := by
  induction l with
  | nil => simp
  | cons a as ih =>
    rcases h : P a <;> simp [List.filter_cons, h] <;> omega

theorem sum_above_fuel {t : RTree} (hwf : t.wf) :
    ∀ n : ℕ, ∀ x : ℕ, ∀ s : RTree, ∀ px : List ℕ, px.length ≤ n →
      subAt t x = some s → pathTo t x = some px →
      sum_dist_above t x =
        (((nodesOf t).filter (fun u => decide (u ∉ nodesOf s))).map
          (fun u => (tdist t x u : ℤ))).sum := by
  intro n
  induction n with
  | zero =>
    intro x s px hlen hs hpx
    rcases pathTo_shape hpx with ⟨q, rfl⟩
    simp at hlen
  | succ n ih =>
    intro x s px hlen hs hpx
    by_cases hxr : x = t.lab
    · subst hxr
      have hst : s = t := by
        have h2 := subAt_self t
        rw [hs] at h2
        exact Option.some.inj h2
      subst hst
      rw [sum_dist_above, chainTo_root]
      have hfil : (nodesOf s).filter (fun u => decide (u ∉ nodesOf s)) = [] := by
        rw [List.filter_eq_nil_iff]
        intro u hu
        simp [hu]
      rw [hfil]
      rfl
    · rcases pathTo_split_parent hpx hxr with ⟨q2, p_, rfl⟩
      rcases chain_step hs hpx hwf with ⟨hpar, hpp, hchain⟩
      rcases subAt_of_mem (mem_of_pathTo hpp) with ⟨sp, hsp⟩
      have hlen2 : (q2 ++ [p_]).length ≤ n := by
        simp only [List.length_append, List.length_cons, List.length_nil]
          at hlen ⊢
        omega
      have IH := ih p_ sp (q2 ++ [p_]) hlen2 hsp hpp
      rcases chain_last hsp hpp with ⟨front, hfront⟩
      -- unfold the chain recursion once
      have hslab : s.lab = x := subAt_lab t x s hs
      have hsplab : sp.lab = p_ := subAt_lab t p_ sp hsp
      have hLHS : sum_dist_above t x = sum_dist_above t p_
          + ((sum_dist_below t sp : ℤ) - (sum_dist_below t s : ℤ)
              - (tdist t s.lab sp.lab : ℤ) * (size_subtree s : ℤ))
          + (tdist t s.lab sp.lab : ℤ)
              * (((nodesOf t).length : ℤ) - (size_subtree s : ℤ)) := by
        rw [sum_dist_above, hchain, List.reverse_append]
        rw [sum_dist_above]
        rw [hfront, List.reverse_append]
        simp only [List.reverse_cons, List.reverse_nil, List.nil_append,
          List.cons_append, List.singleton_append]
        rfl
      -- basic distance facts
      have hd1 : tdist t x p_ = 1 := by
        rw [tdist_comm]
        rw [tdist_pre hpp hpx ⟨[x], rfl⟩]
        simp
      have hsub_ssp : ∀ v, v ∈ nodesOf s → v ∈ nodesOf sp := by
        intro v hv
        rcases sub_mem_paths t hwf x s _ hs hpx v hv with ⟨q, hq1, hq2⟩
        rw [show ((q2 ++ [p_]) ++ [x]) ++ q = (q2 ++ [p_]) ++ ([x] ++ q)
          from by simp] at hq2
        exact mem_sub_of_path t hwf p_ sp _ hsp hpp v ([x] ++ q) hq2
      have hout : ∀ u, u ∈ nodesOf t → u ∉ nodesOf s →
          tdist t x u = 1 + tdist t p_ u := by
        intro u hu hnu
        rcases pathTo_of_mem hu with ⟨pu, hpu⟩
        refine tdist_out hpp hpx hpu ?_
        intro hpre
        rcases hpre with ⟨r, hr⟩
        exact hnu (mem_sub_of_path t hwf x s _ hs hpx u r (hr ▸ hpu))
      have hin : ∀ u, u ∈ nodesOf s →
          tdist t p_ u = 1 + tdist t x u := by
        intro u hu
        rcases sub_mem_paths t hwf x s _ hs hpx u hu with ⟨q, hq1, hq2⟩
        have h1 : tdist t x u = q.length := by
          rw [tdist_pre hpx hq2 ⟨q, rfl⟩]
          simp only [List.length_append, List.length_cons, List.length_nil]
          omega
        have h2 : tdist t p_ u = 1 + q.length := by
          rw [show ((q2 ++ [p_]) ++ [x]) ++ q = (q2 ++ [p_]) ++ ([x] ++ q)
            from by simp] at hq2
          rw [tdist_pre hpp hq2 ⟨[x] ++ q, rfl⟩]
          simp only [List.length_append, List.length_cons, List.length_nil]
          omega
        rw [h1, h2]
      -- list-sum abbreviations
      have hndt : (nodesOf t).Nodup := hwf
      have hnds : (nodesOf s).Nodup := RTree.wf_sub hwf hs
      have hndsp : (nodesOf sp).Nodup := RTree.wf_sub hwf hsp
      have hsubS : ∀ u ∈ nodesOf s, u ∈ nodesOf t :=
        fun u hu => subAt_nodes_subset hs hu
      have hsubSp : ∀ u ∈ nodesOf sp, u ∈ nodesOf t :=
        fun u hu => subAt_nodes_subset hsp hu
      -- step 1: peel one edge off every distance in the goal sum
      have hstep1 :
          (((nodesOf t).filter (fun u => decide (u ∉ nodesOf s))).map
            (fun u => (tdist t x u : ℤ))).sum
          = (((nodesOf t).filter (fun u => decide (u ∉ nodesOf s))).length : ℤ)
            + (((nodesOf t).filter (fun u => decide (u ∉ nodesOf s))).map
              (fun u => (tdist t p_ u : ℤ))).sum := by
        have hmapc : ((nodesOf t).filter
              (fun u => decide (u ∉ nodesOf s))).map
              (fun u => (tdist t x u : ℤ))
            = ((nodesOf t).filter (fun u => decide (u ∉ nodesOf s))).map
              (fun u => 1 + (tdist t p_ u : ℤ)) := by
          apply List.map_eq_map_iff.mpr
          intro u hu
          simp only [List.mem_filter, decide_eq_true_eq] at hu
          rw [hout u hu.1 hu.2]
          push_cast
          ring
        rw [hmapc]
        exact sum_map_add_one_int _ _
      -- step 2: split off the part inside sp
      have hstep2 :
          (((nodesOf t).filter (fun u => decide (u ∉ nodesOf s))).map
            (fun u => (tdist t p_ u : ℤ))).sum
          = (((nodesOf t).filter (fun u => decide (u ∉ nodesOf sp))).map
              (fun u => (tdist t p_ u : ℤ))).sum
            + (((nodesOf t).filter (fun u =>
                decide (u ∉ nodesOf s) && !(decide (u ∉ nodesOf sp)))).map
              (fun u => (tdist t p_ u : ℤ))).sum := by
        have hfeq : ((nodesOf t).filter (fun u =>
            decide (u ∉ nodesOf s) && decide (u ∉ nodesOf sp)))
            = ((nodesOf t).filter (fun u => decide (u ∉ nodesOf sp))) := by
          apply List.filter_congr
          intro u hu
          by_cases husp : u ∈ nodesOf sp
          · simp [husp]
          · have hus : u ∉ nodesOf s := fun hin2 => husp (hsub_ssp u hin2)
            simp [husp, hus]
        rw [sum_filter_split (nodesOf t) (fun u => (tdist t p_ u : ℤ))
          (fun u => decide (u ∉ nodesOf s)) (fun u => decide (u ∉ nodesOf sp)),
          hfeq]
      -- the sum inside sp minus the sum inside s
      have hperm_sp : ((nodesOf t).filter
          (fun u => decide (u ∈ nodesOf sp))).Perm (nodesOf sp) :=
        filter_mem_perm hndt hndsp hsubSp
      have hperm_s : ((nodesOf t).filter
          (fun u => decide (u ∈ nodesOf s))).Perm (nodesOf s) :=
        filter_mem_perm hndt hnds hsubS
      have hbelow_sp : (((nodesOf t).filter
            (fun u => decide (u ∈ nodesOf sp))).map
            (fun u => (tdist t p_ u : ℤ))).sum
          = (sum_dist_below t sp : ℤ) := by
        rw [List.Perm.sum_eq (List.Perm.map _ hperm_sp)]
        rw [sum_below_correct sp t hwf (q2 ++ [p_]) (hsplab.symm ▸ hsp)
          (hsplab.symm ▸ hpp)]
        rw [cast_map_sum, hsplab]
      have hbelow_s : (((nodesOf t).filter
            (fun u => decide (u ∈ nodesOf s))).map
            (fun u => (tdist t x u : ℤ))).sum
          = (sum_dist_below t s : ℤ) := by
        rw [List.Perm.sum_eq (List.Perm.map _ hperm_s)]
        rw [sum_below_correct s t hwf ((q2 ++ [p_]) ++ [x]) (hslab.symm ▸ hs)
          (hslab.symm ▸ hpx)]
        rw [cast_map_sum, hslab]
      -- step 3: the strip sp minus s
      have hstep3 :
          (((nodesOf t).filter (fun u =>
              decide (u ∉ nodesOf s) && !(decide (u ∉ nodesOf sp)))).map
            (fun u => (tdist t p_ u : ℤ))).sum
          = (sum_dist_below t sp : ℤ)
            - ((size_subtree s : ℤ) + (sum_dist_below t s : ℤ)) := by
        have hsplit := sum_filter_split (nodesOf t)
          (fun u => (tdist t p_ u : ℤ))
          (fun u => decide (u ∈ nodesOf sp)) (fun u => decide (u ∉ nodesOf s))
        have hA : ((nodesOf t).filter (fun u =>
            decide (u ∈ nodesOf sp) && decide (u ∉ nodesOf s)))
            = ((nodesOf t).filter (fun u =>
              decide (u ∉ nodesOf s) && !(decide (u ∉ nodesOf sp)))) := by
          apply List.filter_congr
          intro u hu
          by_cases husp : u ∈ nodesOf sp <;>
            by_cases hus : u ∈ nodesOf s <;> simp [husp, hus]
        have hB : ((nodesOf t).filter (fun u =>
            decide (u ∈ nodesOf sp) && !(decide (u ∉ nodesOf s))))
            = ((nodesOf t).filter (fun u => decide (u ∈ nodesOf s))) := by
          apply List.filter_congr
          intro u hu
          by_cases hus : u ∈ nodesOf s
          · simp [hus, hsub_ssp u hus]
          · simp [hus]
        rw [hA, hB] at hsplit
        have hin_sum : (((nodesOf t).filter
              (fun u => decide (u ∈ nodesOf s))).map
              (fun u => (tdist t p_ u : ℤ))).sum
            = (size_subtree s : ℤ) + (sum_dist_below t s : ℤ) := by
          have hmapc2 : ((nodesOf t).filter
                (fun u => decide (u ∈ nodesOf s))).map
                (fun u => (tdist t p_ u : ℤ))
              = ((nodesOf t).filter (fun u => decide (u ∈ nodesOf s))).map
                (fun u => 1 + (tdist t x u : ℤ)) := by
            apply List.map_eq_map_iff.mpr
            intro u hu
            simp only [List.mem_filter, decide_eq_true_eq] at hu
            rw [hin u hu.2]
            push_cast
            ring
          rw [hmapc2, sum_map_add_one_int, hbelow_s]
          have hql := List.Perm.length_eq hperm_s
          rw [hql, ← size_eq_nodes_length]
        rw [hin_sum, hbelow_sp] at hsplit
        linarith
      -- step 4: cardinality of the outside
      have hlen_out :
          (((nodesOf t).filter (fun u => decide (u ∉ nodesOf s))).length : ℤ)
          = ((nodesOf t).length : ℤ) - (size_subtree s : ℤ) := by
        have hparts := length_filter_parts (nodesOf t)
          (fun u => decide (u ∈ nodesOf s))
        have hcongr : ((nodesOf t).filter (fun u =>
            !(decide (u ∈ nodesOf s))))
            = ((nodesOf t).filter (fun u => decide (u ∉ nodesOf s))) := by
          apply List.filter_congr
          intro u hu
          simp
        rw [hcongr] at hparts
        have hlen_s := List.Perm.length_eq hperm_s
        rw [← size_eq_nodes_length] at hlen_s
        omega
      rw [hLHS, IH, hslab, hsplab, hd1, hstep1, hstep2, hstep3, hlen_out]
      ring

/-! ## Claim C9: correctness of `sum_dist_above` -/

/-- C9: on every valid rooted tree the preprocessing computes, for every
node `x` with subtree `s`, `sum_above(x) = Σ_{u ∉ subtree(x)} D[x][u]`;
in particular `sum_above(root) = 0`, and for `x ≠ root` the value
satisfies the recurrence `sum_above(x) = sum_above(p(x)) +
(sum_below(p(x)) - sum_below(x) - D[x][p(x)]·size(x)) +
D[x][p(x)]·(n - size(x))`. -/
theorem claim9_sum_above {t : RTree} (hwf : t.wf) {x : ℕ} {s : RTree}
    (hs : subAt t x = some s) :
    sum_dist_above t x =
      (((nodesOf t).filter (fun u => decide (u ∉ nodesOf s))).map
        (fun u => (tdist t x u : ℤ))).sum ∧
    sum_dist_above t t.lab = 0 ∧
    (x ≠ t.lab →
      sum_dist_above t x = sum_dist_above t (parentOf t x)
        + ((sumBelowAt t (parentOf t x) : ℤ) - (sumBelowAt t x : ℤ)
            - (tdist t x (parentOf t x) : ℤ) * (sizeAt t x : ℤ))
        + (tdist t x (parentOf t x) : ℤ)
            * (((nodesOf t).length : ℤ) - (sizeAt t x : ℤ))) := by
  rcases pathTo_of_mem (mem_of_subAt hs) with ⟨px, hpx⟩
  refine ⟨sum_above_fuel hwf px.length x s px le_rfl hs hpx, ?_, ?_⟩
  · rw [sum_dist_above, chainTo_root]
    rfl
  · intro hxr
    rcases pathTo_split_parent hpx hxr with ⟨q2, p_, rfl⟩
    rcases chain_step hs hpx hwf with ⟨hpar, hpp, hchain⟩
    rcases subAt_of_mem (mem_of_pathTo hpp) with ⟨sp, hsp⟩
    rcases chain_last hsp hpp with ⟨front, hfront⟩
    have hslab : s.lab = x := subAt_lab t x s hs
    have hsplab : sp.lab = p_ := subAt_lab t p_ sp hsp
    have hd1 : tdist t x p_ = 1 := by
      rw [tdist_comm]
      rw [tdist_pre hpp hpx ⟨[x], rfl⟩]
      simp
    rw [hpar]
    have hLHS : sum_dist_above t x = sum_dist_above t p_
        + ((sum_dist_below t sp : ℤ) - (sum_dist_below t s : ℤ)
            - (tdist t s.lab sp.lab : ℤ) * (size_subtree s : ℤ))
        + (tdist t s.lab sp.lab : ℤ)
            * (((nodesOf t).length : ℤ) - (size_subtree s : ℤ)) := by
      rw [sum_dist_above, hchain, List.reverse_append]
      rw [sum_dist_above]
      rw [hfront, List.reverse_append]
      simp only [List.reverse_cons, List.reverse_nil, List.nil_append,
        List.cons_append, List.singleton_append]
      rfl
    rw [hLHS, hslab, hsplab, hd1]
    have e1 : sumBelowAt t p_ = sum_dist_below t sp := by
      simp [sumBelowAt, hsp]
    have e2 : sumBelowAt t x = sum_dist_below t s := by
      simp [sumBelowAt, hs]
    have e3 : sizeAt t x = size_subtree s := by
      simp [sizeAt, hs]
    rw [e1, e2, e3]

/-- Witness for C9: the node `1` of a concrete 4-node tree. -/
theorem claim9_sum_above_witness :
    sum_dist_above (RTree.node 0 [RTree.node 1 [RTree.node 2 []],
        RTree.node 3 []]) 1 =
      (((nodesOf (RTree.node 0 [RTree.node 1 [RTree.node 2 []],
          RTree.node 3 []])).filter (fun u =>
            decide (u ∉ nodesOf (RTree.node 1 [RTree.node 2 []])))).map
        (fun u => (tdist (RTree.node 0 [RTree.node 1 [RTree.node 2 []],
          RTree.node 3 []]) 1 u : ℤ))).sum ∧
    sum_dist_above (RTree.node 0 [RTree.node 1 [RTree.node 2 []],
        RTree.node 3 []])
      (RTree.node 0 [RTree.node 1 [RTree.node 2 []],
        RTree.node 3 []]).lab = 0 ∧
    (1 ≠ (RTree.node 0 [RTree.node 1 [RTree.node 2 []],
        RTree.node 3 []]).lab →
      sum_dist_above (RTree.node 0 [RTree.node 1 [RTree.node 2 []],
          RTree.node 3 []]) 1 =
        sum_dist_above (RTree.node 0 [RTree.node 1 [RTree.node 2 []],
            RTree.node 3 []])
          (parentOf (RTree.node 0 [RTree.node 1 [RTree.node 2 []],
            RTree.node 3 []]) 1)
        + ((sumBelowAt (RTree.node 0 [RTree.node 1 [RTree.node 2 []],
              RTree.node 3 []])
            (parentOf (RTree.node 0 [RTree.node 1 [RTree.node 2 []],
              RTree.node 3 []]) 1) : ℤ)
            - (sumBelowAt (RTree.node 0 [RTree.node 1 [RTree.node 2 []],
                RTree.node 3 []]) 1 : ℤ)
            - (tdist (RTree.node 0 [RTree.node 1 [RTree.node 2 []],
                RTree.node 3 []]) 1
                (parentOf (RTree.node 0 [RTree.node 1 [RTree.node 2 []],
                  RTree.node 3 []]) 1) : ℤ)
              * (sizeAt (RTree.node 0 [RTree.node 1 [RTree.node 2 []],
                  RTree.node 3 []]) 1 : ℤ))
        + (tdist (RTree.node 0 [RTree.node 1 [RTree.node 2 []],
            RTree.node 3 []]) 1
            (parentOf (RTree.node 0 [RTree.node 1 [RTree.node 2 []],
              RTree.node 3 []]) 1) : ℤ)
            * (((nodesOf (RTree.node 0 [RTree.node 1 [RTree.node 2 []],
                RTree.node 3 []])).length : ℤ)
              - (sizeAt (RTree.node 0 [RTree.node 1 [RTree.node 2 []],
                  RTree.node 3 []]) 1 : ℤ))) :=
  claim9_sum_above
    (show (nodesOf (RTree.node 0 [RTree.node 1 [RTree.node 2 []],
      RTree.node 3 []])).Nodup by decide) rfl

/-! ## Witness structure of the dynamic programs -/

theorem pyMin_mem {α : Type} [LinearOrder α] (o : α × List ℕ)
    (os : List (α × List ℕ)) : pyMin o os ∈ o :: os := by
  induction os generalizing o with
  | nil => simp [pyMin]
  | cons r os ih =>
    have hstep : pyMin o (r :: os) = pyMin (if pairLt r o then r else o) os :=
      rfl
    rw [hstep]
    rcases List.mem_cons.mp (ih (if pairLt r o then r else o)) with h | h
    · rw [h]
      by_cases hp : pairLt r o <;> simp [hp]
    · simp [h]

theorem leaves_sub_nodes_aux :
    (∀ t : RTree, ∀ y ∈ leavesOf t, y ∈ nodesOf t) ∧
    (∀ l : List RTree, ∀ y ∈ leavesList l, y ∈ nodesList l) := by
  refine ⟨rtree_ind ?hn ?h0 ?hc, rtree_ind_list ?hn ?h0 ?hc⟩
  case hn =>
    intro x cs ih y hy
    rcases cs with _ | ⟨c, rest⟩
    · simpa [leavesOf, nodesOf, nodesList] using hy
    · simp only [leavesOf] at hy
      simp only [nodesOf]
      exact List.mem_cons.mpr (Or.inr (ih y hy))
  case h0 => intro y hy; simp [leavesList] at hy
  case hc =>
    intro c cs ihc ihcs y hy
    simp only [leavesList] at hy
    simp only [nodesList]
    rcases List.mem_append.mp hy with h | h
    · exact List.mem_append.mpr (Or.inl (ihc y h))
    · exact List.mem_append.mpr (Or.inr (ihcs y h))

theorem leaves_sub_nodes {t : RTree} {y : ℕ} (h : y ∈ leavesOf t) :
    y ∈ nodesOf t := leaves_sub_nodes_aux.1 t y h

theorem leavesList_sub_nodes {l : List RTree} {y : ℕ}
    (h : y ∈ leavesList l) : y ∈ nodesList l := leaves_sub_nodes_aux.2 l y h

theorem size_subtree_pos (t : RTree) : 1 ≤ size_subtree t := by
  obtain ⟨x, cs⟩ := t
  simp only [size_subtree]
  omega

theorem size_one_iff_kids_nil {x : ℕ} {cs : List RTree} :
    size_subtree (RTree.node x cs) = 1 ↔ cs = [] := by
  constructor
  · intro h
    rcases cs with _ | ⟨c, rest⟩
    · rfl
    · exfalso
      have h1 := size_subtree_pos c
      simp only [size_subtree, sizeSubtrees] at h
      omega
  · intro h
    subst h
    simp [size_subtree, sizeSubtrees]

/-- Structure of the P_err DP witness: when the cost is finite, the
returned tuple has exactly `k` pairwise distinct entries, all leaves of
the subtree. -/
theorem opt_perr_witness :
    ∀ t : RTree, t.wf → ∀ root b k, (opt_perr root b t k).1 ≠ ⊤ →
      (opt_perr root b t k).2.length = k ∧ (opt_perr root b t k).2.Nodup ∧
      ∀ y ∈ (opt_perr root b t k).2, y ∈ leavesOf t := by
  refine rtree_ind
    (Q := fun cs => (nodesList cs).Nodup → ∀ root b x k,
      (optc_perr root b x k cs).1 ≠ ⊤ →
      (optc_perr root b x k cs).2.length = k ∧
      (optc_perr root b x k cs).2.Nodup ∧
      ∀ y ∈ (optc_perr root b x k cs).2, y ∈ leavesList cs) ?_ ?_ ?_
  · intro x cs ih hwf root b k hfin
    by_cases hk : k = 0
    · subst hk
      simp [opt_perr]
    · by_cases hsz : size_subtree (RTree.node x cs) = 1
      · have hcs : cs = [] := size_one_iff_kids_nil.mp hsz
        subst hcs
        by_cases hk1 : 1 < k
        · exfalso
          simp [opt_perr, hk, hsz, hk1] at hfin
        · simp [opt_perr, hk, hsz, hk1, leavesOf]
          omega
      · have hcs : cs ≠ [] := fun h => hsz (by rw [h]; rfl)
        have hfin2 : (optc_perr root b x k cs).1 ≠ ⊤ := by
          intro he
          apply hfin
          simp only [opt_perr, hk, if_false, hsz]
          split
          · rw [he]
            rfl
          · exact he
        have hwit : (opt_perr root b (RTree.node x cs) k).2
            = (optc_perr root b x k cs).2 := by
          simp only [opt_perr, hk, if_false, hsz]
          split <;> rfl
        have hleq : leavesOf (RTree.node x cs) = leavesList cs := by
          rcases cs with _ | ⟨c, rest⟩
          · exact absurd rfl hcs
          · rfl
        rw [hwit, hleq]
        exact ih (wf_kids hwf).1 root b x k hfin2
  · intro hnd root b x k hfin
    by_cases hk : 0 < k
    · exfalso
      simp [optc_perr, hk] at hfin
    · have hk0 : k = 0 := by omega
      subst hk0
      simp [optc_perr]
  · intro c rest ihc ihrest hnd root b x k hfin
    rcases nodesList_nodup_parts hnd with ⟨hndc, hndrest, hdisj⟩
    by_cases hk : k = 0
    · subst hk
      simp [optc_perr]
    · rcases hmap : (List.range (k + 1)).map (fun l =>
          let r1 := opt_perr root b c l
          let r2 := optc_perr root b x (k - l) rest
          (r1.1 + r2.1, r1.2 ++ r2.2)) with _ | ⟨o, os⟩
      · exfalso
        have := congrArg List.length hmap
        simp at this
      · have hres : optc_perr root b x k (c :: rest) = pyMin o os := by
          simp only [optc_perr, hk, if_false, hmap]
        have hmem : pyMin o os ∈ (List.range (k + 1)).map (fun l =>
            let r1 := opt_perr root b c l
            let r2 := optc_perr root b x (k - l) rest
            (r1.1 + r2.1, r1.2 ++ r2.2)) := by
          rw [hmap]
          exact pyMin_mem o os
        rcases List.mem_map.mp hmem with ⟨l, hl, heq⟩
        have hlk : l ≤ k := by
          simp only [List.mem_range] at hl
          omega
        rw [hres] at hfin ⊢
        rw [← heq] at hfin ⊢
        simp only at hfin ⊢
        have hfin1 : (opt_perr root b c l).1 ≠ ⊤ :=
          fun he => hfin (by simp [he])
        have hfin2 : (optc_perr root b x (k - l) rest).1 ≠ ⊤ :=
          fun he => hfin (by simp [he])
        rcases ihc (wf_of_mem_forest hnd (by simp)) root b l hfin1
          with ⟨hlen1, hnd1, hsub1⟩
        rcases ihrest hndrest root b x (k - l) hfin2
          with ⟨hlen2, hnd2, hsub2⟩
        refine ⟨?_, ?_, ?_⟩
        · simp only [List.length_append, hlen1, hlen2]
          omega
        · rw [List.nodup_append]
          refine ⟨hnd1, hnd2, ?_⟩
          intro y hy1 hy2
          exact hdisj y (leaves_sub_nodes (hsub1 y hy1))
            (leavesList_sub_nodes (hsub2 y hy2))
        · intro y hy
          simp only [leavesList]
          rcases List.mem_append.mp hy with h | h
          · exact List.mem_append.mpr (Or.inl (hsub1 y h))
          · exact List.mem_append.mpr (Or.inr (hsub2 y h))

theorem mem_leavesList_of_mem {cs : List RTree} {c : RTree} (hc : c ∈ cs)
    {y : ℕ} (hy : y ∈ leavesOf c) : y ∈ leavesList cs := by
  induction cs with
  | nil => simp at hc
  | cons c0 cs ih =>
    rcases List.mem_cons.mp hc with rfl | hcc
    · simp only [leavesList]
      exact List.mem_append.mpr (Or.inl hy)
    · simp only [leavesList]
      exact List.mem_append.mpr (Or.inr (ih hcc))

/-- Structure of the E_dist DP witness: for any class-value table, when
the cost is finite and at least one sensor is requested, the returned
tuple has exactly `k` pairwise distinct entries, all leaves of the
subtree. -/
theorem opt_edist_witness :
    ∀ t : RTree, t.wf → ∀ table : ℕ → List ℕ → ℚ, ∀ par : ℕ → ℕ,
      ∀ root b k, 1 ≤ k → (opt_edist table par root b t k).1 ≠ ⊤ →
      (opt_edist table par root b t k).2.length = k ∧
      (opt_edist table par root b t k).2.Nodup ∧
      ∀ y ∈ (opt_edist table par root b t k).2, y ∈ leavesOf t := by
  refine rtree_ind
    (Q := fun cs => ∀ c2 ∈ cs, c2.wf → ∀ table : ℕ → List ℕ → ℚ,
      ∀ par : ℕ → ℕ, ∀ root b k, 1 ≤ k →
      (opt_edist table par root b c2 k).1 ≠ ⊤ →
      (opt_edist table par root b c2 k).2.length = k ∧
      (opt_edist table par root b c2 k).2.Nodup ∧
      ∀ y ∈ (opt_edist table par root b c2 k).2, y ∈ leavesOf c2) ?_ ?_ ?_
  · intro x cs ihQ hwf table par root b k hk hfin
    cases cs with
    | nil =>
      by_cases hk1 : 1 < k
      · exfalso
        simp [opt_edist, hk1] at hfin
      · have hkeq : k = 1 := by omega
        subst hkeq
        simp [opt_edist, hk1, leavesOf]
    | cons c0 rest0 =>
      have hinner : ∀ suf : List RTree, (nodesList suf).Nodup →
          (∀ c2 ∈ suf, c2 ∈ c0 :: rest0) →
          ∀ k2 : ℕ, ∀ ns : List ℕ,
            (optc_edist table par root b x k2 suf ns).1 ≠ ⊤ →
            (optc_edist table par root b x k2 suf ns).2.length = k2 ∧
            (optc_edist table par root b x k2 suf ns).2.Nodup ∧
            ∀ y ∈ (optc_edist table par root b x k2 suf ns).2,
              y ∈ leavesList suf := by
        intro suf
        induction suf with
        | nil =>
          intro hnd hsub k2 ns hfin2
          by_cases hk2 : 0 < k2
          · exfalso
            simp [optc_edist, hk2] at hfin2
          · have hz : k2 = 0 := by omega
            subst hz
            simp [optc_edist]
        | cons c rest ihrest =>
          intro hnd hsub k2 ns hfin2
          rcases nodesList_nodup_parts hnd with ⟨hndc, hndrest, hdisj⟩
          by_cases hk2 : k2 = 0
          · subst hk2
            simp [optc_edist]
          · have hwfc : c.wf := wf_of_mem_forest hnd (by simp)
            have hprop := fun (c2 : RTree) (h : c2 ∈ c :: rest)
              (k3 : ℕ) (h3 : 1 ≤ k3) =>
              ihQ c2 (hsub c2 h) (RTree.wf_kid hwf (hsub c2 h)) table par
                root b k3 h3
            have hsubrest : ∀ c2 ∈ rest, c2 ∈ c0 :: rest0 :=
              fun c2 h => hsub c2 (by simp [h])
            -- name the three families of options
            set skip := optc_edist table par root b x k2 rest (ns ++ [c.lab])
              with hskip
            set splits := (List.range' 1 (min k2 (b - 1))).map (fun l =>
              let r1 := opt_edist table par root b c l
              let r2 := optc_edist table par root b x (k2 - l) rest ns
              (r1.1 + r2.1, r1.2 ++ r2.2)) with hsplits
            have hgoal : ∀ res : WithTop ℚ × List ℕ,
                (res ∈ (if root ≠ x ∧ b = k2 then
                    (c :: rest).map
                      (fun c2 => opt_edist table par root b c2 k2)
                  else []) ∨ res = skip ∨ res ∈ splits) →
                res.1 ≠ ⊤ → res.2.length = k2 ∧ res.2.Nodup ∧
                ∀ y ∈ res.2, y ∈ leavesList (c :: rest) := by
              intro res hres hresfin
              rcases hres with hres | hres | hres
              · by_cases hrb : root ≠ x ∧ b = k2
                · rw [if_pos hrb] at hres
                  rcases List.mem_map.mp hres with ⟨c2, hc2, heq⟩
                  subst heq
                  rcases hprop c2 hc2 k2 (by omega) hresfin
                    with ⟨h1, h2, h3⟩
                  exact ⟨h1, h2, fun y hy =>
                    mem_leavesList_of_mem hc2 (h3 y hy)⟩
                · rw [if_neg hrb] at hres
                  simp at hres
              · subst hres
                rcases ihrest hndrest hsubrest k2 (ns ++ [c.lab]) hresfin
                  with ⟨h1, h2, h3⟩
                refine ⟨h1, h2, fun y hy => ?_⟩
                simp only [leavesList]
                exact List.mem_append.mpr (Or.inr (h3 y hy))
              · rcases List.mem_map.mp hres with ⟨l, hl, heq⟩
                subst heq
                simp only at hresfin ⊢
                rw [List.mem_range'_1] at hl
                have hl1 : 1 ≤ l := hl.1
                have hl2 : l ≤ min k2 (b - 1) := by omega
                have hlk : l ≤ k2 := by omega
                have hfa : (opt_edist table par root b c l).1 ≠ ⊤ :=
                  fun he => hresfin (by simp [he])
                have hfb : (optc_edist table par root b x (k2 - l) rest
                    ns).1 ≠ ⊤ :=
                  fun he => hresfin (by simp [he])
                rcases hprop c (by simp) l hl1 hfa with ⟨ha1, ha2, ha3⟩
                rcases ihrest hndrest hsubrest (k2 - l) ns hfb
                  with ⟨hb1, hb2, hb3⟩
                refine ⟨?_, ?_, ?_⟩
                · simp only [List.length_append, ha1, hb1]
                  omega
                · rw [List.nodup_append]
                  refine ⟨ha2, hb2, ?_⟩
                  intro y hy1 hy2
                  exact hdisj y (leaves_sub_nodes (ha3 y hy1))
                    (leavesList_sub_nodes (hb3 y hy2))
                · intro y hy
                  simp only [leavesList]
                  rcases List.mem_append.mp hy with h | h
                  · exact List.mem_append.mpr (Or.inl (ha3 y h))
                  · exact List.mem_append.mpr (Or.inr (hb3 y h))
            by_cases hrb : root ≠ x ∧ b = k2
            · have hres : optc_edist table par root b x k2 (c :: rest) ns
                  = pyMin (opt_edist table par root b c k2)
                    (rest.map (fun c2 => opt_edist table par root b c2 k2)
                      ++ skip :: splits) := by
                simp only [optc_edist, hk2, if_false, if_pos hrb]
                rw [List.attach_map_val (c :: rest)
                  (fun c2 => opt_edist table par root b c2 k2)]
                rfl
              rw [hres] at hfin2 ⊢
              have hmem := pyMin_mem (opt_edist table par root b c k2)
                (rest.map (fun c2 => opt_edist table par root b c2 k2)
                  ++ skip :: splits)
              apply hgoal _ ?_ hfin2
              rw [if_pos hrb]
              rcases List.mem_cons.mp hmem with h | h
              · left
                rw [h]
                exact List.mem_map.mpr ⟨c, by simp, rfl⟩
              · rcases List.mem_append.mp h with h | h
                · left
                  rcases List.mem_map.mp h with ⟨c2, hc2, heq⟩
                  exact List.mem_map.mpr ⟨c2, by simp [hc2], heq⟩
                · rcases List.mem_cons.mp h with h | h
                  · right; left; exact h
                  · right; right; exact h
            · have hres : optc_edist table par root b x k2 (c :: rest) ns
                  = pyMin skip splits := by
                simp only [optc_edist, hk2, if_false, if_neg hrb]
                rfl
              rw [hres] at hfin2 ⊢
              have hmem := pyMin_mem skip splits
              apply hgoal _ ?_ hfin2
              rcases List.mem_cons.mp hmem with h | h
              · right; left; exact h
              · right; right; exact h
      have hcentral : opt_edist table par root b (RTree.node x (c0 :: rest0)) k
          = optc_edist table par root b x k (c0 :: rest0)
            (if root ≠ x ∧ b = k then [par x] else []) := by
        simp [opt_edist]
      rw [hcentral] at hfin ⊢
      have hndk : (nodesList (c0 :: rest0)).Nodup := (wf_kids hwf).1
      rcases hinner (c0 :: rest0) hndk (fun c2 h => h) k _ hfin
        with ⟨h1, h2, h3⟩
      exact ⟨h1, h2, fun y hy => h3 y hy⟩
  · intro c2 hc2
    simp at hc2
  · intro c cs ihc ihcs c2 hc2
    rcases List.mem_cons.mp hc2 with rfl | h
    · intro hwf table par root b k hk hfin
      exact ihc hwf table par root b k hk hfin
    · exact ihcs c2 h

/-! ## Claim C10: the returned witness is a tuple of distinct leaves -/

/-- C10: on every valid rooted view, for a budget `b ≥ 2`, whenever the
returned objective is finite the sensor tuple produced at the root by
the P_err DP, and by the E_dist DP for any class-value table, consists
of exactly `b` pairwise-distinct leaf nodes of the tree. -/
theorem claim10_witness_structure (t : RTree) (hwf : t.wf)
    (table : ℕ → List ℕ → ℚ) (par : ℕ → ℕ) (root b : ℕ) (hb : 2 ≤ b) :
    ((opt_perr root b t b).1 ≠ ⊤ →
      (opt_perr root b t b).2.length = b ∧ (opt_perr root b t b).2.Nodup ∧
        ∀ y ∈ (opt_perr root b t b).2, y ∈ leavesOf t) ∧
    ((opt_edist table par root b t b).1 ≠ ⊤ →
      (opt_edist table par root b t b).2.length = b ∧
        (opt_edist table par root b t b).2.Nodup ∧
        ∀ y ∈ (opt_edist table par root b t b).2, y ∈ leavesOf t) :=
  ⟨opt_perr_witness t hwf root b b,
    opt_edist_witness t hwf table par root b b (by omega)⟩

/-- Witness for C10 on a three-leaf star with budget 2. -/
theorem claim10_witness_structure_witness :
    ((opt_perr 0 2 (RTree.node 0 [RTree.node 1 [], RTree.node 2 [],
        RTree.node 3 []]) 2).1 ≠ ⊤ →
      (opt_perr 0 2 (RTree.node 0 [RTree.node 1 [], RTree.node 2 [],
        RTree.node 3 []]) 2).2.length = 2 ∧
      (opt_perr 0 2 (RTree.node 0 [RTree.node 1 [], RTree.node 2 [],
        RTree.node 3 []]) 2).2.Nodup ∧
      ∀ y ∈ (opt_perr 0 2 (RTree.node 0 [RTree.node 1 [], RTree.node 2 [],
        RTree.node 3 []]) 2).2,
        y ∈ leavesOf (RTree.node 0 [RTree.node 1 [], RTree.node 2 [],
          RTree.node 3 []])) ∧
    ((opt_edist (fun _ _ => 0) id 0 2 (RTree.node 0 [RTree.node 1 [],
        RTree.node 2 [], RTree.node 3 []]) 2).1 ≠ ⊤ →
      (opt_edist (fun _ _ => 0) id 0 2 (RTree.node 0 [RTree.node 1 [],
        RTree.node 2 [], RTree.node 3 []]) 2).2.length = 2 ∧
      (opt_edist (fun _ _ => 0) id 0 2 (RTree.node 0 [RTree.node 1 [],
        RTree.node 2 [], RTree.node 3 []]) 2).2.Nodup ∧
      ∀ y ∈ (opt_edist (fun _ _ => 0) id 0 2 (RTree.node 0 [RTree.node 1 [],
        RTree.node 2 [], RTree.node 3 []]) 2).2,
        y ∈ leavesOf (RTree.node 0 [RTree.node 1 [], RTree.node 2 [],
          RTree.node 3 []])) :=
  claim10_witness_structure
    (RTree.node 0 [RTree.node 1 [], RTree.node 2 [], RTree.node 3 []])
    (show (nodesOf (RTree.node 0 [RTree.node 1 [], RTree.node 2 [],
      RTree.node 3 []])).Nodup by decide)
    (fun _ _ => 0) id 0 2 (by decide)

/-! ## Minimum-cost facts and combination algebra for the P_err proof -/

theorem minCosts_le_of_mem {α : Type} [LinearOrder α] [OrderTop α]
    {l : List α} {a : α} (h : a ∈ l) : minCosts l ≤ a := by
  induction l with
  | nil => simp at h
  | cons x xs ih =>
    rw [minCosts_cons]
    rcases List.mem_cons.mp h with rfl | h
    · exact min_le_left _ _
    · exact le_trans (min_le_right _ _) (ih h)

theorem le_minCosts {α : Type} [LinearOrder α] [OrderTop α]
    {l : List α} {x : α} (h : ∀ a ∈ l, x ≤ a) : x ≤ minCosts l := by
  induction l with
  | nil => simp [minCosts]
  | cons a as ih =>
    rw [minCosts_cons]
    exact le_min (h a (by simp)) (ih (fun a2 h2 => h a2 (by simp [h2])))

theorem minCosts_cases {α : Type} [LinearOrder α] [OrderTop α]
    (l : List α) : minCosts l = ⊤ ∨ ∃ a ∈ l, minCosts l = a := by
  induction l with
  | nil => left; rfl
  | cons x xs ih =>
    rw [minCosts_cons]
    rcases ih with h | ⟨a, ha, h⟩
    · rw [h]
      right
      exact ⟨x, by simp, min_eq_left le_top⟩
    · rw [h]
      rcases le_total x a with hx | hx
      · right; exact ⟨x, by simp, min_eq_left hx⟩
      · right; exact ⟨a, by simp [ha], min_eq_right hx⟩

theorem minCosts_singleton (a : WithTop ℕ) : minCosts [a] = a := by
  simp only [minCosts, List.foldr]
  exact min_eq_left le_top

theorem minCosts_map_add_const {β : Type} {l : List β} {f : β → ℕ} (c : ℕ) :
    minCosts (l.map (fun u => ((f u + c : ℕ) : WithTop ℕ)))
      = minCosts (l.map (fun u => ((f u : ℕ) : WithTop ℕ))) + (c : WithTop ℕ) := by
  induction l with
  | nil => simp [minCosts]
  | cons a as ih =>
    simp only [List.map_cons, minCosts_cons, ih]
    rw [Nat.cast_add]
    rcases le_total ((f a : WithTop ℕ))
        (minCosts (as.map (fun u => ((f u : ℕ) : WithTop ℕ)))) with h | h
    · rw [min_eq_left h, min_eq_left (add_le_add_right h _)]
    · rw [min_eq_right h, min_eq_right (add_le_add_right h _)]

theorem combinations_length {α : Type} :
    ∀ (l : List α) (k : ℕ) (S : List α), S ∈ combinations l k →
      S.length = k := by
  intro l
  induction l with
  | nil =>
    intro k S h
    cases k with
    | zero => simp [combinations] at h; simp [h]
    | succ k => simp [combinations] at h
  | cons a as ih =>
    intro k S h
    cases k with
    | zero => simp [combinations] at h; simp [h]
    | succ k =>
      simp only [combinations, List.mem_append, List.mem_map] at h
      rcases h with ⟨S0, hS0, rfl⟩ | h
      · simp [ih k S0 hS0]
      · exact ih (k + 1) S h

theorem combinations_mem_sub {α : Type} :
    ∀ (l : List α) (k : ℕ) (S : List α), S ∈ combinations l k →
      ∀ y ∈ S, y ∈ l := by
  intro l
  induction l with
  | nil =>
    intro k S h y hy
    cases k with
    | zero => simp [combinations] at h; simp [h] at hy
    | succ k => simp [combinations] at h
  | cons a as ih =>
    intro k S h y hy
    cases k with
    | zero =>
      simp [combinations] at h
      simp [h] at hy
    | succ k =>
      simp only [combinations, List.mem_append, List.mem_map] at h
      rcases h with ⟨S0, hS0, rfl⟩ | h
      · rcases List.mem_cons.mp hy with rfl | hy
        · simp
        · exact List.mem_cons.mpr (Or.inr (ih k S0 hS0 y hy))
      · exact List.mem_cons.mpr (Or.inr (ih (k + 1) S h y hy))

theorem combinations_weaken {α : Type} {as : List α} {k : ℕ} {S : List α}
    (a : α) (h : S ∈ combinations as k) : S ∈ combinations (a :: as) k := by
  cases k with
  | zero => simpa [combinations] using h
  | succ k =>
    simp only [combinations, List.mem_append]
    exact Or.inr h

theorem combinations_append_mk {α : Type} :
    ∀ (A : List α) (i : ℕ) (S1 : List α), S1 ∈ combinations A i →
      ∀ (B : List α) (j : ℕ) (S2 : List α), S2 ∈ combinations B j →
      S1 ++ S2 ∈ combinations (A ++ B) (i + j) := by
  intro A
  induction A with
  | nil =>
    intro i S1 h1 B j S2 h2
    cases i with
    | zero =>
      simp [combinations] at h1
      simpa [h1] using h2
    | succ i => simp [combinations] at h1
  | cons a as ih =>
    intro i S1 h1 B j S2 h2
    cases i with
    | zero =>
      simp [combinations] at h1
      subst h1
      simp only [List.nil_append, Nat.zero_add]
      have := ih 0 [] (by simp [combinations]) B j S2 h2
      simp only [List.nil_append, Nat.zero_add] at this
      exact combinations_weaken a this
    | succ i =>
      simp only [combinations, List.mem_append, List.mem_map] at h1
      rcases h1 with ⟨S0, hS0, rfl⟩ | h1
      · have := ih i S0 hS0 B j S2 h2
        show a :: S0 ++ S2 ∈ combinations (a :: (as ++ B)) (i + 1 + j)
        have hsucc : i + 1 + j = (i + j) + 1 := by omega
        rw [hsucc]
        simp only [combinations, List.mem_append, List.mem_map]
        exact Or.inl ⟨S0 ++ S2, this, by simp⟩
      · have := ih (i + 1) S1 h1 B j S2 h2
        exact combinations_weaken a this

theorem combinations_append_split {α : Type} :
    ∀ (A B : List α) (k : ℕ) (S : List α),
      S ∈ combinations (A ++ B) k →
      ∃ i S1 S2, i ≤ k ∧ S1 ∈ combinations A i ∧
        S2 ∈ combinations B (k - i) ∧ S = S1 ++ S2 := by
  intro A
  induction A with
  | nil =>
    intro B k S h
    exact ⟨0, [], S, by omega, by simp [combinations], by simpa using h,
      by simp⟩
  | cons a as ih =>
    intro B k S h
    cases k with
    | zero =>
      simp [combinations] at h
      exact ⟨0, [], [], le_rfl, by simp [combinations],
        by simp [combinations], by simp [h]⟩
    | succ k =>
      simp only [List.cons_append, combinations, List.mem_append,
        List.mem_map] at h
      rcases h with ⟨S0, hS0, rfl⟩ | h
      · rcases ih B k S0 hS0 with ⟨i, S1, S2, hik, h1, h2, rfl⟩
        refine ⟨i + 1, a :: S1, S2, by omega, ?_, ?_, by simp⟩
        · simp only [combinations, List.mem_append, List.mem_map]
          exact Or.inl ⟨S1, h1, rfl⟩
        · have : k + 1 - (i + 1) = k - i := by omega
          rw [this]
          exact h2
      · rcases ih B (k + 1) S h with ⟨i, S1, S2, hik, h1, h2, rfl⟩
        exact ⟨i, S1, S2, hik, combinations_weaken a h1, h2, rfl⟩

theorem costOfList_nil_sensors (b : ℕ) :
    ∀ cs : List RTree, costOfList b cs [] = sizeSubtrees cs := by
  intro cs
  induction cs with
  | nil => rfl
  | cons c rest ih =>
    simp only [costOfList, List.filter_nil, ih, sizeSubtrees]
    have : costOf b c [] = size_subtree c := by
      obtain ⟨x, cs2⟩ := c
      simp [costOf]
    rw [this]

theorem costOfList_drop_left (b : ℕ) :
    ∀ (rest : List RTree) (S1 S2 : List ℕ),
      (∀ y ∈ S1, y ∉ leavesList rest) →
      costOfList b rest (S1 ++ S2) = costOfList b rest S2 := by
  intro rest
  induction rest with
  | nil => intro S1 S2 h; rfl
  | cons c2 rest2 ih =>
    intro S1 S2 h
    simp only [costOfList]
    have hfil : (S1 ++ S2).filter (fun y => decide (y ∈ leavesOf c2))
        = S2.filter (fun y => decide (y ∈ leavesOf c2)) := by
      rw [List.filter_append]
      have : S1.filter (fun y => decide (y ∈ leavesOf c2)) = [] := by
        rw [List.filter_eq_nil_iff]
        intro y hy
        simp only [decide_eq_true_eq]
        intro hmem
        exact h y hy (mem_leavesList_of_mem (by simp) hmem)
      rw [this, List.nil_append]
    rw [hfil]
    congr 1
    apply ih
    intro y hy hmem
    apply h y hy
    simp only [leavesList]
    exact List.mem_append.mpr (Or.inr hmem)

/-! ## Claim C8: options of the E_dist auxiliary DP -/

/-- C8: in the E_dist auxiliary `_optc` at node `x` with budget `k > 0`
and children suffix `(c₀, rest)`, the cost minimised over is the minimum
of exactly these options: skipping `c₀` (adding it to the non-sensored
set), sending `l` sensors into `c₀` for every `1 ≤ l ≤ min(k, b-1)`, and
additionally, when `x ≠ root ∧ k = b`, sending the full budget down
exactly one child (each child of the suffix). -/
theorem claim8_optc_options (table : ℕ → List ℕ → ℚ) (par : ℕ → ℕ)
    (root b x k : ℕ) (hk : 0 < k) (c0 : RTree) (rest : List RTree)
    (ns : List ℕ) :
    (optc_edist table par root b x k (c0 :: rest) ns).1 =
      minCosts ((optc_edist table par root b x k rest (ns ++ [c0.lab])).1
        :: ((List.range' 1 (min k (b - 1))).map fun l =>
              (opt_edist table par root b c0 l).1
                + (optc_edist table par root b x (k - l) rest ns).1)
        ++ (if root ≠ x ∧ b = k then
              (c0 :: rest).map (fun c => (opt_edist table par root b c k).1)
            else [])) := by
  have hk0 : k ≠ 0 := by omega
  rw [optc_edist]
  simp only [hk0, if_false]
  by_cases hsp : root ≠ x ∧ b = k
  · simp only [if_pos hsp]
    rw [List.attach_map_val (c0 :: rest) (fun c => opt_edist table par root b c k)]
    simp only [List.map_cons, List.cons_append]
    rw [pyMin_fst]
    apply minCosts_perm
    have hperm :
        ((opt_edist table par root b c0 k :: rest.map (fun c => opt_edist table par root b c k)) ++
          optc_edist table par root b x k rest (ns ++ [c0.lab])
            :: (List.range' 1 (min k (b - 1))).map (fun l =>
              ((opt_edist table par root b c0 l).1
                  + (optc_edist table par root b x (k - l) rest ns).1,
                (opt_edist table par root b c0 l).2
                  ++ (optc_edist table par root b x (k - l) rest ns).2))).Perm
        ((optc_edist table par root b x k rest (ns ++ [c0.lab])
            :: (List.range' 1 (min k (b - 1))).map (fun l =>
              ((opt_edist table par root b c0 l).1
                  + (optc_edist table par root b x (k - l) rest ns).1,
                (opt_edist table par root b c0 l).2
                  ++ (optc_edist table par root b x (k - l) rest ns).2))) ++
          (opt_edist table par root b c0 k :: rest.map (fun c => opt_edist table par root b c k))) :=
      List.perm_append_comm
    have := hperm.map Prod.fst
    simpa using this
  · simp only [if_neg hsp]
    simp only [List.nil_append]
    rw [pyMin_fst]
    apply minCosts_perm
    simp only [List.map_cons, List.map_map, List.append_nil]
    exact List.Perm.refl _

/-- Witness for C8 on a two-leaf star with a constant table. -/
theorem claim8_optc_options_witness :
    (optc_edist (fun _ _ => 0) id 0 2 1 2 [.node 3 [], .node 4 []] []).1 =
      minCosts ((optc_edist (fun _ _ => 0) id 0 2 1 2 [.node 4 []]
          ([] ++ [(RTree.node 3 []).lab])).1
        :: ((List.range' 1 (min 2 (2 - 1))).map fun l =>
              (opt_edist (fun _ _ => 0) id 0 2 (.node 3 []) l).1
                + (optc_edist (fun _ _ => 0) id 0 2 1 (2 - l) [.node 4 []] []).1)
        ++ (if (0 : ℕ) ≠ 1 ∧ 2 = 2 then
              ([RTree.node 3 [], RTree.node 4 []]).map
                (fun c => (opt_edist (fun _ _ => 0) id 0 2 c 2).1)
            else [])) :=
  claim8_optc_options (fun _ _ => 0) id 0 2 1 2 (by decide) (.node 3 [])
    [.node 4 []] []

/-! ## Claim C5: budgets below 2 are rejected at the entry point -/

/-- C5: for every input graph, every leaf list and every budget strictly
below 2, each of the four public entry points (`prob_err.optimal_placement`,
`exp_dist.optimal_placement`, `utilities.prob_err`, `utilities.exp_dist`)
rejects the call with an `InvalidBudget` error raised synchronously at
the entry point, before any computation. -/
theorem claim5_invalid_budget (G : Graph) (b : ℕ) (hb : b < 2)
    (pick : List ℕ → Option ℕ) (leaves : List ℕ) :
    ProbErr.optimal_placement G b pick = .error .InvalidBudget ∧
    ExpDist.optimal_placement G b pick = .error .InvalidBudget ∧
    Utilities.prob_err G leaves b = .error .InvalidBudget ∧
    Utilities.exp_dist G leaves b = .error .InvalidBudget := by
  refine ⟨?_, ?_, ?_, ?_⟩ <;>
    simp [ProbErr.optimal_placement, ExpDist.optimal_placement,
      Utilities.prob_err, Utilities.exp_dist, hb]

/-- Witness for C5 at budget 1 on a one-node graph. -/
theorem claim5_invalid_budget_witness :
    ProbErr.optimal_placement ⟨[0], []⟩ 1 (fun _ => none)
        = .error .InvalidBudget ∧
    ExpDist.optimal_placement ⟨[0], []⟩ 1 (fun _ => none)
        = .error .InvalidBudget ∧
    Utilities.prob_err ⟨[0], []⟩ [] 1 = .error .InvalidBudget ∧
    Utilities.exp_dist ⟨[0], []⟩ [] 1 = .error .InvalidBudget :=
  claim5_invalid_budget ⟨[0], []⟩ 1 (by decide) (fun _ => none) []

/-! ## Claim C4: saturation shortcut -/

/-- C4: for every valid tree and every budget `b ≥ |L|` (with `b ≥ 2`),
both optimizers return objective value `0` with witness equal to the
tuple of all leaves, via the saturation shortcut that precedes the
dynamic program. -/
theorem claim4_saturation (G : Graph) (b : ℕ) (hb : 2 ≤ b)
    (ht : is_tree G = true) (hsat : (find_leaves G).length ≤ b)
    (pick : List ℕ → Option ℕ) :
    ProbErr.optimal_placement G b pick = .ok ((0 : WithTop ℚ), find_leaves G) ∧
    ExpDist.optimal_placement G b pick = .ok ((0 : WithTop ℚ), find_leaves G) := by
  have h2 : ¬ b < 2 := by omega
  constructor <;>
    simp [ProbErr.optimal_placement, ExpDist.optimal_placement, h2, ht, hsat]

/-- Witness for C4: the two-node tree with `b = 2 = |L|`. -/
theorem claim4_saturation_witness :
    ProbErr.optimal_placement ⟨[0, 1], [(0, 1)]⟩ 2 (fun _ => none)
        = .ok ((0 : WithTop ℚ), find_leaves ⟨[0, 1], [(0, 1)]⟩) ∧
    ExpDist.optimal_placement ⟨[0, 1], [(0, 1)]⟩ 2 (fun _ => none)
        = .ok ((0 : WithTop ℚ), find_leaves ⟨[0, 1], [(0, 1)]⟩) :=
  claim4_saturation ⟨[0, 1], [(0, 1)]⟩ 2 (by decide) (by decide) (by decide)
    (fun _ => none)

/-! ## Claim C6: non-tree inputs -/

/-- C6 counterexample: on the 4-cycle (not a tree) with budget 2,
`exp_dist.optimal_placement` does not reject: since the cycle has no
degree-one node, `find_leaves` is empty, the saturation shortcut fires
before the tree assert (which only lives in `preprocess`) and the call
returns `(0, ())`. -/
theorem claim6_counterexample :
    is_tree cycle4 = false ∧ 2 ≤ 2 ∧
    ExpDist.optimal_placement cycle4 2 List.head?
      = .ok ((0 : WithTop ℚ), []) :=
  ⟨by decide, by decide, rfl⟩

/-- C6 amended: `prob_err.optimal_placement` rejects every non-tree with
`NotATree`; `exp_dist.optimal_placement` does so only when
`b < |find_leaves(G)|` forces it past the saturation shortcut (and
`random.choice` found a root candidate — with no candidate it raises
`IndexError`); when `b ≥ |find_leaves(G)|` it instead returns
`(0, find_leaves(G))` without any error. -/
theorem claim6_non_tree (G : Graph) (b : ℕ) (hb : 2 ≤ b)
    (ht : is_tree G = false) (pick : List ℕ → Option ℕ)
    (hpick : ∀ l x, pick l = some x → x ∈ l) :
    ProbErr.optimal_placement G b pick = .error .NotATree ∧
    (if (find_leaves G).length ≤ b then
        ExpDist.optimal_placement G b pick = .ok ((0 : WithTop ℚ), find_leaves G)
      else
        ExpDist.optimal_placement G b pick = .error .NotATree ∨
          ExpDist.optimal_placement G b pick = .error .IndexError) := by
  have h2 : ¬ b < 2 := by omega
  constructor
  · simp [ProbErr.optimal_placement, h2, ht]
  · by_cases hsat : (find_leaves G).length ≤ b
    · simp [ExpDist.optimal_placement, h2, hsat]
    · simp only [if_neg hsat]
      rcases hp : pick (nonLeaves G) with _ | root
      · right
        simp [ExpDist.optimal_placement, h2, hsat, hp]
      · left
        have hmem : root ∈ G.nodes := by
          have h3 := hpick _ _ hp
          simp only [nonLeaves, List.mem_filter] at h3
          exact h3.1
        simp [ExpDist.optimal_placement, h2, hsat, hp, hmem, ht]

/-- Witness for C6 amended: the 4-cycle at saturated budget, where
`exp_dist.optimal_placement` succeeds. -/
theorem claim6_non_tree_witness :
    ProbErr.optimal_placement cycle4 2 List.head? = .error .NotATree ∧
    (if (find_leaves cycle4).length ≤ 2 then
        ExpDist.optimal_placement cycle4 2 List.head?
          = .ok ((0 : WithTop ℚ), find_leaves cycle4)
      else
        ExpDist.optimal_placement cycle4 2 List.head? = .error .NotATree ∨
          ExpDist.optimal_placement cycle4 2 List.head? = .error .IndexError) :=
  claim6_non_tree cycle4 2 (by decide) (by decide) List.head?
    (by
      intro l x h
      cases l with
      | nil => simp at h
      | cons a as => simp_all)

/-! ## Claim C7: leaf cases of the P_err dynamic program -/

/-- C7 counterexample: for a leaf node `x` the P_err DP `_opt(tree, x, 0)`
returns `(size(x), ()) = (1, ())`, not error `0` as the claim states:
the `k == 0` branch of `_opt` precedes the leaf branch. -/
theorem claim7_counterexample :
    opt_perr 0 2 (.node 3 []) 0 = (((1 : ℕ) : WithTop ℕ), ([] : List ℕ)) ∧
    ((1 : ℕ) : WithTop ℕ) ≠ ((0 : ℕ) : WithTop ℕ) := by decide

/-- C7 amended: in the P_err DP, for every leaf node `x` (`size(x) = 1`):
`_opt(tree, x, 0)` returns its subtree size `1` (the `k = 0` rule wins),
`_opt(tree, x, 1)` returns error `0` with witness `(x,)`, and
`_opt(tree, x, k)` returns the infeasible sentinel `+∞` for every
`k ≥ 2`. -/
theorem claim7_leaf_cases (root b : ℕ) (t : RTree)
    (h : size_subtree t = 1) (k : ℕ) (hk : 2 ≤ k) :
    opt_perr root b t 0 = (((1 : ℕ) : WithTop ℕ), []) ∧
    opt_perr root b t 1 = ((0 : WithTop ℕ), [t.lab]) ∧
    opt_perr root b t k = ((⊤ : WithTop ℕ), []) := by
  obtain ⟨x, cs⟩ := t
  have hk0 : k ≠ 0 := by omega
  have hk1 : 1 < k := by omega
  refine ⟨?_, ?_, ?_⟩ <;> simp [opt_perr, RTree.lab, h, hk0, hk1]

/-- Witness for C7 amended: a concrete leaf with `k = 2`. -/
theorem claim7_leaf_cases_witness :
    opt_perr 0 2 (.node 3 []) 0 = (((1 : ℕ) : WithTop ℕ), []) ∧
    opt_perr 0 2 (.node 3 []) 1 = ((0 : WithTop ℕ), [(RTree.node 3 []).lab]) ∧
    opt_perr 0 2 (.node 3 []) 2 = ((⊤ : WithTop ℕ), []) :=
  claim7_leaf_cases 0 2 (.node 3 []) (by decide) 2 (by decide)



theorem costOfList_cons_split (b : ℕ) {c : RTree} {rest : List RTree}
    {S1 S2 : List ℕ}
    (h1 : ∀ y ∈ S1, y ∈ leavesOf c)
    (h2 : ∀ y ∈ S2, y ∈ leavesList rest)
    (hdisj : ∀ y, y ∈ nodesOf c → y ∉ nodesList rest) :
    costOfList b (c :: rest) (S1 ++ S2)
      = costOf b c S1 + costOfList b rest S2 := by
  have hf1 : (S1 ++ S2).filter (fun y => decide (y ∈ leavesOf c)) = S1 := by
    rw [List.filter_append]
    have hl : S1.filter (fun y => decide (y ∈ leavesOf c)) = S1 :=
      List.filter_eq_self.mpr (fun y hy => by simpa using h1 y hy)
    have hr : S2.filter (fun y => decide (y ∈ leavesOf c)) = [] := by
      apply List.filter_eq_nil.mpr
      intro y hy
      simp only [decide_eq_true_eq]
      intro hyc
      exact hdisj y (leaves_sub_nodes hyc) (leavesList_sub_nodes (h2 y hy))
    rw [hl, hr, List.append_nil]
  have hdrop : costOfList b rest (S1 ++ S2) = costOfList b rest S2 := by
    apply costOfList_drop_left
    intro y hy hmem
    exact hdisj y (leaves_sub_nodes (h1 y hy)) (leavesList_sub_nodes hmem)
  simp only [costOfList, hf1, hdrop]

theorem optc_perr_cons_fst (root b x k : ℕ) (c : RTree) (rest : List RTree)
    (hk : k ≠ 0) :
    (optc_perr root b x k (c :: rest)).1
      = minCosts ((List.range (k + 1)).map (fun l =>
          (opt_perr root b c l).1 + (optc_perr root b x (k - l) rest).1)) := by
  rcases hmap : (List.range (k + 1)).map (fun l =>
      let r1 := opt_perr root b c l
      let r2 := optc_perr root b x (k - l) rest
      (r1.1 + r2.1, r1.2 ++ r2.2)) with _ | ⟨o, os⟩
  · exfalso
    have := congrArg List.length hmap
    simp at this
  · have hres : optc_perr root b x k (c :: rest) = pyMin o os := by
      simp only [optc_perr, hk, if_false, hmap]
    rw [hres, pyMin_fst, ← hmap, List.map_map]
    congr 1


theorem perr_minCost_aux :
    (∀ s : RTree, (nodesOf s).Nodup → ∀ root b k, root ∉ nodesOf s →
      (opt_perr root b s k).1 =
        minCosts ((combinations (leavesOf s) k).map
          (fun S => ((costOf b s S : ℕ) : WithTop ℕ)))) ∧
    (∀ cs : List RTree, (nodesList cs).Nodup → ∀ root b x k,
      root ∉ nodesList cs →
      (optc_perr root b x k cs).1 =
        minCosts ((combinations (leavesList cs) k).map
          (fun S => ((costOfList b cs S : ℕ) : WithTop ℕ)))) := by
  refine ⟨rtree_ind ?hn ?h0 ?hc, rtree_ind_list ?hn ?h0 ?hc⟩
  case hn =>
    intro x cs ihQ hwf root b k hroot
    have hrx : root ≠ x := by
      intro h
      exact hroot (by simp [nodesOf, h])
    have hwf2 : (nodesList cs).Nodup := by
      simp only [nodesOf, List.nodup_cons] at hwf
      exact hwf.2
    have hroot2 : root ∉ nodesList cs := by
      intro h
      exact hroot (by simp [nodesOf, h])
    by_cases hk : k = 0
    · subst hk
      simp [opt_perr, combinations, costOf, minCosts_singleton]
    · rcases cs with _ | ⟨c0, rest0⟩
      · rcases k with _ | k1
        · exact absurd rfl hk
        · rcases k1 with _ | k2
          · simp [opt_perr, combinations, costOf, minCosts_singleton,
              size_subtree, sizeSubtrees, leavesOf]
          · have h1 : (1 : ℕ) < k2 + 1 + 1 := by omega
            simp [opt_perr, hk, h1, combinations, leavesOf, size_subtree,
              sizeSubtrees, minCosts]
      · have hsz : size_subtree (.node x (c0 :: rest0)) ≠ 1 := by
          have h1 := size_subtree_pos c0
          simp only [size_subtree, sizeSubtrees]
          omega
        have hLHS : (opt_perr root b (.node x (c0 :: rest0)) k).1
            = (optc_perr root b x k (c0 :: rest0)).1
              + (((if k = b then 1 else 0 : ℕ) : ℕ) : WithTop ℕ) := by
          rw [opt_perr, if_neg hk, if_neg hsz]
          by_cases hbk : b = k
          · rw [if_pos ⟨hrx, hbk⟩]
            simp [hbk]
          · rw [if_neg (fun hc => hbk hc.2)]
            have hkb : ¬ k = b := fun h => hbk h.symm
            simp [hkb]
        have hmapS : (combinations (leavesOf (.node x (c0 :: rest0))) k).map
              (fun S => ((costOf b (.node x (c0 :: rest0)) S : ℕ) : WithTop ℕ))
            = (combinations (leavesList (c0 :: rest0)) k).map
              (fun S => ((costOfList b (c0 :: rest0) S
                + (if k = b then 1 else 0) : ℕ) : WithTop ℕ)) := by
          apply List.map_congr_left
          intro S hS
          have hlen := combinations_length _ _ _ hS
          have hSne : S ≠ [] := by
            intro h
            rw [h] at hlen
            simp at hlen
            exact hk hlen.symm
          rw [costOf, if_neg hSne]
          simp only [List.isEmpty_cons, Bool.false_eq_true, if_false, hlen]
        rw [hLHS, hmapS, minCosts_map_add_const,
          ihQ hwf2 root b x k hroot2]
  case h0 =>
    intro _ root b x k hroot
    rcases k with _ | k1
    · simp [optc_perr, combinations, costOfList, minCosts_singleton]
    · simp [optc_perr, combinations, minCosts]
  case hc =>
    intro c rest ihc ihrest hwf root b x k hroot
    rcases nodesList_nodup_parts hwf with ⟨hwc, hwr, hdisj⟩
    have hrc : root ∉ nodesOf c := by
      intro h
      exact hroot (by simp only [nodesList]; exact List.mem_append.mpr (Or.inl h))
    have hrr : root ∉ nodesList rest := by
      intro h
      exact hroot (by simp only [nodesList]; exact List.mem_append.mpr (Or.inr h))
    by_cases hk : k = 0
    · subst hk
      simp [optc_perr, combinations, costOfList_nil_sensors, minCosts_singleton]
    · rw [optc_perr_cons_fst root b x k c rest hk]
      have hmapG : (List.range (k + 1)).map (fun l =>
            (opt_perr root b c l).1 + (optc_perr root b x (k - l) rest).1)
          = (List.range (k + 1)).map (fun l =>
              minCosts ((combinations (leavesOf c) l).map
                (fun S => ((costOf b c S : ℕ) : WithTop ℕ)))
              + minCosts ((combinations (leavesList rest) (k - l)).map
                (fun S => ((costOfList b rest S : ℕ) : WithTop ℕ)))) := by
        apply List.map_congr_left
        intro l _
        rw [ihc hwc root b l hrc, ihrest hwr root b x (k - l) hrr]
      rw [hmapG]
      have hleq : leavesList (c :: rest) = leavesOf c ++ leavesList rest := rfl
      apply le_antisymm
      · apply le_minCosts
        intro v hv
        rcases List.mem_map.mp hv with ⟨S, hS, rfl⟩
        rw [hleq] at hS
        rcases combinations_append_split _ _ _ _ hS
          with ⟨i, S1, S2, hik, h1, h2, rfl⟩
        have hsplit : costOfList b (c :: rest) (S1 ++ S2)
            = costOf b c S1 + costOfList b rest S2 :=
          costOfList_cons_split b (combinations_mem_sub _ _ _ h1)
            (combinations_mem_sub _ _ _ h2) hdisj
        rw [hsplit, Nat.cast_add]
        refine le_trans (minCosts_le_of_mem (List.mem_map.mpr
          ⟨i, List.mem_range.mpr (by omega), rfl⟩)) ?_
        exact add_le_add
          (minCosts_le_of_mem (List.mem_map.mpr ⟨S1, h1, rfl⟩))
          (minCosts_le_of_mem (List.mem_map.mpr ⟨S2, h2, rfl⟩))
      · apply le_minCosts
        intro v hv
        rcases List.mem_map.mp hv with ⟨l, hl, rfl⟩
        have hlk : l ≤ k := by
          simp only [List.mem_range] at hl
          omega
        rcases minCosts_cases ((combinations (leavesOf c) l).map
            (fun S => ((costOf b c S : ℕ) : WithTop ℕ))) with htop | ⟨a, ha, hAa⟩
        · rw [htop, top_add]
          exact le_top
        · rcases minCosts_cases ((combinations (leavesList rest) (k - l)).map
              (fun S => ((costOfList b rest S : ℕ) : WithTop ℕ)))
            with htop2 | ⟨a2, ha2, hBa2⟩
          · rw [htop2, add_top]
            exact le_top
          · rcases List.mem_map.mp ha with ⟨S1, hS1, rfl⟩
            rcases List.mem_map.mp ha2 with ⟨S2, hS2, rfl⟩
            rw [hAa, hBa2, ← Nat.cast_add]
            have hcomb : S1 ++ S2 ∈ combinations (leavesList (c :: rest)) k := by
              rw [hleq]
              have := combinations_append_mk _ _ _ hS1 _ _ _ hS2
              rwa [Nat.add_sub_cancel' hlk] at this
            have hsplit : costOfList b (c :: rest) (S1 ++ S2)
                = costOf b c S1 + costOfList b rest S2 :=
              costOfList_cons_split b (combinations_mem_sub _ _ _ hS1)
                (combinations_mem_sub _ _ _ hS2) hdisj
            apply minCosts_le_of_mem
            exact List.mem_map.mpr ⟨S1 ++ S2, hcomb, by rw [hsplit]⟩


theorem optc_perr_eq_minCost (cs : List RTree)
    (hnd : (nodesList cs).Nodup) (root b x k : ℕ)
    (hroot : root ∉ nodesList cs) :
    (optc_perr root b x k cs).1 =
      minCosts ((combinations (leavesList cs) k).map
        (fun S => ((costOfList b cs S : ℕ) : WithTop ℕ))) :=
  perr_minCost_aux.2 cs hnd root b x k hroot

theorem opt_perr_root_eq (t : RTree) (hwf : t.wf) (b : ℕ) (hb : b ≠ 0)
    (hkids : t.kids ≠ []) :
    (opt_perr t.lab b t b).1 =
      minCosts ((combinations (leavesOf t) b).map
        (fun S => ((costRoot b t S : ℕ) : WithTop ℕ))) := by
  rcases t with ⟨x, cs⟩
  rcases cs with _ | ⟨c0, rest0⟩
  · simp [RTree.kids] at hkids
  · have hsz : size_subtree (.node x (c0 :: rest0)) ≠ 1 := by
      have h1 := size_subtree_pos c0
      simp only [size_subtree, sizeSubtrees]
      omega
    have hwf2 : (nodesList (c0 :: rest0)).Nodup := (wf_kids hwf).1
    have hx : x ∉ nodesList (c0 :: rest0) := (wf_kids hwf).2
    show (opt_perr x b (.node x (c0 :: rest0)) b).1 = _
    rw [opt_perr, if_neg hb, if_neg hsz, if_neg (fun h => h.1 rfl)]
    rw [optc_perr_eq_minCost (c0 :: rest0) hwf2 x b x b hx]
    rfl


theorem subAt_leaves_subset_aux :
    (∀ t : RTree, ∀ a s, subAt t a = some s →
      ∀ y ∈ leavesOf s, y ∈ leavesOf t) ∧
    (∀ cs : List RTree, ∀ a s, subAtList cs a = some s →
      ∀ y ∈ leavesOf s, y ∈ leavesList cs) := by
  refine ⟨rtree_ind ?hn ?h0 ?hc, rtree_ind_list ?hn ?h0 ?hc⟩
  case hn =>
    intro x cs ih a s hs y hy
    by_cases hax : a = x
    · subst hax
      simp only [subAt, if_pos rfl] at hs
      rw [← Option.some.inj hs] at hy
      exact hy
    · simp only [subAt, hax, if_false] at hs
      have hmem := ih a s hs y hy
      rcases cs with _ | ⟨c0, rest0⟩
      · simp [subAtList] at hs
      · simpa [leavesOf] using hmem
  case h0 =>
    intro a s hs
    simp [subAtList] at hs
  case hc =>
    intro c cs ihc ihcs a s hs y hy
    rcases h0 : subAt c a with _ | s0
    · simp only [subAtList, h0] at hs
      simp only [leavesList]
      exact List.mem_append.mpr (Or.inr (ihcs a s hs y hy))
    · simp only [subAtList, h0] at hs
      rw [Option.some.inj hs] at h0
      simp only [leavesList]
      exact List.mem_append.mpr (Or.inl (ihc a s h0 y hy))

theorem subAt_leaves_subset {t : RTree} {a : ℕ} {s : RTree}
    (h : subAt t a = some s) {y : ℕ} (hy : y ∈ leavesOf s) :
    y ∈ leavesOf t := subAt_leaves_subset_aux.1 t a s h y hy

theorem sBelow_lab (t : RTree) (S : List ℕ) :
    sBelow t S t.lab = S.filter (fun y => decide (y ∈ leavesOf t)) := by
  simp only [sBelow, leavesAt, subAt_self]

theorem sBelow_node_ne {x : ℕ} {cs : List RTree} {u : ℕ} (hux : u ≠ x)
    (S : List ℕ) :
    sBelow (.node x cs) S u = sBelowF cs S u := by
  simp only [sBelow, sBelowF, leavesAt, leavesAtF, subAt, hux, if_false]

theorem sBelowF_of_mem_kid {cs : List RTree}
    (hnd : (nodesList cs).Nodup) {c : RTree} (hc : c ∈ cs) {u : ℕ}
    (hu : u ∈ nodesOf c) (S : List ℕ) :
    sBelowF cs S u
      = sBelow c (S.filter (fun y => decide (y ∈ leavesOf c))) u := by
  rcases subAt_of_mem hu with ⟨su, hsu⟩
  have h1 : subAtList cs u = some su := subAtList_eq_of_mem hnd hc hsu
  simp only [sBelowF, leavesAtF, h1, sBelow, leavesAt, hsu]
  rw [List.filter_filter]
  apply List.filter_congr
  intro y _
  by_cases hy2 : y ∈ leavesOf su
  · simp [hy2, subAt_leaves_subset hsu hy2]
  · simp [hy2]

theorem sBelowF_cons_right {c : RTree} {cs : List RTree} {u : ℕ}
    (h0 : subAt c u = none) (S : List ℕ) :
    sBelowF (c :: cs) S u = sBelowF cs S u := by
  simp only [sBelowF, leavesAtF, subAtList, h0]

theorem subAt_none_of_not_mem {c : RTree} {u : ℕ} (h : u ∉ nodesOf c) :
    subAt c u = none := by
  rcases hs : subAt c u with _ | s0
  · rfl
  · exact absurd (mem_of_subAt hs) h

theorem eq_singleton_of_sub {S : List ℕ} {x : ℕ} (hne : S ≠ [])
    (hnd : S.Nodup) (hsub : ∀ y ∈ S, y = x) : S = [x] := by
  rcases S with _ | ⟨a, S2⟩
  · exact absurd rfl hne
  · have ha : a = x := hsub a (by simp)
    subst ha
    rcases S2 with _ | ⟨c, S3⟩
    · rfl
    · have hb : c = a := hsub c (by simp)
      simp [hb] at hnd


theorem costOf_partition_aux :
    (∀ s : RTree, s.wf → ∀ b S, 2 ≤ b → S.Nodup →
      (∀ y ∈ S, y ∈ leavesOf s) →
      costOf b s S
        + ((nodesOf s).filter (fun u => decide (sBelow s S u ≠ []))).length
      = size_subtree s
        + ((nodesOf s).filter
            (fun u => decide ((sBelow s S u).length = b))).length) ∧
    (∀ cs : List RTree, (nodesList cs).Nodup → ∀ b S, 2 ≤ b → S.Nodup →
      costOfList b cs S
        + ((nodesList cs).filter
            (fun u => decide (sBelowF cs S u ≠ []))).length
      = sizeSubtrees cs
        + ((nodesList cs).filter
            (fun u => decide ((sBelowF cs S u).length = b))).length) := by
  refine ⟨rtree_ind ?hn ?h0 ?hc, rtree_ind_list ?hn ?h0 ?hc⟩
  case hn =>
    intro x cs ihQ hwf b S hb hnd hsub
    by_cases hS : S = []
    · subst hS
      have h1 : (nodesOf (RTree.node x cs)).filter
          (fun u => decide (sBelow (.node x cs) [] u ≠ [])) = [] := by
        apply List.filter_eq_nil_iff.mpr
        intro u _
        simp [sBelow]
      have h2 : (nodesOf (RTree.node x cs)).filter
          (fun u => decide ((sBelow (.node x cs) [] u).length = b)) = [] := by
        apply List.filter_eq_nil_iff.mpr
        intro u _
        simp only [sBelow, List.filter_nil, List.length_nil,
          decide_eq_true_eq]
        omega
      rw [h1, h2]
      simp [costOf]
    · have hself : sBelow (.node x cs) S x = S := by
        have := sBelow_lab (.node x cs) S
        simp only [RTree.lab] at this
        rw [this]
        exact List.filter_eq_self.mpr (fun y hy => by
          simpa using hsub y hy)
      rcases cs with _ | ⟨c0, rest0⟩
      · have hSx : S = [x] :=
          eq_singleton_of_sub hS hnd (fun y hy => by
            simpa [leavesOf] using hsub y hy)
        subst hSx
        have hb1 : ¬ (1 = b) := by omega
        simp [costOf, nodesOf, nodesList, size_subtree, sizeSubtrees,
          List.filter_cons, hself, hb1]
      · have hcost : costOf b (.node x (c0 :: rest0)) S
            = costOfList b (c0 :: rest0) S
              + (if S.length = b then 1 else 0) := by
          rw [costOf, if_neg hS]
          simp
        have htail1 : (nodesList (c0 :: rest0)).filter
              (fun u => decide (sBelow (.node x (c0 :: rest0)) S u ≠ []))
            = (nodesList (c0 :: rest0)).filter
              (fun u => decide (sBelowF (c0 :: rest0) S u ≠ [])) := by
          apply List.filter_congr
          intro u hu
          have hux : u ≠ x := fun he => (wf_kids hwf).2 (he ▸ hu)
          rw [sBelow_node_ne hux]
        have htail2 : (nodesList (c0 :: rest0)).filter
              (fun u =>
                decide ((sBelow (.node x (c0 :: rest0)) S u).length = b))
            = (nodesList (c0 :: rest0)).filter
              (fun u => decide ((sBelowF (c0 :: rest0) S u).length = b)) := by
          apply List.filter_congr
          intro u hu
          have hux : u ≠ x := fun he => (wf_kids hwf).2 (he ▸ hu)
          rw [sBelow_node_ne hux]
        have hQ := ihQ (wf_kids hwf).1 b S hb hnd
        have hsz : size_subtree (RTree.node x (c0 :: rest0))
            = 1 + sizeSubtrees (c0 :: rest0) := rfl
        have hpos : ((nodesOf (RTree.node x (c0 :: rest0))).filter
              (fun u =>
                decide (sBelow (.node x (c0 :: rest0)) S u ≠ []))).length
            = 1 + ((nodesList (c0 :: rest0)).filter
              (fun u => decide (sBelowF (c0 :: rest0) S u ≠ []))).length := by
          show ((x :: nodesList (c0 :: rest0)).filter _).length = _
          rw [List.filter_cons, if_pos (by simp [hself, hS]), htail1]
          simp [Nat.add_comm]
        rw [hcost, hpos, hsz]
        by_cases hlen : S.length = b
        · have hfull : ((nodesOf (RTree.node x (c0 :: rest0))).filter
                (fun u =>
                  decide ((sBelow (.node x (c0 :: rest0)) S u).length
                    = b))).length
              = 1 + ((nodesList (c0 :: rest0)).filter
                (fun u =>
                  decide ((sBelowF (c0 :: rest0) S u).length = b))).length := by
            show ((x :: nodesList (c0 :: rest0)).filter _).length = _
            rw [List.filter_cons, if_pos (by simp [hself, hlen]), htail2]
            simp [Nat.add_comm]
          rw [hfull, if_pos hlen]
          omega
        · have hfull : ((nodesOf (RTree.node x (c0 :: rest0))).filter
                (fun u =>
                  decide ((sBelow (.node x (c0 :: rest0)) S u).length
                    = b))).length
              = ((nodesList (c0 :: rest0)).filter
                (fun u =>
                  decide ((sBelowF (c0 :: rest0) S u).length = b))).length := by
            show ((x :: nodesList (c0 :: rest0)).filter _).length = _
            rw [List.filter_cons, if_neg (by simp [hself, hlen]), htail2]
          rw [hfull, if_neg hlen]
          omega
  case h0 =>
    intro _ b S _ _
    simp [costOfList, nodesList, sizeSubtrees]
  case hc =>
    intro c rest ihc ihrest hnd b S hb hndS
    rcases nodesList_nodup_parts hnd with ⟨hndc, hndrest, hdisj⟩
    have hpart1 : ∀ u ∈ nodesOf c, sBelowF (c :: rest) S u
        = sBelow c (S.filter (fun y => decide (y ∈ leavesOf c))) u := by
      intro u hu
      exact sBelowF_of_mem_kid hnd (by simp) hu S
    have hpart2 : ∀ u ∈ nodesList rest,
        sBelowF (c :: rest) S u = sBelowF rest S u := by
      intro u hu
      have hnc : u ∉ nodesOf c := fun h => hdisj u h hu
      exact sBelowF_cons_right (subAt_none_of_not_mem hnc) S
    have hP := ihc hndc b (S.filter (fun y => decide (y ∈ leavesOf c))) hb
      (hndS.filter _) (fun y hy => by
        simp only [List.mem_filter, decide_eq_true_eq] at hy
        exact hy.2)
    have hQ := ihrest hndrest b S hb hndS
    have hf1 : (nodesOf c).filter
          (fun u => decide (sBelowF (c :: rest) S u ≠ []))
        = (nodesOf c).filter (fun u =>
            decide ((sBelow c
              (S.filter (fun y => decide (y ∈ leavesOf c))) u) ≠ [])) :=
      List.filter_congr (fun u hu => by rw [hpart1 u hu])
    have hf2 : (nodesOf c).filter
          (fun u => decide ((sBelowF (c :: rest) S u).length = b))
        = (nodesOf c).filter (fun u =>
            decide ((sBelow c
              (S.filter (fun y => decide (y ∈ leavesOf c))) u).length = b)) :=
      List.filter_congr (fun u hu => by rw [hpart1 u hu])
    have hf3 : (nodesList rest).filter
          (fun u => decide (sBelowF (c :: rest) S u ≠ []))
        = (nodesList rest).filter
          (fun u => decide (sBelowF rest S u ≠ [])) :=
      List.filter_congr (fun u hu => by rw [hpart2 u hu])
    have hf4 : (nodesList rest).filter
          (fun u => decide ((sBelowF (c :: rest) S u).length = b))
        = (nodesList rest).filter
          (fun u => decide ((sBelowF rest S u).length = b)) :=
      List.filter_congr (fun u hu => by rw [hpart2 u hu])
    have hrec : nodesList (c :: rest) = nodesOf c ++ nodesList rest := rfl
    have hszc : sizeSubtrees (c :: rest)
        = size_subtree c + sizeSubtrees rest := rfl
    have hcoc : costOfList b (c :: rest) S
        = costOf b c (S.filter (fun y => decide (y ∈ leavesOf c)))
          + costOfList b rest S := rfl
    rw [hrec, hcoc, hszc]
    rw [List.filter_append, List.filter_append, List.length_append,
      List.length_append, hf1, hf2, hf3, hf4]
    omega


theorem costOf_partition (t : RTree) (hwf : t.wf) {b : ℕ} (S : List ℕ)
    (hb : 2 ≤ b) (hnd : S.Nodup) (hsub : ∀ y ∈ S, y ∈ leavesOf t) :
    costOf b t S + (posNodes t S).length
      = size_subtree t + (fullNodes b t S).length :=
  costOf_partition_aux.1 t hwf b S hb hnd hsub

theorem comLen_append_of_not_pre {p q : List ℕ} (h : ¬ isPre p q)
    (l : List ℕ) : comLen (p ++ l) q = comLen p q := by
  rw [comLen_append, if_neg (fun hc => h (isPre_of_comLen hc))]
  omega

theorem path_elem_mem {t : RTree} (hwf : t.wf) {u : ℕ} {p : List ℕ}
    (hp : pathTo t u = some p) {a : ℕ} (ha : a ∈ p) : a ∈ nodesOf t := by
  rcases List.append_of_mem ha with ⟨q, r, rfl⟩
  exact mem_of_pathTo (pathTo_take t hwf u _ q a r hp rfl)

theorem path_elem_path {t : RTree} (hwf : t.wf) {u : ℕ} {p : List ℕ}
    (hp : pathTo t u = some p) {q r : List ℕ} {a : ℕ}
    (hsplit : p = q ++ a :: r) : pathTo t a = some (q ++ [a]) :=
  pathTo_take t hwf u p q a r hp hsplit

theorem path_nodup :
    ∀ t : RTree, t.wf → ∀ u p, pathTo t u = some p → p.Nodup := by
  refine rtree_ind
    (Q := fun cs => (nodesList cs).Nodup → ∀ u p,
      pathToList cs u = some p → p.Nodup) ?_ ?_ ?_
  · intro x cs ih hwf u p hp
    by_cases hux : u = x
    · subst hux
      simp only [pathTo, if_pos rfl] at hp
      rw [← Option.some.inj hp]
      simp
    · simp only [pathTo, hux, if_false, Option.map_eq_some'] at hp
      rcases hp with ⟨q, hq, rfl⟩
      have hqnd : q.Nodup := ih (wf_kids hwf).1 u q hq
      rcases pathToList_mem hq with ⟨c, hc, hcq⟩
      have hqsub : ∀ a ∈ q, a ∈ nodesList cs := fun a ha =>
        mem_nodesList_of_mem hc
          (path_elem_mem (wf_of_mem_forest (wf_kids hwf).1 hc) hcq ha)
      refine List.nodup_cons.mpr ⟨fun hx => ?_, hqnd⟩
      exact (wf_kids hwf).2 (hqsub x hx)
  · intro _ u p hp
    simp [pathToList] at hp
  · intro c cs ihc ihcs hnd u p hp
    rcases nodesList_nodup_parts hnd with ⟨hndc, hndcs, _⟩
    rcases hc : pathTo c u with _ | q
    · simp only [pathToList, hc] at hp
      exact ihcs hndcs u p hp
    · simp only [pathToList, hc] at hp
      rw [← Option.some.inj hp]
      exact ihc hndc u q hc

theorem tdist_zero_eq {t : RTree} {u v : ℕ} {pu pv : List ℕ}
    (hu : pathTo t u = some pu) (hv : pathTo t v = some pv)
    (h : tdist t u v = 0) : u = v := by
  rw [tdist_eq_of_paths hu hv] at h
  have h1 := comLen_le_left pu pv
  have h2 := comLen_le_right pu pv
  have hc1 : comLen pu pv = pu.length := by omega
  rcases isPre_of_comLen hc1 with ⟨r1, hr1⟩
  have hlen : pu.length = pv.length := by omega
  have hr10 : r1 = [] := by
    have := congrArg List.length hr1
    simp only [List.length_append] at this
    exact List.eq_nil_of_length_eq_zero (by omega)
  subst hr10
  rw [List.append_nil] at hr1
  have hgu := pathTo_getLast t u pu hu
  have hgv := pathTo_getLast t v pv hv
  rw [hr1, hgu] at hgv
  exact Option.some.inj hgv

theorem tdist_sep_down {t : RTree} (hwf : t.wf) {z : ℕ} {sz : RTree}
    (hsz : subAt t z = some sz) {pz : List ℕ} (hpz : pathTo t z = some pz)
    {v : ℕ} (hv : v ∈ nodesOf sz) {w : ℕ} (hw : w ∈ nodesOf t)
    (hwout : w ∉ nodesOf sz) :
    tdist t w v = tdist t w z + tdist t z v := by
  rcases sub_mem_paths t hwf z sz pz hsz hpz v hv with ⟨q, _, hpv⟩
  rcases pathTo_of_mem hw with ⟨pw, hpw⟩
  have hnp : ¬ isPre pz pw := by
    rintro ⟨r, hr⟩
    exact hwout (mem_sub_of_path t hwf z sz pz hsz hpz w r (by rw [hpw, hr]))
  have hcl : comLen pw (pz ++ q) = comLen pw pz := by
    rw [comLen_comm, comLen_append_of_not_pre hnp q, comLen_comm]
  have hdv : tdist t z v = q.length := by
    rw [tdist_pre hpz hpv ⟨q, rfl⟩]
    simp
  rw [tdist_eq_of_paths hpw hpv, tdist_eq_of_paths hpw hpz, hdv, hcl]
  have h1 := comLen_le_left pw pz
  have h2 := comLen_le_right pw pz
  simp only [List.length_append]
  omega

theorem tdist_sep_child {t : RTree} {w a v cl : ℕ}
    {pa r pv : List ℕ}
    (hpa : pathTo t a = some pa)
    (hpw : pathTo t w = some (pa ++ cl :: r))
    (hpv : pathTo t v = some pv)
    (hnp : ¬ isPre (pa ++ [cl]) pv) :
    tdist t w v = tdist t w a + tdist t a v := by
  have hcl2 : comLen (pa ++ cl :: r) pv = comLen pa pv := by
    have hw2 : pa ++ cl :: r = (pa ++ [cl]) ++ r := by simp
    rw [hw2, comLen_append_of_not_pre hnp r, comLen_snoc_of_not_pre hnp]
  have hdwa : tdist t w a = r.length + 1 := by
    rw [tdist_comm, tdist_pre hpa hpw ⟨cl :: r, rfl⟩]
    simp only [List.length_append, List.length_cons]
    omega
  rw [tdist_eq_of_paths hpw hpv, tdist_eq_of_paths hpa hpv, hdwa, hcl2]
  have h1 := comLen_le_left pa pv
  have h2 := comLen_le_right pa pv
  simp only [List.length_append, List.length_cons]
  omega

theorem tdist_nested {t : RTree} {g g2 w : ℕ} {pg pg2 pw : List ℕ}
    (hg : pathTo t g = some pg) (hg2 : pathTo t g2 = some pg2)
    (hw : pathTo t w = some pw)
    (h1 : isPre pg pg2) (h2 : isPre pg2 pw) :
    tdist t g w = tdist t g g2 + tdist t g2 w := by
  rcases h1 with ⟨r1, hr1⟩
  rcases h2 with ⟨r2, hr2⟩
  rw [tdist_pre hg hw ⟨r1 ++ r2, by rw [hr2, hr1, List.append_assoc]⟩,
    tdist_pre hg hg2 ⟨r1, hr1⟩, tdist_pre hg2 hw ⟨r2, hr2⟩]
  have l1 : pg2.length = pg.length + r1.length := by
    rw [hr1]; simp
  have l2 : pw.length = pg2.length + r2.length := by
    rw [hr2]; simp
  omega

theorem exists_last_filter : ∀ (l : List ℕ) (P : ℕ → Bool),
    (∃ a ∈ l, P a = true) →
    ∃ q a r, l = q ++ a :: r ∧ P a = true ∧ ∀ u ∈ r, P u = false := by
  intro l P
  induction l with
  | nil =>
    rintro ⟨a, ha, _⟩
    simp at ha
  | cons x l ih =>
    intro hsat
    by_cases hl : ∃ a ∈ l, P a = true
    · rcases ih hl with ⟨q, a, r, hql, hPa, hr⟩
      exact ⟨x :: q, a, r, by rw [hql]; rfl, hPa, hr⟩
    · rcases hsat with ⟨a, ha, hPa⟩
      rcases List.mem_cons.mp ha with rfl | hal
      · refine ⟨[], a, l, rfl, hPa, ?_⟩
        intro u hu
        by_cases hPu : P u = true
        · exact absurd ⟨u, hu, hPu⟩ hl
        · simpa using hPu
      · exact absurd ⟨a, hal, hPa⟩ hl

theorem dedup_map_length_eq {nodes SL : List ℕ} {f : ℕ → List ℤ}
    (hSLsub : ∀ g ∈ SL, g ∈ nodes)
    (hcover : ∀ w ∈ nodes, ∃ g ∈ SL, f w = f g)
    (hSLnd : SL.Nodup)
    (hinj : ∀ g ∈ SL, ∀ g2 ∈ SL, f g = f g2 → g = g2) :
    ((nodes.map f).dedup).length = SL.length := by
  have hmem : ∀ z, z ∈ (nodes.map f).dedup ↔ z ∈ SL.map f := by
    intro z
    rw [List.mem_dedup, List.mem_map, List.mem_map]
    constructor
    · rintro ⟨w, hw, rfl⟩
      rcases hcover w hw with ⟨g, hgSL, hfg⟩
      exact ⟨g, hgSL, hfg.symm⟩
    · rintro ⟨g, hgSL, rfl⟩
      exact ⟨g, hSLsub g hgSL, rfl⟩
  have hnd1 : ((nodes.map f).dedup).Nodup := List.nodup_dedup _
  have hnd2 : (SL.map f).Nodup := hSLnd.map_on hinj
  have hperm := (List.perm_ext_iff_of_nodup hnd1 hnd2).mpr hmem
  rw [hperm.length_eq, List.length_map]


theorem filter_split_imp {l : List ℕ} {P Q : ℕ → Bool}
    (himp : ∀ u ∈ l, Q u = true → P u = true) :
    (l.filter P).length
      = (l.filter Q).length
        + (l.filter (fun u => P u && !(Q u))).length := by
  induction l with
  | nil => simp
  | cons a as ih =>
    have ih2 := ih (fun u hu => himp u (by simp [hu]))
    rcases hQ : Q a with _ | _
    · rcases hP : P a with _ | _
      · simp only [List.filter_cons, hP, hQ, Bool.false_and]
        simp only [Bool.false_eq_true, if_false, ih2]
      · simp only [List.filter_cons, hP, hQ, Bool.not_false, Bool.and_true]
        simp only [Bool.false_eq_true, if_false, if_true, List.length_cons,
          ih2]
        omega
    · have hP : P a = true := himp a (by simp) hQ
      simp only [List.filter_cons, hP, hQ, Bool.not_true, Bool.and_false]
      simp only [Bool.false_eq_true, if_false, if_true, List.length_cons,
        ih2]
      omega

theorem path_concat {t : RTree} {u : ℕ} {p : List ℕ}
    (hp : pathTo t u = some p) : ∃ q, p = q ++ [u] := by
  have hlast := pathTo_getLast t u p hp
  rcases List.eq_nil_or_concat p with rfl | ⟨q, a, rfl⟩
  · simp at hlast
  · simp only [List.concat_eq_append] at hlast ⊢
    rw [List.getLast?_concat] at hlast
    exact ⟨q, by rw [Option.some.inj hlast]⟩

theorem leaves_iff_subAt :
    ∀ s : RTree, s.wf →
      ∀ y, y ∈ leavesOf s ↔ subAt s y = some (.node y []) := by
  refine rtree_ind
    (Q := fun cs => (nodesList cs).Nodup →
      ∀ y, y ∈ leavesList cs ↔ subAtList cs y = some (.node y [])) ?_ ?_ ?_
  · intro x cs ih hwf y
    rcases cs with _ | ⟨c0, rest0⟩
    · simp only [leavesOf]
      by_cases hyx : y = x
      · subst hyx
        simp [subAt]
      · simp only [List.mem_singleton, hyx, false_iff]
        simp [subAt, hyx, subAtList]
    · have hiff := ih (wf_kids hwf).1 y
      by_cases hyx : y = x
      · subst hyx
        simp only [leavesOf]
        constructor
        · intro hy
          exact absurd (leavesList_sub_nodes hy) (wf_kids hwf).2
        · intro hy
          simp only [subAt, if_pos rfl] at hy
          have h2 := Option.some.inj hy
          simp at h2
      · simp only [leavesOf, hiff]
        simp [subAt, hyx]
  · intro _ y
    simp [leavesList, subAtList]
  · intro c rest ihc ihrest hnd y
    rcases nodesList_nodup_parts hnd with ⟨hndc, hndrest, hdisj⟩
    by_cases hyc : y ∈ nodesOf c
    · rcases subAt_of_mem hyc with ⟨sy, hsy⟩
      have hiffc := ihc hndc y
      constructor
      · intro hy
        simp only [leavesList] at hy
        rcases List.mem_append.mp hy with h | h
        · exact subAtList_eq_of_mem hnd (by simp) (hiffc.mp h)
        · exact absurd (leavesList_sub_nodes h) (fun hc => hdisj y hyc hc)
      · intro hy
        simp only [subAtList, hsy] at hy
        rw [Option.some.inj hy] at hsy
        simp only [leavesList]
        exact List.mem_append.mpr (Or.inl (hiffc.mpr hsy))
    · have h0 : subAt c y = none := subAt_none_of_not_mem hyc
      have hiffr := ihrest hndrest y
      simp only [leavesList, subAtList, h0, List.mem_append]
      constructor
      · rintro (h | h)
        · exact absurd (leaves_sub_nodes h) hyc
        · exact hiffr.mp h
      · intro h
        exact Or.inr (hiffr.mpr h)

theorem leaf_mem_sub {t : RTree} (hwf : t.wf) {u : ℕ} {su : RTree}
    (hsu : subAt t u = some su) {y : ℕ} (hy : y ∈ leavesOf t)
    (hyn : y ∈ nodesOf su) : y ∈ leavesOf su := by
  have hy2 := (leaves_iff_subAt t hwf y).mp hy
  rcases subAt_of_mem hyn with ⟨sy, hsy⟩
  have htr := subAt_trans t hwf u su y sy hsu hsy
  rw [htr] at hy2
  rw [Option.some.inj hy2] at hsy
  exact (leaves_iff_subAt su (RTree.wf_sub hwf hsu) y).mpr hsy

theorem mem_sBelow_iff {t : RTree} (hwf : t.wf) {S : List ℕ}
    (hsub : ∀ y ∈ S, y ∈ leavesOf t) {u : ℕ} {su : RTree}
    (hsu : subAt t u = some su) {y : ℕ} (hy : y ∈ S) :
    y ∈ sBelow t S u ↔ y ∈ nodesOf su := by
  simp only [sBelow, List.mem_filter, decide_eq_true_eq, leavesAt, hsu]
  constructor
  · rintro ⟨_, h⟩
    exact leaves_sub_nodes h
  · intro h
    exact ⟨hy, leaf_mem_sub hwf hsu (hsub y hy) h⟩

theorem signature_shift {t : RTree} (S : List ℕ) {w z : ℕ}
    (h : ∀ v ∈ S, tdist t w v = tdist t w z + tdist t z v) :
    signature (fun u v => (tdist t u v : ℤ)) S w
      = signature (fun u v => (tdist t u v : ℤ)) S z := by
  rcases S with _ | ⟨s0, rest⟩
  · rfl
  · simp only [signature]
    apply List.map_congr_left
    intro v hv
    have h0 := h s0 (by simp)
    have hv2 := h v (by simp [hv])
    omega

theorem signature_const_diff {t : RTree} {s0 : ℕ} {rest : List ℕ} {g h : ℕ}
    (hsig : signature (fun u v => (tdist t u v : ℤ)) (s0 :: rest) g
      = signature (fun u v => (tdist t u v : ℤ)) (s0 :: rest) h) :
    ∀ v ∈ s0 :: rest,
      (tdist t g v : ℤ) - tdist t h v
        = (tdist t g s0 : ℤ) - tdist t h s0 := by
  intro v hv
  rcases List.mem_cons.mp hv with rfl | hvr
  · rfl
  · simp only [signature] at hsig
    have := List.map_eq_map_iff.mp hsig v hvr
    omega


theorem sBelow_root {t : RTree} {S : List ℕ}
    (hsub : ∀ y ∈ S, y ∈ leavesOf t) : sBelow t S t.lab = S := by
  rw [sBelow_lab]
  exact List.filter_eq_self.mpr (fun y hy => by simpa using hsub y hy)

theorem sBelow_full_eq {t : RTree} {S : List ℕ} {b : ℕ}
    (hlen : S.length = b) {u : ℕ}
    (hfull : (sBelow t S u).length = b) : sBelow t S u = S :=
  List.filter_eq_self.mpr
    (List.filter_length_eq_length.mp (by rw [← sBelow]; omega))

theorem sBelow_not_full_exists {t : RTree} {S : List ℕ} {b : ℕ}
    (hlen : S.length = b) {u : ℕ}
    (hnf : (sBelow t S u).length ≠ b) :
    ∃ v ∈ S, v ∉ sBelow t S u := by
  by_contra hall
  push_neg at hall
  have : sBelow t S u = S := List.filter_eq_self.mpr (fun y hy => by
    have := hall y hy
    simp only [sBelow, List.mem_filter] at this
    exact this.2)
  rw [this] at hnf
  exact hnf hlen

theorem sBelow_path_pre {t : RTree} (hwf : t.wf) {S : List ℕ} {u v : ℕ}
    {pu : List ℕ} (hpu : pathTo t u = some pu)
    (hv : v ∈ sBelow t S u) :
    ∃ q, pathTo t v = some (pu ++ q) := by
  simp only [sBelow, List.mem_filter, decide_eq_true_eq, leavesAt] at hv
  rcases hsu : subAt t u with _ | su
  · rw [hsu] at hv
    simp at hv
  · rw [hsu] at hv
    have hvn : v ∈ nodesOf su := leaves_sub_nodes hv.2
    rcases sub_mem_paths t hwf u su pu hsu hpu v hvn with ⟨q, _, hq⟩
    exact ⟨q, hq⟩

theorem sig_gate {t : RTree} (hwf : t.wf) {S : List ℕ} {b : ℕ}
    (hb : 2 ≤ b) (hlen : S.length = b) (hnd : S.Nodup)
    (hsub : ∀ y ∈ S, y ∈ leavesOf t)
    {m : ℕ} {pm : List ℕ} (hpm : pathTo t m = some pm)
    (hmfull : (sBelow t S m).length = b)
    (hmlast : ∀ u pu, pathTo t u = some pu →
      (sBelow t S u).length = b → isPre pu pm) :
    ∀ w ∈ nodesOf t,
      ∃ g, signature (fun u v => (tdist t u v : ℤ)) S w
          = signature (fun u v => (tdist t u v : ℤ)) S g ∧
        (g = m ∨ (g ∈ nodesOf t ∧ sBelow t S g ≠ []
          ∧ (sBelow t S g).length ≠ b)) := by
  have hSne : S ≠ [] := by
    intro h
    rw [h] at hlen
    simp at hlen
    omega
  intro w hw
  rcases pathTo_of_mem hw with ⟨pw, hpw⟩
  have hsat : ∃ u ∈ pw, decide (sBelow t S u ≠ []) = true := by
    rcases pathTo_shape hpw with ⟨q, hq⟩
    refine ⟨t.lab, by rw [hq]; simp, ?_⟩
    simp [sBelow_root hsub, hSne]
  rcases exists_last_filter pw _ hsat with ⟨qa, a, ra, hsplit, hPa, hra⟩
  have hpa : pathTo t a = some (qa ++ [a]) := path_elem_path hwf hpw hsplit
  have ha_mem : a ∈ nodesOf t := mem_of_pathTo hpa
  have hPa2 : sBelow t S a ≠ [] := by simpa using hPa
  have hstep1 : signature (fun u v => (tdist t u v : ℤ)) S w
      = signature (fun u v => (tdist t u v : ℤ)) S a := by
    rcases hra0 : ra with _ | ⟨cl, ra2⟩
    · rw [hra0] at hsplit
      have haw : a = w := by
        have hg := pathTo_getLast t w pw hpw
        rw [hsplit, List.getLast?_concat] at hg
        exact Option.some.inj hg
      rw [haw]
    · rw [hra0] at hsplit hra
      have hsplit2 : pw = (qa ++ [a]) ++ cl :: ra2 := by
        rw [hsplit]
        simp
      have hpc : pathTo t cl = some ((qa ++ [a]) ++ [cl]) :=
        path_elem_path hwf hpw hsplit2
      have hclmem : cl ∈ nodesOf t := mem_of_pathTo hpc
      have hPcl : sBelow t S cl = [] := by
        have := hra cl (by simp)
        simpa using this
      rcases subAt_of_mem hclmem with ⟨sc, hsc⟩
      apply signature_shift
      intro v hv
      rcases pathTo_of_mem (leaves_sub_nodes (hsub v hv)) with ⟨pv, hpv⟩
      have hnp : ¬ isPre ((qa ++ [a]) ++ [cl]) pv := by
        rintro ⟨r2, hr2⟩
        have hvin : v ∈ nodesOf sc :=
          mem_sub_of_path t hwf cl sc _ hsc hpc v r2 (by rw [hpv, hr2])
        have hvb : v ∈ sBelow t S cl :=
          (mem_sBelow_iff hwf hsub hsc hv).mpr hvin
        rw [hPcl] at hvb
        simp at hvb
      exact tdist_sep_child hpa
        (show pathTo t w = some ((qa ++ [a]) ++ cl :: ra2) by
          rw [hpw, hsplit2]) hpv hnp
  by_cases hPfa : (sBelow t S a).length = b
  · refine ⟨m, ?_, Or.inl rfl⟩
    rw [hstep1]
    by_cases ham : a = m
    · rw [ham]
    · have hpre : isPre (qa ++ [a]) pm := hmlast a _ hpa hPfa
      have hm_mem : m ∈ nodesOf t := mem_of_pathTo hpm
      rcases subAt_of_mem hm_mem with ⟨sm, hsm⟩
      have hSm : sBelow t S m = S := sBelow_full_eq hlen hmfull
      have hanot : a ∉ nodesOf sm := by
        intro hain
        rcases sub_mem_paths t hwf m sm pm hsm hpm a hain with ⟨q2, _, hq2⟩
        rw [hpa] at hq2
        have heq := Option.some.inj hq2
        rcases hpre with ⟨r3, hr3⟩
        rw [hr3] at heq
        have hlen2 := congrArg List.length heq
        simp only [List.length_append, List.length_cons,
          List.length_nil] at hlen2
        have hr30 : r3 = [] := List.eq_nil_of_length_eq_zero (by omega)
        subst hr30
        rw [List.append_nil] at hr3
        have hgm := pathTo_getLast t m pm hpm
        rw [hr3, List.getLast?_concat] at hgm
        exact ham (Option.some.inj hgm)
      apply signature_shift
      intro v hv
      have hvin : v ∈ nodesOf sm := by
        have hvb : v ∈ sBelow t S m := by
          rw [hSm]
          exact hv
        exact (mem_sBelow_iff hwf hsub hsm hv).mp hvb
      exact tdist_sep_down hwf hsm hpm hvin ha_mem hanot
  · exact ⟨a, hstep1, Or.inr ⟨ha_mem, hPa2, hPfa⟩⟩


theorem path_eq_lab {t : RTree} {u v : ℕ} {pu : List ℕ}
    (hu : pathTo t u = some pu) (hv : pathTo t v = some pu) : u = v := by
  have h1 := pathTo_getLast t u pu hu
  have h2 := pathTo_getLast t v pu hv
  rw [h1] at h2
  exact Option.some.inj h2

theorem sig_inj_nested {t : RTree} (hwf : t.wf) {S : List ℕ} {b : ℕ}
    (hlen : S.length = b) (hnd : S.Nodup)
    (hsub : ∀ y ∈ S, y ∈ leavesOf t)
    {m : ℕ} {pm : List ℕ} (hpm : pathTo t m = some pm)
    (hmlast : ∀ u pu, pathTo t u = some pu →
      (sBelow t S u).length = b → isPre pu pm)
    {g g2 : ℕ} (hg : g ∈ nodesOf t) (hg2 : g2 ∈ nodesOf t)
    (hpos2 : sBelow t S g2 ≠ [])
    (hfullg : (sBelow t S g).length = b → g = m)
    {sg : RTree} (hsg : subAt t g = some sg) (hin : g2 ∈ nodesOf sg)
    {c : ℤ} (hc : ∀ v ∈ S, (tdist t g v : ℤ) - tdist t g2 v = c) :
    g = g2 := by
  rcases pathTo_of_mem hg with ⟨pg, hpg⟩
  rcases sub_mem_paths t hwf g sg pg hsg hpg g2 hin with ⟨q, _, hpg2⟩
  rcases List.exists_mem_of_ne_nil _ hpos2 with ⟨v1, hv1⟩
  have hv1S : v1 ∈ S := by
    simp only [sBelow, List.mem_filter] at hv1
    exact hv1.1
  rcases sBelow_path_pre hwf hpg2 hv1 with ⟨q1, hpv1⟩
  have hnest : tdist t g v1 = tdist t g g2 + tdist t g2 v1 :=
    tdist_nested hpg hpg2 hpv1 ⟨q, rfl⟩ ⟨q1, rfl⟩
  have hcpos : c = (tdist t g g2 : ℤ) := by
    have := hc v1 hv1S
    omega
  by_cases hPfg : (sBelow t S g).length = b
  · have hgm : g = m := hfullg hPfg
    have hpgm : pathTo t m = some pg := by
      rw [← hgm]
      exact hpg
    have hpmeq : pm = pg := Option.some.inj (by rw [← hpm, hpgm])
    rcases hq0 : q with _ | ⟨cl, q2⟩
    · rw [hq0, List.append_nil] at hpg2
      exact path_eq_lab hpg hpg2
    · rw [hq0] at hpg2
      have hpcl : pathTo t cl = some (pg ++ [cl]) :=
        path_elem_path hwf hpg2 rfl
      have hclmem : cl ∈ nodesOf t := mem_of_pathTo hpcl
      have hnfcl : ¬ (sBelow t S cl).length = b := by
        intro hfcl
        rcases hmlast cl _ hpcl hfcl with ⟨r4, hr4⟩
        rw [hpmeq] at hr4
        have := congrArg List.length hr4
        simp at this
      rcases sBelow_not_full_exists hlen hnfcl with ⟨v2, hv2S, hv2n⟩
      rcases subAt_of_mem hclmem with ⟨scl, hscl⟩
      rcases pathTo_of_mem (leaves_sub_nodes (hsub v2 hv2S)) with ⟨pv2, hpv2⟩
      have hnp : ¬ isPre (pg ++ [cl]) pv2 := by
        rintro ⟨r5, hr5⟩
        exact hv2n ((mem_sBelow_iff hwf hsub hscl hv2S).mpr
          (mem_sub_of_path t hwf cl scl _ hscl hpcl v2 r5 (by rw [hpv2, hr5])))
      have hsep : tdist t g2 v2 = tdist t g2 g + tdist t g v2 :=
        tdist_sep_child hpg hpg2 hpv2 hnp
      have hcneg := hc v2 hv2S
      have hcomm : tdist t g2 g = tdist t g g2 := tdist_comm t g2 g
      have hzero : tdist t g g2 = 0 := by omega
      exact tdist_zero_eq hpg hpg2 hzero
  · rcases sBelow_not_full_exists hlen hPfg with ⟨v2, hv2S, hv2n⟩
    have hv2out : v2 ∉ nodesOf sg := fun hmem =>
      hv2n ((mem_sBelow_iff hwf hsub hsg hv2S).mpr hmem)
    have hsep : tdist t v2 g2 = tdist t v2 g + tdist t g g2 :=
      tdist_sep_down hwf hsg hpg hin
        (leaves_sub_nodes (hsub v2 hv2S)) hv2out
    have hcneg := hc v2 hv2S
    have hc1 : tdist t v2 g2 = tdist t g2 v2 := tdist_comm t v2 g2
    have hc2 : tdist t v2 g = tdist t g v2 := tdist_comm t v2 g
    have hzero : tdist t g g2 = 0 := by omega
    exact tdist_zero_eq hpg hpg2 hzero

theorem sig_inj {t : RTree} (hwf : t.wf) {S : List ℕ} {b : ℕ}
    (hb : 2 ≤ b) (hlen : S.length = b) (hnd : S.Nodup)
    (hsub : ∀ y ∈ S, y ∈ leavesOf t)
    {m : ℕ} {pm : List ℕ} (hpm : pathTo t m = some pm)
    (hmlast : ∀ u pu, pathTo t u = some pu →
      (sBelow t S u).length = b → isPre pu pm) :
    ∀ g ∈ nodesOf t, ∀ g2 ∈ nodesOf t,
      sBelow t S g ≠ [] → sBelow t S g2 ≠ [] →
      ((sBelow t S g).length = b → g = m) →
      ((sBelow t S g2).length = b → g2 = m) →
      signature (fun u v => (tdist t u v : ℤ)) S g
        = signature (fun u v => (tdist t u v : ℤ)) S g2 →
      g = g2 := by
  have hSne : S ≠ [] := by
    intro h
    rw [h] at hlen
    simp at hlen
    omega
  intro g hg g2 hg2 hpos hpos2 hfg hfg2 hsig
  rcases hS0 : S with _ | ⟨s0, Srest⟩
  · exact absurd hS0 hSne
  · rw [hS0] at hsig
    have hcall := signature_const_diff hsig
    rw [← hS0] at hcall
    rcases subAt_of_mem hg with ⟨sg, hsg⟩
    rcases subAt_of_mem hg2 with ⟨sg2, hsg2⟩
    by_cases hin : g2 ∈ nodesOf sg
    · exact sig_inj_nested hwf hlen hnd hsub hpm hmlast hg hg2 hpos2 hfg
        hsg hin hcall
    · by_cases hin2 : g ∈ nodesOf sg2
      · have hcall2 : ∀ v ∈ S,
            (tdist t g2 v : ℤ) - tdist t g v
              = (tdist t g2 s0 : ℤ) - tdist t g s0 := by
          intro v hv
          have := hcall v hv
          omega
        exact (sig_inj_nested hwf hlen hnd hsub hpm hmlast hg2 hg hpos hfg2
          hsg2 hin2 hcall2).symm
      · rcases pathTo_of_mem hg with ⟨pg, hpg⟩
        rcases pathTo_of_mem hg2 with ⟨pg2, hpg2⟩
        rcases List.exists_mem_of_ne_nil _ hpos with ⟨v1, hv1⟩
        rcases List.exists_mem_of_ne_nil _ hpos2 with ⟨v2, hv2⟩
        have hv1S : v1 ∈ S := by
          simp only [sBelow, List.mem_filter] at hv1
          exact hv1.1
        have hv2S : v2 ∈ S := by
          simp only [sBelow, List.mem_filter] at hv2
          exact hv2.1
        have hv1in : v1 ∈ nodesOf sg := (mem_sBelow_iff hwf hsub hsg hv1S).mp hv1
        have hv2in : v2 ∈ nodesOf sg2 :=
          (mem_sBelow_iff hwf hsub hsg2 hv2S).mp hv2
        have hsep1 : tdist t g2 v1 = tdist t g2 g + tdist t g v1 :=
          tdist_sep_down hwf hsg hpg hv1in hg2 hin
        have hsep2 : tdist t g v2 = tdist t g g2 + tdist t g2 v2 :=
          tdist_sep_down hwf hsg2 hpg2 hv2in hg hin2
        have hca := hcall v1 hv1S
        have hcb := hcall v2 hv2S
        have hcm : tdist t g2 g = tdist t g g2 := tdist_comm t g2 g
        have hzero : tdist t g g2 = 0 := by omega
        exact tdist_zero_eq hpg hpg2 hzero


theorem classes_count {t : RTree} (hwf : t.wf) {S : List ℕ} {b : ℕ}
    (hb : 2 ≤ b) (hlen : S.length = b) (hnd : S.Nodup)
    (hsub : ∀ y ∈ S, y ∈ leavesOf t) :
    (((nodesOf t).map
        (signature (fun u v => (tdist t u v : ℤ)) S)).dedup).length
      + (fullNodes b t S).length
      = (posNodes t S).length + 1 := by
  have hSne : S ≠ [] := by
    intro h
    rw [h] at hlen
    simp at hlen
    omega
  rcases List.exists_mem_of_ne_nil _ hSne with ⟨s0, hs0⟩
  have hs0n : s0 ∈ nodesOf t := leaves_sub_nodes (hsub s0 hs0)
  rcases pathTo_of_mem hs0n with ⟨p0, hp0⟩
  have hfull_pre : ∀ u pu, pathTo t u = some pu →
      (sBelow t S u).length = b → ∃ q, p0 = pu ++ q := by
    intro u pu hpu hfu
    have hS : sBelow t S u = S := sBelow_full_eq hlen hfu
    have hs0b : s0 ∈ sBelow t S u := by
      rw [hS]
      exact hs0
    rcases sBelow_path_pre hwf hpu hs0b with ⟨q, hq⟩
    rw [hp0] at hq
    exact ⟨q, Option.some.inj hq⟩
  have hsat : ∃ u ∈ p0, decide ((sBelow t S u).length = b) = true := by
    rcases pathTo_shape hp0 with ⟨q, hq⟩
    refine ⟨t.lab, by rw [hq]; simp, ?_⟩
    simp [sBelow_root hsub, hlen]
  rcases exists_last_filter p0 _ hsat with ⟨qm, m, rm, hsplit, hPm, hrm⟩
  have hpmp : pathTo t m = some (qm ++ [m]) := path_elem_path hwf hp0 hsplit
  have hm_mem : m ∈ nodesOf t := mem_of_pathTo hpmp
  have hmfull : (sBelow t S m).length = b := by simpa using hPm
  have hmlast : ∀ u pu, pathTo t u = some pu →
      (sBelow t S u).length = b → isPre pu (qm ++ [m]) := by
    intro u pu hpu hfu
    rcases hfull_pre u pu hpu hfu with ⟨q, hq⟩
    rcases path_concat hpu with ⟨pu2, hpu2⟩
    have humem : u ∈ p0 := by
      rw [hq, hpu2]
      simp
    have hunr : u ∉ rm := by
      intro hur
      have := hrm u hur
      simp [hfu] at this
    have humem2 : u ∈ qm ++ [m] := by
      rw [hsplit] at humem
      rcases List.mem_append.mp humem with h | h
      · exact List.mem_append.mpr (Or.inl h)
      · rcases List.mem_cons.mp h with rfl | h2
        · exact List.mem_append.mpr (Or.inr (by simp))
        · exact absurd h2 hunr
    rcases List.append_of_mem humem2 with ⟨q1, r1, hq1⟩
    have hpu3 : pathTo t u = some (q1 ++ [u]) :=
      path_elem_path hwf hpmp hq1
    rw [hpu] at hpu3
    have hpueq : pu = q1 ++ [u] := Option.some.inj hpu3
    refine ⟨r1, ?_⟩
    rw [hq1, hpueq]
    simp
  have himp : ∀ u ∈ nodesOf t,
      decide ((sBelow t S u).length = b) = true →
      decide (sBelow t S u ≠ []) = true := by
    intro u _ h
    simp only [decide_eq_true_eq] at h ⊢
    intro he
    rw [he] at h
    simp at h
    omega
  have hcount := filter_split_imp (l := nodesOf t)
    (P := fun u => decide (sBelow t S u ≠ []))
    (Q := fun u => decide ((sBelow t S u).length = b)) himp
  have hSLnd : (((nodesOf t).filter (fun u =>
        decide (sBelow t S u ≠ [])
          && !decide ((sBelow t S u).length = b))) ++ [m]).Nodup := by
    rw [List.nodup_append]
    refine ⟨hwf.filter _, by simp, ?_⟩
    intro a ha ham
    rcases List.mem_filter.mp ha with ⟨_, hpred⟩
    rw [List.mem_singleton.mp ham] at hpred
    simp [hmfull] at hpred
  have hcover : ∀ w ∈ nodesOf t,
      ∃ g ∈ ((nodesOf t).filter (fun u =>
        decide (sBelow t S u ≠ [])
          && !decide ((sBelow t S u).length = b))) ++ [m],
      signature (fun u v => (tdist t u v : ℤ)) S w
        = signature (fun u v => (tdist t u v : ℤ)) S g := by
    intro w hw
    rcases sig_gate hwf hb hlen hnd hsub hpmp hmfull hmlast w hw
      with ⟨g, hgsig, hgcase⟩
    rcases hgcase with rfl | ⟨hgmem, hgpos, hgnf⟩
    · exact ⟨g, List.mem_append.mpr (Or.inr (by simp)), hgsig⟩
    · refine ⟨g, List.mem_append.mpr (Or.inl ?_), hgsig⟩
      rw [List.mem_filter]
      exact ⟨hgmem, by simp [hgpos, hgnf]⟩
  have hinj : ∀ g ∈ ((nodesOf t).filter (fun u =>
        decide (sBelow t S u ≠ [])
          && !decide ((sBelow t S u).length = b))) ++ [m],
      ∀ g2 ∈ ((nodesOf t).filter (fun u =>
        decide (sBelow t S u ≠ [])
          && !decide ((sBelow t S u).length = b))) ++ [m],
      signature (fun u v => (tdist t u v : ℤ)) S g
        = signature (fun u v => (tdist t u v : ℤ)) S g2 → g = g2 := by
    have hprops : ∀ g ∈ ((nodesOf t).filter (fun u =>
        decide (sBelow t S u ≠ [])
          && !decide ((sBelow t S u).length = b))) ++ [m],
        g ∈ nodesOf t ∧ sBelow t S g ≠ []
          ∧ ((sBelow t S g).length = b → g = m) := by
      intro g hg
      rcases List.mem_append.mp hg with h | h
      · rcases List.mem_filter.mp h with ⟨hmem, hpred⟩
        simp only [Bool.and_eq_true, decide_eq_true_eq,
          Bool.not_eq_true', decide_eq_false_iff_not] at hpred
        exact ⟨hmem, hpred.1, fun hc => absurd hc hpred.2⟩
      · rw [List.mem_singleton.mp h]
        refine ⟨hm_mem, ?_, fun _ => rfl⟩
        intro he
        rw [he] at hmfull
        simp at hmfull
        omega
    intro g hg g2 hg2 hsig
    rcases hprops g hg with ⟨h1, h2, h3⟩
    rcases hprops g2 hg2 with ⟨h4, h5, h6⟩
    exact sig_inj hwf hb hlen hnd hsub hpmp hmlast g h1 g2 h4 h2 h5 h3 h6 hsig
  have hded := dedup_map_length_eq
    (fun g hg => by
      rcases List.mem_append.mp hg with h | h
      · exact (List.mem_filter.mp h).1
      · rw [List.mem_singleton.mp h]
        exact hm_mem)
    hcover hSLnd hinj
  rw [hded]
  simp only [List.length_append, List.length_singleton]
  show _ + (fullNodes b t S).length = (posNodes t S).length + 1
  have hposdef : posNodes t S
      = (nodesOf t).filter (fun u => decide (sBelow t S u ≠ [])) := rfl
  have hfulldef : fullNodes b t S
      = (nodesOf t).filter
        (fun u => decide ((sBelow t S u).length = b)) := rfl
  rw [hposdef, hfulldef, hcount]
  have hbeta : ((nodesOf t).filter (fun u =>
      (fun u => decide (sBelow t S u ≠ [])) u
        && !(fun u => decide ((sBelow t S u).length = b)) u)).length
    = ((nodesOf t).filter (fun u => decide (sBelow t S u ≠ [])
        && !decide ((sBelow t S u).length = b))).length := rfl
  rw [hbeta]
  omega


theorem classes_plus_cost {t : RTree} (hwf : t.wf) (hkids : t.kids ≠ [])
    {S : List ℕ} {b : ℕ} (hb : 2 ≤ b) (hlen : S.length = b) (hnd : S.Nodup)
    (hsub : ∀ y ∈ S, y ∈ leavesOf t) :
    (((nodesOf t).map
        (signature (fun u v => (tdist t u v : ℤ)) S)).dedup).length
      + costRoot b t S = size_subtree t := by
  have hpart := costOf_partition t hwf S hb hnd hsub
  have hcls := classes_count hwf hb hlen hnd hsub
  have hSne : S ≠ [] := by
    intro h
    rw [h] at hlen
    simp at hlen
    omega
  have hco : costOf b t S = costRoot b t S + 1 := by
    rcases t with ⟨x, cs⟩
    rcases cs with _ | ⟨c0, rest0⟩
    · simp [RTree.kids] at hkids
    · rw [costOf, if_neg hSne]
      simp only [List.isEmpty_cons, Bool.false_eq_true, if_false, hlen,
        if_pos rfl]
      rfl
  omega

theorem foldl_strict_fst (g : List ℕ → ℚ) :
    ∀ (l : List (List ℕ)) (a : ℚ × List ℕ),
      ((l.foldl (fun acc S => if g S < acc.1 then (g S, S) else acc) a).1)
        = (l.map g).foldl min a.1 := by
  intro l
  induction l with
  | nil => intro a; rfl
  | cons x xs ih =>
    intro a
    simp only [List.foldl_cons, List.map_cons]
    rw [ih]
    congr 1
    by_cases h : g x < a.1
    · rw [if_pos h]
      exact (min_eq_right (le_of_lt h)).symm
    · rw [if_neg h]
      exact (min_eq_left (le_of_not_lt h)).symm

theorem le_foldl_min {mv : ℚ} :
    ∀ (l : List ℚ) (a : ℚ), mv ≤ a → (∀ y ∈ l, mv ≤ y) →
      mv ≤ l.foldl min a := by
  intro l
  induction l with
  | nil => intro a ha _; exact ha
  | cons x xs ih =>
    intro a ha hl
    simp only [List.foldl_cons]
    exact ih (min a x) (le_min ha (hl x (by simp)))
      (fun y hy => hl y (by simp [hy]))

theorem foldl_min_le_init :
    ∀ (l : List ℚ) (a : ℚ), l.foldl min a ≤ a := by
  intro l
  induction l with
  | nil => intro a; exact le_refl a
  | cons x xs ih =>
    intro a
    simp only [List.foldl_cons]
    exact le_trans (ih (min a x)) (min_le_left a x)

theorem foldl_min_le_of_mem {mv : ℚ} :
    ∀ (l : List ℚ) (a : ℚ), mv ∈ l → l.foldl min a ≤ mv := by
  intro l
  induction l with
  | nil => intro a h; simp at h
  | cons x xs ih =>
    intro a hm
    rcases List.mem_cons.mp hm with rfl | h
    · simp only [List.foldl_cons]
      exact le_trans (foldl_min_le_init xs (min a mv)) (min_le_right a mv)
    · simp only [List.foldl_cons]
      exact ih (min a x) h

theorem foldl_min_eq {l : List ℚ} {a mv : ℚ} (hm : mv ∈ l)
    (hlb : ∀ y ∈ l, mv ≤ y) (ha : mv ≤ a) : l.foldl min a = mv :=
  le_antisymm (foldl_min_le_of_mem l a hm) (le_foldl_min l a ha hlb)

theorem combinations_sublist {α : Type} :
    ∀ (l : List α) (k : ℕ) (S : List α), S ∈ combinations l k →
      S.Sublist l := by
  intro l
  induction l with
  | nil =>
    intro k S hS
    cases k with
    | zero =>
      simp only [combinations, List.mem_singleton] at hS
      simp [hS]
    | succ k => simp [combinations] at hS
  | cons a as ih =>
    intro k S hS
    cases k with
    | zero =>
      simp only [combinations, List.mem_singleton] at hS
      simp [hS]
    | succ k =>
      simp only [combinations, List.mem_append, List.mem_map] at hS
      rcases hS with ⟨S2, hS2, rfl⟩ | hS
      · exact (ih k S2 hS2).cons_cons a
      · exact (ih (k + 1) S hS).cons a

theorem combinations_nodup {α : Type} [DecidableEq α] {l : List α}
    (hnd : l.Nodup) {k : ℕ} {S : List α} (hS : S ∈ combinations l k) :
    S.Nodup := (combinations_sublist l k S hS).nodup hnd

theorem combinations_gt_nil {α : Type} :
    ∀ (l : List α) (k : ℕ), l.length < k → combinations l k = [] := by
  intro l
  induction l with
  | nil =>
    intro k hk
    cases k with
    | zero => simp at hk
    | succ k => rfl
  | cons a as ih =>
    intro k hk
    cases k with
    | zero => simp at hk
    | succ k =>
      simp only [List.length_cons] at hk
      show (combinations as k).map _ ++ combinations as (k + 1) = []
      rw [ih k (by omega), ih (k + 1) (by omega)]
      rfl

theorem combinations_self {α : Type} :
    ∀ (l : List α), combinations l l.length = [l] := by
  intro l
  induction l with
  | nil => rfl
  | cons a as ih =>
    show (combinations as as.length).map _ ++ combinations as (as.length + 1)
      = [a :: as]
    rw [ih, combinations_gt_nil as (as.length + 1) (by omega)]
    rfl

theorem combinations_ne_nil {α : Type} :
    ∀ (l : List α) (k : ℕ), k ≤ l.length → combinations l k ≠ [] := by
  intro l
  induction l with
  | nil =>
    intro k hk
    have : k = 0 := by simpa using hk
    subst this
    simp [combinations]
  | cons a as ih =>
    intro k hk
    cases k with
    | zero => simp [combinations]
    | succ k =>
      show (combinations as k).map _ ++ combinations as (k + 1) ≠ []
      simp only [List.length_cons] at hk
      intro hcon
      rcases List.append_eq_nil.mp hcon with ⟨h1, _⟩
      exact ih k (by omega) (List.map_eq_nil.mp h1)

theorem sum_map_div (c : ℚ) (f : ℕ → ℚ) :
    ∀ l : List ℕ, (l.map (fun x => f x / c)).sum = (l.map f).sum / c := by
  intro l
  induction l with
  | nil => simp
  | cons x xs ih =>
    simp only [List.map_cons, List.sum_cons, ih]
    rw [add_div]

theorem sum_map_cast_sub_one :
    ∀ l : List ℕ, (l.map (fun x : ℕ => (x : ℚ) - 1)).sum
      = ((l.sum : ℚ)) - l.length := by
  intro l
  induction l with
  | nil => simp
  | cons x xs ih =>
    show ((x : ℚ) - 1) + (xs.map (fun x : ℕ => (x : ℚ) - 1)).sum = _
    rw [ih, List.sum_cons, List.length_cons, Nat.cast_add, Nat.cast_add,
      Nat.cast_one]
    ring

theorem dfsTree_lab (G : Graph) (fuel x p : ℕ) :
    (dfsTree G fuel x p).lab = x := by
  cases fuel <;> rfl

theorem leavesOf_ne_nil : ∀ t : RTree, leavesOf t ≠ [] := by
  refine rtree_ind (Q := fun cs => cs ≠ [] → leavesList cs ≠ []) ?_ ?_ ?_
  · intro x cs ih
    rcases cs with _ | ⟨c0, rest0⟩
    · simp [leavesOf]
    · simp only [leavesOf]
      exact ih (by simp)
  · intro h
    exact absurd rfl h
  · intro c cs ihc _ _
    simp only [leavesList]
    intro hcon
    rcases List.append_eq_nil.mp hcon with ⟨h1, _⟩
    exact ihc h1


theorem cast_list_sum_q (l : List ℕ) :
    ((l.sum : ℕ) : ℚ) = (l.map (fun n : ℕ => (n : ℚ))).sum := by
  induction l with
  | nil => simp
  | cons a as ih => simp [ih]

theorem sum_filter_keys :
    ∀ (ks : List (List ℤ)) (l : List ℕ) (f : ℕ → List ℤ), ks.Nodup →
      (∀ x ∈ l, f x ∈ ks) →
      (ks.map (fun kk =>
        (l.filter (fun x => decide (f x = kk))).length)).sum
        = l.length := by
  intro ks
  induction ks with
  | nil =>
    intro l f _ hall
    rcases l with _ | ⟨x, l⟩
    · simp
    · exact absurd (hall x (by simp)) (by simp)
  | cons k ks ih =>
    intro l f hnd hall
    simp only [List.map_cons, List.sum_cons]
    have hnd2 := List.nodup_cons.mp hnd
    have hrec := ih (l.filter (fun x => !decide (f x = k))) f hnd2.2
      (fun x hx => by
        rcases List.mem_filter.mp hx with ⟨hxl, hpred⟩
        rcases List.mem_cons.mp (hall x hxl) with h | h
        · simp [h] at hpred
        · exact h)
    have hcomm : ∀ kk ∈ ks,
        ((l.filter (fun x => !decide (f x = k))).filter
          (fun x => decide (f x = kk))).length
        = (l.filter (fun x => decide (f x = kk))).length := by
      intro kk hkk
      rw [List.filter_filter]
      congr 1
      apply List.filter_congr
      intro x _
      by_cases hx : f x = kk
      · have hne : ¬ kk = k := fun he => hnd2.1 (he ▸ hkk)
        simp [hx, hne]
      · simp [hx]
    have hmapeq : ks.map (fun kk =>
          ((l.filter (fun x => !decide (f x = k))).filter
            (fun x => decide (f x = kk))).length)
        = ks.map (fun kk =>
          (l.filter (fun x => decide (f x = kk))).length) :=
      List.map_congr_left hcomm
    rw [hmapeq] at hrec
    rw [hrec]
    exact length_filter_parts l _

theorem equivalence_classes_snd (dist : ℕ → ℕ → ℤ) (nodes S : List ℕ) :
    (equivalence_classes dist nodes S).2
      = ((nodes.map (signature dist S)).dedup).map
        (fun kk => (nodes.filter
          (fun n2 => decide (signature dist S n2 = kk))).length) := by
  simp only [equivalence_classes, List.map_map]
  rfl

theorem equivalence_classes_total (dist : ℕ → ℕ → ℤ) (nodes S : List ℕ) :
    ((equivalence_classes dist nodes S).2).sum = nodes.length := by
  rw [equivalence_classes_snd]
  exact sum_filter_keys _ nodes _ (List.nodup_dedup _)
    (fun x hx => List.mem_dedup.mpr (List.mem_map_of_mem _ hx))

theorem equivalence_classes_card (dist : ℕ → ℕ → ℤ) (nodes S : List ℕ) :
    ((equivalence_classes dist nodes S).2).length
      = ((nodes.map (signature dist S)).dedup).length := by
  rw [equivalence_classes_snd, List.length_map]

theorem prob_err_from_cardinalities_eq (lens : List ℕ) :
    prob_err_from_cardinalities lens
      = ((lens.sum : ℚ) - lens.length) / (lens.sum : ℚ) := by
  show (lens.map (fun l : ℕ => ((l : ℚ) - 1)
    / (lens.map (fun l : ℕ => (l : ℚ))).sum)).sum = _
  rw [sum_map_div ((lens.map (fun l : ℕ => (l : ℚ))).sum)
    (fun l : ℕ => (l : ℚ) - 1) lens]
  rw [sum_map_cast_sub_one, ← cast_list_sum_q]


theorem leavesList_length_ge :
    ∀ cs : List RTree, ∀ c ∈ cs,
      (leavesOf c).length ≤ (leavesList cs).length := by
  intro cs
  induction cs with
  | nil => intro c hc; simp at hc
  | cons c0 rest ih =>
    intro c hc
    have hrec : leavesList (c0 :: rest) = leavesOf c0 ++ leavesList rest :=
      rfl
    rcases List.mem_cons.mp hc with rfl | h
    · rw [hrec, List.length_append]
      omega
    · have := ih c h
      rw [hrec, List.length_append]
      omega

theorem leavesList_filter_kid :
    ∀ cs : List RTree, (nodesList cs).Nodup → ∀ c ∈ cs,
      (leavesList cs).filter (fun y => decide (y ∈ leavesOf c))
        = leavesOf c := by
  intro cs
  induction cs with
  | nil => intro _ c hc; simp at hc
  | cons c0 rest ih =>
    intro hnd c hc
    rcases nodesList_nodup_parts hnd with ⟨_, hndrest, hdisj⟩
    have hrec : leavesList (c0 :: rest) = leavesOf c0 ++ leavesList rest :=
      rfl
    rw [hrec, List.filter_append]
    rcases List.mem_cons.mp hc with rfl | h
    · have h1 : (leavesOf c).filter (fun y => decide (y ∈ leavesOf c))
          = leavesOf c :=
        List.filter_eq_self.mpr (fun y hy => by simpa using hy)
      have h2 : (leavesList rest).filter
          (fun y => decide (y ∈ leavesOf c)) = [] := by
        apply List.filter_eq_nil_iff.mpr
        intro y hy
        simp only [decide_eq_true_eq]
        intro hyc
        exact hdisj y (leaves_sub_nodes hyc) (leavesList_sub_nodes hy)
      rw [h1, h2, List.append_nil]
    · have h1 : (leavesOf c0).filter (fun y => decide (y ∈ leavesOf c))
          = [] := by
        apply List.filter_eq_nil_iff.mpr
        intro y hy
        simp only [decide_eq_true_eq]
        intro hyc
        exact hdisj y (leaves_sub_nodes hy)
          (leavesList_sub_nodes (mem_leavesList_of_mem h hyc))
      rw [h1, ih hndrest c h, List.nil_append]

theorem costOf_leaves_lt_aux (b : ℕ) :
    (∀ s : RTree, s.wf → (leavesOf s).length < b →
      costOf b s (leavesOf s) = 0) ∧
    (∀ cs : List RTree, (nodesList cs).Nodup →
      (leavesList cs).length < b →
      costOfList b cs (leavesList cs) = 0) := by
  refine ⟨rtree_ind ?hn ?h0 ?hc, rtree_ind_list ?hn ?h0 ?hc⟩
  case hn =>
    intro x cs ih hwf hlt
    rcases cs with _ | ⟨c0, rest0⟩
    · show costOf b (.node x []) [x] = 0
      simp [costOf]
    · show costOf b (.node x (c0 :: rest0)) (leavesList (c0 :: rest0)) = 0
      have hne : leavesList (c0 :: rest0) ≠ [] :=
        leavesOf_ne_nil (.node x (c0 :: rest0))
      have hlt2 : (leavesList (c0 :: rest0)).length < b := hlt
      rw [costOf, if_neg hne]
      simp only [List.isEmpty_cons, Bool.false_eq_true, if_false]
      rw [ih (wf_kids hwf).1 hlt2, if_neg (by omega :
        ¬ (leavesList (c0 :: rest0)).length = b)]
  case h0 =>
    intro _ _
    rfl
  case hc =>
    intro c rest ihc ihrest hnd hlt
    rcases nodesList_nodup_parts hnd with ⟨hndc, hndrest, hdisj⟩
    have hrec : leavesList (c :: rest) = leavesOf c ++ leavesList rest := rfl
    have hfil : (leavesList (c :: rest)).filter
        (fun y => decide (y ∈ leavesOf c)) = leavesOf c :=
      leavesList_filter_kid (c :: rest) hnd c (by simp)
    have hdrop : costOfList b rest (leavesOf c ++ leavesList rest)
        = costOfList b rest (leavesList rest) := by
      apply costOfList_drop_left
      intro y hy hmem
      exact hdisj y (leaves_sub_nodes hy) (leavesList_sub_nodes hmem)
    have hlen2 : (leavesList (c :: rest)).length
        = (leavesOf c).length + (leavesList rest).length := by
      rw [hrec, List.length_append]
    have h1 : costOf b c (leavesOf c) = 0 := ihc hndc (by omega)
    have h2 : costOfList b rest (leavesList rest) = 0 :=
      ihrest hndrest (by omega)
    show costOf b c ((leavesList (c :: rest)).filter
        (fun y => decide (y ∈ leavesOf c)))
      + costOfList b rest (leavesList (c :: rest)) = 0
    rw [hfil, h1, hrec, hdrop, h2]

theorem costOfList_leaves_top (b : ℕ) :
    ∀ cs : List RTree, (nodesList cs).Nodup →
      (∀ c ∈ cs, (leavesOf c).length < b) →
      ∀ S, (∀ c ∈ cs,
        S.filter (fun y => decide (y ∈ leavesOf c)) = leavesOf c) →
      costOfList b cs S = 0 := by
  intro cs
  induction cs with
  | nil =>
    intro _ _ S _
    rfl
  | cons c rest ih =>
    intro hnd hlt S hfil
    rcases nodesList_nodup_parts hnd with ⟨hndc, hndrest, _⟩
    show costOf b c (S.filter (fun y => decide (y ∈ leavesOf c)))
        + costOfList b rest S = 0
    rw [hfil c (by simp), (costOf_leaves_lt_aux b).1 c hndc (hlt c (by simp)),
      ih hndrest (fun c2 h2 => hlt c2 (by simp [h2])) S
        (fun c2 h2 => hfil c2 (by simp [h2]))]

theorem costRoot_all_leaves {t : RTree} (hwf : t.wf)
    (hkids : 2 ≤ t.kids.length) {b : ℕ}
    (hb : b = (leavesOf t).length) :
    costRoot b t (leavesOf t) = 0 := by
  rcases t with ⟨x, cs⟩
  simp only [RTree.kids] at hkids
  rcases cs with _ | ⟨c0, rest0⟩
  · simp at hkids
  · rcases rest0 with _ | ⟨c1, rest1⟩
    · simp at hkids
    · have hb2 : b = (leavesList (c0 :: c1 :: rest1)).length := hb
      have hone : ∀ c : RTree, 1 ≤ (leavesOf c).length := by
        intro c
        rcases hx : leavesOf c with _ | ⟨y, ys⟩
        · exact absurd hx (leavesOf_ne_nil c)
        · simp
      have hchild : ∀ c ∈ (c0 :: c1 :: rest1),
          (leavesOf c).length < b := by
        intro c hc
        rcases List.mem_cons.mp hc with heq | h
        · subst heq
          have h1 := hone c1
          have hsplit : (leavesList (c :: c1 :: rest1)).length
              = (leavesOf c).length + (leavesOf c1).length
                + (leavesList rest1).length := by
            show (leavesOf c ++ (leavesOf c1 ++ leavesList rest1)).length
              = _
            simp only [List.length_append]
            omega
          omega
        · have h1 := hone c0
          have hge2 := leavesList_length_ge (c1 :: rest1) c h
          have hsplit : (leavesList (c0 :: c1 :: rest1)).length
              = (leavesOf c0).length
                + (leavesList (c1 :: rest1)).length := by
            show (leavesOf c0 ++ leavesList (c1 :: rest1)).length = _
            simp only [List.length_append]
          omega
      show costOfList b (c0 :: c1 :: rest1)
        (leavesOf (.node x (c0 :: c1 :: rest1))) = 0
      exact costOfList_leaves_top b (c0 :: c1 :: rest1)
        (wf_kids hwf).1 hchild _
        (fun c hc => leavesList_filter_kid (c0 :: c1 :: rest1)
          (wf_kids hwf).1 c hc)

theorem minCosts_map_attained {l : List (List ℕ)} (hne : l ≠ [])
    (f : List ℕ → ℕ) :
    ∃ S0 ∈ l, minCosts (l.map (fun S => ((f S : ℕ) : WithTop ℕ)))
        = ((f S0 : ℕ) : WithTop ℕ)
      ∧ ∀ S ∈ l, f S0 ≤ f S := by
  rcases minCosts_cases (l.map (fun S => ((f S : ℕ) : WithTop ℕ)))
    with htop | ⟨a, ha, hmc⟩
  · exfalso
    rcases l with _ | ⟨x, l⟩
    · exact hne rfl
    · have hle := minCosts_le_of_mem
        (show ((f x : ℕ) : WithTop ℕ) ∈ (x :: l).map
          (fun S => ((f S : ℕ) : WithTop ℕ)) by simp)
      rw [htop] at hle
      simp at hle
  · rcases List.mem_map.mp ha with ⟨S0, hS0, rfl⟩
    refine ⟨S0, hS0, hmc, ?_⟩
    intro S hS
    have hle := minCosts_le_of_mem
      (show ((f S : ℕ) : WithTop ℕ)
          ∈ l.map (fun S2 => ((f S2 : ℕ) : WithTop ℕ))
        from List.mem_map.mpr ⟨S, hS, rfl⟩)
    rw [hmc] at hle
    exact_mod_cast hle


theorem brute_err_eq {G : Graph} {t : RTree} (hwf : t.wf)
    (hkids : t.kids ≠ [])
    (hperm : G.nodes.Perm (nodesOf t))
    (hdist : ∀ u ∈ G.nodes, ∀ v ∈ G.nodes, gdist G u v = tdist t u v)
    {S : List ℕ} {b : ℕ} (hb : 2 ≤ b) (hlen : S.length = b)
    (hnd : S.Nodup) (hsub : ∀ y ∈ S, y ∈ leavesOf t) :
    prob_err_from_cardinalities
        (equivalence_classes (fun u v => (gdist G u v : ℤ)) G.nodes S).2
      = (costRoot b t S : ℚ) / (G.nodes.length : ℚ) := by
  have htot := equivalence_classes_total
    (fun u v => (gdist G u v : ℤ)) G.nodes S
  have hcard := equivalence_classes_card
    (fun u v => (gdist G u v : ℤ)) G.nodes S
  have hsig : G.nodes.map (signature (fun u v => (gdist G u v : ℤ)) S)
      = G.nodes.map (signature (fun u v => (tdist t u v : ℤ)) S) := by
    apply List.map_congr_left
    intro y hy
    rcases hS : S with _ | ⟨s0, rest⟩
    · rfl
    · simp only [signature]
      apply List.map_congr_left
      intro v hv
      have hvG : v ∈ G.nodes := hperm.mem_iff.mpr
        (leaves_sub_nodes (hsub v (by rw [hS]; simp [hv])))
      have hs0G : s0 ∈ G.nodes := hperm.mem_iff.mpr
        (leaves_sub_nodes (hsub s0 (by rw [hS]; simp)))
      rw [hdist y hy v hvG, hdist y hy s0 hs0G]
  have hnum : ((G.nodes.map
        (signature (fun u v => (tdist t u v : ℤ)) S)).dedup).length
      + costRoot b t S = size_subtree t := by
    have hperm2 : (G.nodes.map
          (signature (fun u v => (tdist t u v : ℤ)) S)).Perm
        ((nodesOf t).map (signature (fun u v => (tdist t u v : ℤ)) S)) :=
      hperm.map _
    rw [(hperm2.dedup).length_eq]
    exact classes_plus_cost hwf hkids hb hlen hnd hsub
  have hn : G.nodes.length = size_subtree t := by
    rw [hperm.length_eq, size_eq_nodes_length]
  rw [prob_err_from_cardinalities_eq, htot, hcard, hsig]
  congr 1
  have hcast : (((G.nodes.map
        (signature (fun u v => (tdist t u v : ℤ)) S)).dedup).length : ℚ)
      + (costRoot b t S : ℚ) = (G.nodes.length : ℚ) := by
    rw [hn]
    exact_mod_cast hnum
  linarith


theorem leaves_sublist_nodes_aux :
    (∀ t : RTree, (leavesOf t).Sublist (nodesOf t)) ∧
    (∀ cs : List RTree, (leavesList cs).Sublist (nodesList cs)) := by
  refine ⟨rtree_ind ?hn ?h0 ?hc, rtree_ind_list ?hn ?h0 ?hc⟩
  case hn =>
    intro x cs ih
    rcases cs with _ | ⟨c0, rest0⟩
    · simp [leavesOf, nodesOf, nodesList]
    · show (leavesList (c0 :: rest0)).Sublist (x :: nodesList (c0 :: rest0))
      exact ih.cons x
  case h0 => simp [leavesList, nodesList]
  case hc =>
    intro c cs ihc ihcs
    exact ihc.append ihcs

theorem leaves_nodup {t : RTree} (hwf : t.wf) : (leavesOf t).Nodup :=
  hwf.sublist (leaves_sublist_nodes_aux.1 t)

/-- Core refinement fact shared by C1 and C3: with the rooted view `t`
produced by the DFS rooting at the chosen non-leaf root being a faithful
rooted copy of the graph, the P_err dynamic program and the brute-force
oracle `utilities.prob_err` return exactly the same objective value, for
every budget `2 ≤ b ≤ |L|`. -/
theorem perr_refinement_core (G : Graph) (b : ℕ)
    (pick : List ℕ → Option ℕ) (root : ℕ) (t : RTree)
    (hpick : pick (nonLeaves G) = some root)
    (htree : is_tree G = true)
    (ht : dfsTree G G.nodes.length root root = t)
    (hwf : t.wf)
    (hperm : G.nodes.Perm (nodesOf t))
    (hdist : ∀ u ∈ G.nodes, ∀ v ∈ G.nodes, gdist G u v = tdist t u v)
    (hleaves : find_leaves G = leavesOf t)
    (hkids : 2 ≤ t.kids.length)
    (hb2 : 2 ≤ b) (hbL : b ≤ (find_leaves G).length) :
    ∃ (q : ℚ) (w w2 : List ℕ),
      ProbErr.optimal_placement G b pick = .ok (((q : ℚ) : WithTop ℚ), w)
      ∧ Utilities.prob_err G (find_leaves G) b = .ok (q, w2) := by
  have hkne : t.kids ≠ [] := by
    intro h
    rw [h] at hkids
    simp at hkids
  have hnpos : 0 < G.nodes.length := by
    rw [hperm.length_eq, ← size_eq_nodes_length]
    exact size_subtree_pos t
  have hnQ : (0 : ℚ) < (G.nodes.length : ℚ) := by exact_mod_cast hnpos
  have hbLt : b ≤ (leavesOf t).length := by
    rw [← hleaves]
    exact hbL
  have hne : combinations (leavesOf t) b ≠ [] :=
    combinations_ne_nil (leavesOf t) b hbLt
  rcases minCosts_map_attained hne (costRoot b t) with ⟨S0, hS0, hmin, hlb⟩
  have hprops : ∀ S ∈ combinations (leavesOf t) b,
      S.length = b ∧ S.Nodup ∧ ∀ y ∈ S, y ∈ leavesOf t := by
    intro S hS
    exact ⟨combinations_length _ _ _ hS,
      combinations_nodup (leaves_nodup hwf) hS,
      combinations_mem_sub _ _ _ hS⟩
  have herr : ∀ S ∈ combinations (leavesOf t) b,
      prob_err_from_cardinalities
          (equivalence_classes (fun u v => (gdist G u v : ℤ))
            G.nodes S).2
        = (costRoot b t S : ℚ) / (G.nodes.length : ℚ) := by
    intro S hS
    rcases hprops S hS with ⟨h1, h2, h3⟩
    exact brute_err_eq hwf hkne hperm hdist hb2 h1 h2 h3
  have hcost_le : costRoot b t S0 ≤ size_subtree t := by
    rcases hprops S0 hS0 with ⟨h1, h2, h3⟩
    have := classes_plus_cost hwf hkne hb2 h1 h2 h3
    omega
  have hq2 : (costRoot b t S0 : ℚ) / (G.nodes.length : ℚ) ≤ 2 := by
    have hc2 : (costRoot b t S0 : ℚ) ≤ (G.nodes.length : ℚ) := by
      have hsz : costRoot b t S0 ≤ G.nodes.length := by
        rw [hperm.length_eq, ← size_eq_nodes_length]
        exact hcost_le
      exact_mod_cast hsz
    rw [div_le_iff hnQ]
    linarith
  -- the brute side
  have hbr : Utilities.prob_err G (find_leaves G) b
      = .ok ((combinations (find_leaves G) b).foldl
        (fun acc sensors =>
          if prob_err_from_cardinalities
              (equivalence_classes (fun u v => (gdist G u v : ℤ))
                G.nodes sensors).2 < acc.1
          then (prob_err_from_cardinalities
              (equivalence_classes (fun u v => (gdist G u v : ℤ))
                G.nodes sensors).2, sensors)
          else acc) ((2 : ℚ), ([] : List ℕ))) := by
    show (if b < 2 then (.error .InvalidBudget : Except PlacementError
        (ℚ × List ℕ)) else _) = _
    rw [if_neg (by omega)]
  set F := (combinations (find_leaves G) b).foldl
    (fun (acc : ℚ × List ℕ) sensors =>
      if prob_err_from_cardinalities
          (equivalence_classes (fun u v => (gdist G u v : ℤ))
            G.nodes sensors).2 < acc.1
      then (prob_err_from_cardinalities
          (equivalence_classes (fun u v => (gdist G u v : ℤ))
            G.nodes sensors).2, sensors)
      else acc) ((2 : ℚ), ([] : List ℕ)) with hF
  have hF1 : F.1 = ((combinations (find_leaves G) b).map
      (fun sensors => prob_err_from_cardinalities
        (equivalence_classes (fun u v => (gdist G u v : ℤ))
          G.nodes sensors).2)).foldl min 2 := by
    rw [hF]
    exact foldl_strict_fst _ (combinations (find_leaves G) b)
      ((2 : ℚ), ([] : List ℕ))
  have hFval : F.1 = (costRoot b t S0 : ℚ) / (G.nodes.length : ℚ) := by
    rw [hF1, hleaves]
    apply foldl_min_eq
    · exact List.mem_map.mpr ⟨S0, hS0, herr S0 hS0⟩
    · intro y hy
      rcases List.mem_map.mp hy with ⟨S, hS, rfl⟩
      rw [herr S hS]
      apply div_le_div_of_nonneg_right ?_ hnQ.le
      exact_mod_cast hlb S hS
    · exact hq2
  refine ⟨(costRoot b t S0 : ℚ) / (G.nodes.length : ℚ), ?_⟩
  by_cases hsat : (find_leaves G).length ≤ b
  · -- saturation branch: b = |L| and the value is 0
    have hbeq : b = (leavesOf t).length := by
      rw [← hleaves]
      omega
    have hcombs : combinations (leavesOf t) b = [leavesOf t] := by
      rw [hbeq]
      exact combinations_self (leavesOf t)
    have hS0eq : S0 = leavesOf t := by
      rw [hcombs] at hS0
      simpa using hS0
    have hq0 : costRoot b t S0 = 0 := by
      rw [hS0eq]
      exact costRoot_all_leaves hwf hkids hbeq
    refine ⟨find_leaves G, F.2, ?_, ?_⟩
    · show (if b < 2 then (.error .InvalidBudget : Except PlacementError
          (WithTop ℚ × List ℕ))
        else if ¬ is_tree G then .error .NotATree
        else if (find_leaves G).length ≤ b
        then .ok ((0 : WithTop ℚ), find_leaves G)
        else _) = _
      rw [if_neg (by omega), if_neg (by simp [htree]), if_pos hsat]
      rw [hq0]
      norm_num
    · rw [hbr]
      rw [show ((costRoot b t S0 : ℚ) / (G.nodes.length : ℚ), F.2)
          = F by rw [← hFval]]
  · -- DP branch
    have hlab : t.lab = root := by
      rw [← ht, dfsTree_lab]
    have hdp : (opt_perr root b t b).1
        = ((costRoot b t S0 : ℕ) : WithTop ℕ) := by
      rw [← hlab, opt_perr_root_eq t hwf b (by omega) hkne, hmin]
    refine ⟨(opt_perr root b t b).2, F.2, ?_, ?_⟩
    · show (if b < 2 then (.error .InvalidBudget : Except PlacementError
          (WithTop ℚ × List ℕ))
        else if ¬ is_tree G then .error .NotATree
        else if (find_leaves G).length ≤ b
        then .ok ((0 : WithTop ℚ), find_leaves G)
        else match pick (nonLeaves G) with
          | none => .error .IndexError
          | some root2 =>
            .ok (WithTop.map
              (fun e : ℕ => (e : ℚ) / (G.nodes.length : ℚ))
              (opt_perr root2 b
                (dfsTree G G.nodes.length root2 root2) b).1,
              (opt_perr root2 b
                (dfsTree G G.nodes.length root2 root2) b).2)) = _
      rw [if_neg (by omega), if_neg (by simp [htree]), if_neg hsat, hpick]
      show Except.ok (WithTop.map
          (fun e : ℕ => (e : ℚ) / (G.nodes.length : ℚ))
          (opt_perr root b (dfsTree G G.nodes.length root root) b).1,
          (opt_perr root b (dfsTree G G.nodes.length root root) b).2) = _
      rw [ht, hdp]
      rfl
    · rw [hbr]
      rw [show ((costRoot b t S0 : ℚ) / (G.nodes.length : ℚ), F.2)
          = F by rw [← hFval]]


/-- C1: on a tree input, with the rooted view `t` produced by the DFS
rooting at the chosen non-leaf root being a faithful rooted copy of the
graph (same node set, the tree metric as distance table, the degree-one
nodes as leaves), the P_err dynamic program and the brute-force oracle
`utilities.prob_err` return exactly the same objective value, for every
budget `2 ≤ b ≤ |L|`. -/
theorem claim1_refinement (G : Graph) (b : ℕ)
    (pick : List ℕ → Option ℕ) (root : ℕ) (t : RTree)
    (hpick : pick (nonLeaves G) = some root)
    (htree : is_tree G = true)
    (ht : dfsTree G G.nodes.length root root = t)
    (hwf : t.wf)
    (hperm : G.nodes.Perm (nodesOf t))
    (hdist : ∀ u ∈ G.nodes, ∀ v ∈ G.nodes, gdist G u v = tdist t u v)
    (hleaves : find_leaves G = leavesOf t)
    (hkids : 2 ≤ t.kids.length)
    (hb2 : 2 ≤ b) (hbL : b ≤ (find_leaves G).length) :
    ∃ (q : ℚ) (w w2 : List ℕ),
      ProbErr.optimal_placement G b pick = .ok (((q : ℚ) : WithTop ℚ), w)
      ∧ Utilities.prob_err G (find_leaves G) b = .ok (q, w2) :=
  perr_refinement_core G b pick root t hpick htree ht hwf hperm hdist
    hleaves hkids hb2 hbL

/-- Witness for C1: the 5-node star `0–1, 1–2, 1–3, 1–4` rooted at its
unique non-leaf `1`, with budget 2. -/
theorem claim1_refinement_witness :
    ∃ (q : ℚ) (w w2 : List ℕ),
      ProbErr.optimal_placement
          ⟨[0, 1, 2, 3, 4], [(0, 1), (1, 2), (1, 3), (1, 4)]⟩ 2
          (fun l => l.head?)
        = .ok (((q : ℚ) : WithTop ℚ), w)
      ∧ Utilities.prob_err
          ⟨[0, 1, 2, 3, 4], [(0, 1), (1, 2), (1, 3), (1, 4)]⟩
          (find_leaves
            ⟨[0, 1, 2, 3, 4], [(0, 1), (1, 2), (1, 3), (1, 4)]⟩) 2
        = .ok (q, w2) :=
  claim1_refinement
    ⟨[0, 1, 2, 3, 4], [(0, 1), (1, 2), (1, 3), (1, 4)]⟩ 2
    (fun l => l.head?) 1
    (dfsTree ⟨[0, 1, 2, 3, 4], [(0, 1), (1, 2), (1, 3), (1, 4)]⟩ 5 1 1)
    (by decide) (by decide) rfl
    (by show (nodesOf (dfsTree
      ⟨[0, 1, 2, 3, 4], [(0, 1), (1, 2), (1, 3), (1, 4)]⟩ 5 1 1)).Nodup
        decide)
    (by decide) (by decide)
    (by decide) (by decide) (by decide) (by decide)

/-! ## The fuel-structural twins agree with the well-founded evaluators -/

theorem subAt_sizeOf_le :
    ∀ t : RTree, ∀ u s, subAt t u = some s → sizeOf s ≤ sizeOf t := by
  refine rtree_ind (Q := fun cs => ∀ u s,
    subAtList cs u = some s → sizeOf s ≤ sizeOf cs) ?_ ?_ ?_
  · intro x cs ihQ u s hs
    rw [subAt] at hs
    by_cases hu : u = x
    · rw [if_pos hu] at hs
      cases hs
      exact le_refl _
    · rw [if_neg hu] at hs
      have h1 := ihQ u s hs
      simp only [RTree.node.sizeOf_spec]
      omega
  · intro u s hs
    simp [subAtList] at hs
  · intro c cs ihP ihQ u s hs
    rw [subAtList] at hs
    cases hc : subAt c u with
    | some s2 =>
      simp only [hc] at hs
      have h1 := ihP u s2 hc
      have h2 : s2 = s := by injection hs
      subst h2
      simp only [List.cons.sizeOf_spec]
      omega
    | none =>
      simp only [hc] at hs
      have h1 := ihQ u s hs
      simp only [List.cons.sizeOf_spec]
      omega

theorem chainTo_sizeOf_le (t : RTree) (x : ℕ) :
    ∀ u ∈ chainTo t x, sizeOf u ≤ sizeOf t := by
  intro u hu
  rw [chainTo] at hu
  cases hp : pathTo t x with
  | none =>
    simp only [hp] at hu
    simp at hu
  | some p =>
    simp only [hp] at hu
    rcases List.mem_filterMap.mp hu with ⟨y, _, hy⟩
    exact subAt_sizeOf_le t y u hy

theorem exp_distanceF_eq (t : RTree) :
    ∀ fuel s sel, sizeOf s ≤ fuel →
      exp_distanceF t fuel s sel = exp_distance t s sel := by
  intro fuel
  induction fuel with
  | zero =>
    intro s sel h
    exfalso
    cases s with
    | node u cs =>
      simp only [RTree.node.sizeOf_spec] at h
      omega
  | succ fuel ih =>
    intro s sel h
    cases s with
    | node u cs =>
      rw [exp_distanceF, exp_distance]
      by_cases h0 : (cs.isEmpty || sel.isEmpty) = true
      · rw [if_pos h0, if_pos h0]
      · rw [if_neg h0, if_neg h0]
        have hsz : sizeOf cs ≤ fuel := by
          simp only [RTree.node.sizeOf_spec] at h
          omega
        have hcong : ∀ c ∈ cs.attach.filter
            (fun c => decide (c.1.lab ∈ sel)),
            exp_distanceF t fuel c.1 (sortNat (c.1.kids.map RTree.lab))
              = exp_distance t c.1 (sortNat (c.1.kids.map RTree.lab)) := by
          intro c _
          apply ih
          have hlt := List.sizeOf_lt_of_mem c.2
          omega
        exact congrArg₂ (· + ·)
          (congrArg₂ (· + ·)
            (congrArg List.sum (List.map_congr_left hcong)) rfl) rfl

theorem exp_distance_parentF_eq (t : RTree) (fuel : ℕ) :
    ∀ l sel, (∀ u ∈ l, sizeOf u ≤ fuel) →
      exp_distance_parentF t fuel l sel = exp_distance_parent t l sel := by
  intro l
  induction l with
  | nil =>
    intro sel _
    rfl
  | cons u rest ih =>
    intro sel h
    cases rest with
    | nil =>
      rw [exp_distance_parentF, exp_distance_parent]
      rw [exp_distanceF_eq t fuel u sel (h u (by simp))]
    | cons p rest2 =>
      rw [exp_distance_parentF, exp_distance_parent]
      rw [exp_distanceF_eq t fuel u sel (h u (by simp))]
      rw [ih (sortNat ((p.kids.map RTree.lab).filter (fun y => y ≠ u.lab)))
        (fun v hv => h v (List.mem_cons_of_mem u hv))]

theorem tableValF_eq (t : RTree) (fuel x : ℕ) (key : List ℕ)
    (h : sizeOf t ≤ fuel) :
    tableValF t fuel x key = tableVal t x key := by
  cases hs : subAt t x with
  | none => simp only [tableValF, tableVal, hs]
  | some s =>
    simp only [tableValF, tableVal, hs]
    have hss : sizeOf s ≤ fuel := le_trans (subAt_sizeOf_le t x s hs) h
    rw [exp_distanceF_eq t fuel s key hss]
    rw [exp_distance_parentF_eq t fuel (chainTo t x).reverse key.tail
      (fun u hu =>
        le_trans (chainTo_sizeOf_le t x u (List.mem_reverse.mp hu)) h)]

theorem edF_eq (table : ℕ → List ℕ → ℚ) (par : ℕ → ℕ) (root b : ℕ) :
    ∀ fuel arg,
      Sum.elim (fun p : RTree × ℕ => sizeOf p.1)
        (fun p : ℕ × ℕ × List RTree × List ℕ => sizeOf p.2.2.1) arg < fuel →
      edF table par root b fuel arg = evalArg table par root b arg := by
  intro fuel
  induction fuel with
  | zero =>
    intro arg h
    exact absurd h (by omega)
  | succ fuel ih =>
    have ihl : ∀ (s : RTree) (k : ℕ), sizeOf s < fuel →
        edF table par root b fuel (.inl (s, k))
          = opt_edist table par root b s k :=
      fun s k hs => ih (.inl (s, k)) hs
    have ihr : ∀ (x k : ℕ) (cs : List RTree) (ns : List ℕ),
        sizeOf cs < fuel →
        edF table par root b fuel (.inr (x, k, cs, ns))
          = optc_edist table par root b x k cs ns :=
      fun x k cs ns hs => ih (.inr (x, k, cs, ns)) hs
    intro arg h
    cases arg with
    | inl p =>
      obtain ⟨s, k⟩ := p
      cases s with
      | node x cs =>
        have hcs : sizeOf cs < fuel := by
          replace h : sizeOf (RTree.node x cs) < fuel + 1 := h
          simp only [RTree.node.sizeOf_spec] at h
          omega
        show edF table par root b (fuel + 1) (.inl (.node x cs, k))
          = opt_edist table par root b (.node x cs) k
        rw [edF, opt_edist]
        by_cases h0 : cs.isEmpty = true
        · rw [if_pos h0, if_pos h0]
        · rw [if_neg h0, if_neg h0]
          exact ihr x k cs _ hcs
    | inr p =>
      obtain ⟨x, k, cs, ns⟩ := p
      cases cs with
      | nil =>
        show edF table par root b (fuel + 1) (.inr (x, k, [], ns))
          = optc_edist table par root b x k [] ns
        rw [edF, optc_edist]
      | cons c rest =>
        replace h : sizeOf (c :: rest) < fuel + 1 := h
        have hrest : sizeOf rest < fuel := by
          simp only [List.cons.sizeOf_spec] at h
          omega
        have hc : sizeOf c < fuel := by
          simp only [List.cons.sizeOf_spec] at h
          omega
        show edF table par root b (fuel + 1) (.inr (x, k, c :: rest, ns))
          = optc_edist table par root b x k (c :: rest) ns
        rw [edF, optc_edist]
        by_cases hk : k = 0
        · rw [if_pos hk, if_pos hk]
        · rw [if_neg hk, if_neg hk]
          have hsp : ((c :: rest).attach.map (fun c2 =>
                edF table par root b fuel (.inl (c2.1, k))))
              = ((c :: rest).attach.map (fun c2 =>
                opt_edist table par root b c2.1 k)) := by
            apply List.map_congr_left
            intro c2 _
            have hlt := List.sizeOf_lt_of_mem c2.2
            apply ihl
            omega
          have hskip : edF table par root b fuel
                (.inr (x, k, rest, ns ++ [c.lab]))
              = optc_edist table par root b x k rest (ns ++ [c.lab]) :=
            ihr x k rest (ns ++ [c.lab]) hrest
          have hl1 : ∀ l : ℕ,
              edF table par root b fuel (.inl (c, l))
                = opt_edist table par root b c l :=
            fun l => ihl c l hc
          have hl2 : ∀ l : ℕ,
              edF table par root b fuel (.inr (x, k - l, rest, ns))
                = optc_edist table par root b x (k - l) rest ns :=
            fun l => ihr x (k - l) rest ns hrest
          simp only [hsp, hskip, hl1, hl2]

theorem opt_edist_fuel (t : RTree) (par : ℕ → ℕ) (root b k fuel : ℕ)
    (h : sizeOf t < fuel) :
    opt_edist (tableVal t) par root b t k
      = edF (tableValF t fuel) par root b fuel (.inl (t, k)) := by
  have htab : tableValF t fuel = tableVal t := by
    funext x key
    exact tableValF_eq t fuel x key (le_of_lt h)
  rw [htab]
  exact (edF_eq (tableVal t) par root b fuel (.inl (t, k)) h).symm

/-! ## Concrete E_dist runs on the double broom -/

theorem edist_dp_root0_eval :
    ExpDist.optimal_placement Gx 2 (fun l => l.head?)
      = .ok ((((5 : ℚ) / 9 : ℚ) : WithTop ℚ), [1, 5]) := by
  have h0 : ExpDist.optimal_placement Gx 2 (fun l => l.head?)
      = .ok (WithTop.map (fun e : ℚ => e / (Gx.nodes.length : ℚ))
          (opt_edist (tableVal tGx) (parentOf tGx) 0 2 tGx 2).1,
        (opt_edist (tableVal tGx) (parentOf tGx) 0 2 tGx 2).2) := by
    rfl
  rw [h0, opt_edist_fuel tGx (parentOf tGx) 0 2 2 200
    (by with_unfolding_all decide)]
  exact congrArg Except.ok (by with_unfolding_all decide)

theorem edist_dp_root2_eval :
    ExpDist.optimal_placement Gx 2 (fun l => l.tail.head?)
      = .ok ((((8 : ℚ) / 27 : ℚ) : WithTop ℚ), [5, 8]) := by
  have h0 : ExpDist.optimal_placement Gx 2 (fun l => l.tail.head?)
      = .ok (WithTop.map (fun e : ℚ => e / (Gx.nodes.length : ℚ))
          (opt_edist (tableVal tGx2) (parentOf tGx2) 2 2 tGx2 2).1,
        (opt_edist (tableVal tGx2) (parentOf tGx2) 2 2 tGx2 2).2) := by
    rfl
  rw [h0, opt_edist_fuel tGx2 (parentOf tGx2) 2 2 2 200
    (by with_unfolding_all decide)]
  exact congrArg Except.ok (by with_unfolding_all decide)

theorem edist_brute_eval :
    Utilities.exp_dist Gx (find_leaves Gx) 2
      = .ok (((8 : ℚ) / 27 : ℚ), [5, 8]) := by
  show (if (2 : ℕ) < 2
      then (.error .InvalidBudget : Except PlacementError (ℚ × List ℕ))
      else _) = _
  rw [if_neg (by omega)]
  exact congrArg Except.ok (by with_unfolding_all decide)

/-- C2: FALSIFIED — on the valid 9-node tree `Gx` with budget `2`
(`2 ≤ b ≤ |L| = 3`) and the root choice falling on node `0`, the E_dist
dynamic program returns objective `5/9` while the brute-force oracle
`utilities.exp_dist` returns `8/27`: `_optc` caps the sensors sent into
one child at `min(k, budget−1)` and only allows the full-budget special
when the node differs from the root, so a placement with both sensors
inside a single root child is never scored. -/
theorem claim2_counterexample :
    is_tree Gx = true
      ∧ 2 ≤ (find_leaves Gx).length
      ∧ 0 ∈ nonLeaves Gx
      ∧ (nonLeaves Gx).head? = some 0
      ∧ ExpDist.optimal_placement Gx 2 (fun l => l.head?)
          = .ok ((((5 : ℚ) / 9 : ℚ) : WithTop ℚ), [1, 5])
      ∧ Utilities.exp_dist Gx (find_leaves Gx) 2
          = .ok (((8 : ℚ) / 27 : ℚ), [5, 8])
      ∧ ((5 : ℚ) / 9 : ℚ) ≠ ((8 : ℚ) / 27 : ℚ) :=
  ⟨by decide, by decide, by decide, by decide,
    edist_dp_root0_eval, edist_brute_eval, by with_unfolding_all decide⟩

/-- C3 (amended): the P_err half of the claim holds — any two runs of
`prob_err.optimal_placement` on a tree input that differ only in the
(faithfully rooted) non-leaf root return the same objective value, both
being equal to the brute-force objective. -/
theorem claim3_root_independent (G : Graph) (b : ℕ)
    (pick1 pick2 : List ℕ → Option ℕ) (root1 root2 : ℕ) (t1 t2 : RTree)
    (hpick1 : pick1 (nonLeaves G) = some root1)
    (hpick2 : pick2 (nonLeaves G) = some root2)
    (htree : is_tree G = true)
    (ht1 : dfsTree G G.nodes.length root1 root1 = t1)
    (ht2 : dfsTree G G.nodes.length root2 root2 = t2)
    (hwf1 : t1.wf) (hwf2 : t2.wf)
    (hperm1 : G.nodes.Perm (nodesOf t1))
    (hperm2 : G.nodes.Perm (nodesOf t2))
    (hdist1 : ∀ u ∈ G.nodes, ∀ v ∈ G.nodes, gdist G u v = tdist t1 u v)
    (hdist2 : ∀ u ∈ G.nodes, ∀ v ∈ G.nodes, gdist G u v = tdist t2 u v)
    (hleaves1 : find_leaves G = leavesOf t1)
    (hleaves2 : find_leaves G = leavesOf t2)
    (hkids1 : 2 ≤ t1.kids.length) (hkids2 : 2 ≤ t2.kids.length)
    (hb2 : 2 ≤ b) (hbL : b ≤ (find_leaves G).length) :
    ∃ (q : ℚ) (w1 w2 : List ℕ),
      ProbErr.optimal_placement G b pick1 = .ok (((q : ℚ) : WithTop ℚ), w1)
      ∧ ProbErr.optimal_placement G b pick2
          = .ok (((q : ℚ) : WithTop ℚ), w2) := by
  rcases perr_refinement_core G b pick1 root1 t1 hpick1 htree ht1 hwf1
      hperm1 hdist1 hleaves1 hkids1 hb2 hbL with ⟨q1, w1, w1b, h1, h1b⟩
  rcases perr_refinement_core G b pick2 root2 t2 hpick2 htree ht2 hwf2
      hperm2 hdist2 hleaves2 hkids2 hb2 hbL with ⟨q2, w2, w2b, h2, h2b⟩
  have h3 : (q1, w1b) = (q2, w2b) := by
    have h4 := h1b.symm.trans h2b
    injection h4
  rw [Prod.mk.injEq] at h3
  rw [← h3.1] at h2
  exact ⟨q1, w1, w2, h1, h2⟩

/-- Witness for C3: the double broom `Gx` with budget 2, rooted at `0`
(head of the candidate list) and at `2` (second candidate): both P_err
runs return the same objective. -/
theorem claim3_root_independent_witness :
    ∃ (q : ℚ) (w1 w2 : List ℕ),
      ProbErr.optimal_placement Gx 2 (fun l => l.head?)
        = .ok (((q : ℚ) : WithTop ℚ), w1)
      ∧ ProbErr.optimal_placement Gx 2 (fun l => l.tail.head?)
        = .ok (((q : ℚ) : WithTop ℚ), w2) :=
  claim3_root_independent Gx 2 (fun l => l.head?) (fun l => l.tail.head?)
    0 2 tGx tGx2 rfl rfl (by decide) rfl rfl
    (by show (nodesOf tGx).Nodup
        decide)
    (by show (nodesOf tGx2).Nodup
        decide)
    (by decide) (by decide) (by decide) (by decide) (by decide) (by decide)
    (by decide) (by decide) (by decide) (by decide)

/-- C3: counterexample to the E_dist half — two `exp_dist` runs on the
same valid tree `Gx` with budget 2 that differ only in the chosen
non-leaf root (`0`, the head of the candidate list, versus `2`, the
second candidate) return different objective values, `5/9` and `8/27`. -/
theorem claim3_counterexample :
    is_tree Gx = true
      ∧ (nonLeaves Gx).head? = some 0
      ∧ (nonLeaves Gx).tail.head? = some 2
      ∧ 0 ∈ nonLeaves Gx ∧ 2 ∈ nonLeaves Gx
      ∧ ExpDist.optimal_placement Gx 2 (fun l => l.head?)
          = .ok ((((5 : ℚ) / 9 : ℚ) : WithTop ℚ), [1, 5])
      ∧ ExpDist.optimal_placement Gx 2 (fun l => l.tail.head?)
          = .ok ((((8 : ℚ) / 27 : ℚ) : WithTop ℚ), [5, 8])
      ∧ (((5 : ℚ) / 9 : ℚ) : WithTop ℚ) ≠ (((8 : ℚ) / 27 : ℚ) : WithTop ℚ) :=
  ⟨by decide, by decide, by decide, by decide, by decide,
    edist_dp_root0_eval, edist_dp_root2_eval, by with_unfolding_all decide⟩

end SensorPlacement
